import Mathlib

/-!
# Golomb coder (src/golomb.hpp, src/golomb.cpp, src/golomb_main.cpp)

Shallow embedding of the bit writer, the bit reader and the Golomb coder.

* A bit string is the source's std::string over the alphabet '0' / '1'; it is
  embedded as a list of booleans, true standing for the character '1'.
* uint64_t values are natural numbers, every operation that can leave the range
  is followed by an explicit reduction modulo 2 ^ 64.
* int64_t values are integers; negation, shift and subtraction on them wrap
  around in two's complement (wrapI64).
* A thrown exception is the error side of Except.
-/

/-! ## Machine integers -/

/-- Conversion of a signed value to uint64_t: reduction modulo 2 ^ 64. -/
def toU64 (x : Int) : Nat := (x % 2 ^ 64).toNat

/-- Two's complement wrap-around of a mathematical integer into int64_t. -/
def wrapI64 (x : Int) : Int := (x + 2 ^ 63) % 2 ^ 64 - 2 ^ 63

/-- Conversion of a uint64_t value to int64_t. -/
def toI64 (n : Nat) : Int := wrapI64 (n : Int)

/-! ## BitWriter -/

/-- The writer of golomb.hpp: the accumulated string of bits. -/
structure BitWriter where
  bits : List Bool
deriving DecidableEq, Repr

/-- BitWriter::writeBit: push one character at the end. -/
def BitWriter.writeBit (w : BitWriter) (b : Bool) : BitWriter :=
  { bits := w.bits ++ [b] }

/-- Loop of BitWriter::writeBits, the first argument being i + 1 for the loop
variable i, which runs from count - 1 down to 0. -/
def BitWriter.writeBitsLoop (value : Nat) : Nat → BitWriter → BitWriter
  | 0, w => w
  | i + 1, w => BitWriter.writeBitsLoop value i (w.writeBit (((value >>> i) &&& 1) != 0))

/-- BitWriter::writeBits(value, count). The count is an int in the source; a
negative count runs no iteration, exactly as count 0 does, so the count is a
natural number here. -/
def BitWriter.writeBits (w : BitWriter) (value : Nat) (count : Nat) : BitWriter :=
  BitWriter.writeBitsLoop value count w

/-! ## BitReader -/

/-- The exceptions thrown while decoding (all are std::runtime_error in the
source, told apart by their message), and loopFuel, which marks an exhausted
iteration bound of the embedding and is never produced with the bounds used
below. -/
inductive DecodeError
  | outOfBits
  | noBitsForSign
  | unexpectedEndM1
  | unexpectedEndUnary
  | loopFuel
deriving DecidableEq, Repr

/-- The errors that the source can throw on an exhausted stream. -/
def DecodeError.isStreamUnderflow : DecodeError → Bool
  | .outOfBits => true
  | .noBitsForSign => true
  | .unexpectedEndM1 => true
  | .unexpectedEndUnary => true
  | .loopFuel => false

/-- The reader of golomb.hpp: a view of the string and a cursor. -/
structure BitReader where
  bits : List Bool
  pos : Nat
deriving DecidableEq, Repr

/-- BitReader::BitReader: the cursor starts at 0. -/
def BitReader.new (bstr : List Bool) : BitReader := { bits := bstr, pos := 0 }

/-- BitReader::hasMore. -/
def BitReader.hasMore (r : BitReader) : Bool := decide (r.pos < r.bits.length)

/-- BitReader::readBit: throws when the cursor is at the end, otherwise returns
the bit under the cursor and advances the cursor. -/
def BitReader.readBit (r : BitReader) : Except DecodeError (Bool × BitReader) :=
  if r.pos ≥ r.bits.length then .error .outOfBits
  else .ok (r.bits.getD r.pos false, { r with pos := r.pos + 1 })

/-- Loop of BitReader::readBits: the first argument is the number of iterations
left, the last one the accumulator v. -/
def BitReader.readBitsLoop : Nat → BitReader → Nat → Except DecodeError (Nat × BitReader)
  | 0, r, v => .ok (v, r)
  | k + 1, r, v =>
    match r.readBit with
    | .error e => .error e
    | .ok (bit, r1) =>
      BitReader.readBitsLoop k r1 (((v <<< 1) % 2 ^ 64) ||| (if bit then 1 else 0))

/-- BitReader::readBits(count); as for writeBits a negative count behaves as 0. -/
def BitReader.readBits (r : BitReader) (count : Nat) : Except DecodeError (Nat × BitReader) :=
  if count = 0 then .ok (0, r) else BitReader.readBitsLoop count r 0

/-! ## Golomb -/

/-- The two ways of coding negative numbers. -/
inductive NegativeMode
  | SIGN_MAGNITUDE
  | INTERLEAVED
deriving DecidableEq, Repr

/-- The fields of class Golomb. -/
structure Golomb where
  m : Nat
  b : Nat
  cutoff : Nat
  negMode : NegativeMode
deriving DecidableEq, Repr

/-- Failures of the constructor: the std::invalid_argument it throws, and
shiftCountOutOfRange, which stands for the constructor reaching the evaluation
of 1ULL << 64. The language leaves that shift undefined; where the shift count
is taken modulo 64, or the shifted value modulo 2 ^ 64, the loop condition stays
true and the loop never ends. In each reading the constructor yields no coder. -/
inductive CtorError
  | invalidArgument
  | shiftCountOutOfRange
deriving DecidableEq, Repr

/-- The loop "while ((1ULL << b) < m) ++b" of the constructor. The first
argument is 64 - b, the number of shift counts still in range: when it is 0 the
loop has to evaluate 1ULL << 64. -/
def Golomb.bLoop (m : Nat) : Nat → Nat → Except CtorError Nat
  | 0, _ => .error .shiftCountOutOfRange
  | k + 1, b => if 2 ^ b < m then Golomb.bLoop m k (b + 1) else .ok b

/-- Golomb::Golomb(m_, negMode_). -/
def Golomb.new (m : Nat) (negMode : NegativeMode) : Except CtorError Golomb :=
  if m = 0 then .error .invalidArgument
  else
    match Golomb.bLoop m 64 0 with
    | .error e => .error e
    | .ok b =>
      .ok { m := m, b := b,
            cutoff := if m = 1 then 0 else (2 ^ b + 2 ^ 64 - m) % 2 ^ 64,
            negMode := negMode }

/-- Golomb::toZigZag. -/
def Golomb.toZigZag (x : Int) : Nat :=
  if x ≥ 0 then (toU64 x <<< 1) % 2 ^ 64
  else toU64 (wrapI64 (wrapI64 (wrapI64 (-x) * 2) - 1))

/-- Golomb::fromZigZag. -/
def Golomb.fromZigZag (z : Nat) : Int :=
  if z &&& 1 = 0 then toI64 (z >>> 1)
  else wrapI64 (-(toI64 (((z + 1) % 2 ^ 64) >>> 1)))

/-- The loop "for (i = 0; i < n; ++i) w.writeBit(false)". -/
def BitWriter.writeZeros : Nat → BitWriter → BitWriter
  | 0, w => w
  | n + 1, w => BitWriter.writeZeros n (w.writeBit false)

/-- Golomb::encodeUnsigned(n, w). -/
def Golomb.encodeUnsigned (g : Golomb) (n : Nat) (w : BitWriter) : BitWriter :=
  if g.m = 1 then
    (BitWriter.writeZeros n w).writeBit true
  else
    let q := n / g.m
    let r := n % g.m
    let w1 := (BitWriter.writeZeros q w).writeBit true
    if r < g.cutoff then w1.writeBits r (g.b - 1)
    else w1.writeBits ((r + g.cutoff) % 2 ^ 64) g.b

/-- The loop "while (true)" of Golomb::decodeUnsigned that reads the unary part;
e is the exception thrown at the end of the stream, the second argument bounds
the number of iterations. -/
def Golomb.unaryLoop (e : DecodeError) :
    Nat → BitReader → Nat → Except DecodeError (Nat × BitReader)
  | 0, _, _ => .error .loopFuel
  | fuel + 1, r, q =>
    if !r.hasMore then .error e
    else
      match r.readBit with
      | .error err => .error err
      | .ok (bit, r1) =>
        if bit then .ok (q, r1) else Golomb.unaryLoop e fuel r1 ((q + 1) % 2 ^ 64)

/-- Golomb::decodeUnsigned(r). Each iteration of the unary loop that does not
leave it advances the cursor, so the number of unread bits plus one bounds the
iterations. -/
def Golomb.decodeUnsigned (g : Golomb) (r : BitReader) : Except DecodeError (Nat × BitReader) :=
  if g.m = 1 then
    Golomb.unaryLoop .unexpectedEndM1 (r.bits.length - r.pos + 1) r 0
  else
    match Golomb.unaryLoop .unexpectedEndUnary (r.bits.length - r.pos + 1) r 0 with
    | .error e => .error e
    | .ok (q, r1) =>
      if g.b = 0 then .ok ((q * g.m) % 2 ^ 64, r1)
      else
        match r1.readBits (g.b - 1) with
        | .error e => .error e
        | .ok (x, r2) =>
          if x < g.cutoff then .ok ((q * g.m + x) % 2 ^ 64, r2)
          else
            match r2.readBit with
            | .error e => .error e
            | .ok (bit, r3) =>
              let nextbit := if bit then 1 else 0
              let combined := ((x <<< 1) % 2 ^ 64) ||| nextbit
              let r_value := (combined + 2 ^ 64 - g.cutoff) % 2 ^ 64
              .ok ((q * g.m + r_value) % 2 ^ 64, r3)

/-- Golomb::encode(value). -/
def Golomb.encode (g : Golomb) (value : Int) : List Bool :=
  let w : BitWriter := { bits := [] }
  if value < 0 then
    if g.negMode = .SIGN_MAGNITUDE then
      (g.encodeUnsigned (toU64 (wrapI64 (-value))) (w.writeBit true)).bits
    else
      (g.encodeUnsigned (Golomb.toZigZag value) w).bits
  else
    if g.negMode = .SIGN_MAGNITUDE then
      (g.encodeUnsigned (toU64 value) (w.writeBit false)).bits
    else
      (g.encodeUnsigned (Golomb.toZigZag value) w).bits

/-- Golomb::decode(bits). -/
def Golomb.decode (g : Golomb) (bits : List Bool) : Except DecodeError (Int × Nat) :=
  let r := BitReader.new bits
  if g.negMode = .SIGN_MAGNITUDE then
    if !r.hasMore then .error .noBitsForSign
    else
      match r.readBit with
      | .error e => .error e
      | .ok (sign, r1) =>
        match g.decodeUnsigned r1 with
        | .error e => .error e
        | .ok (mag, r2) => .ok (if sign then wrapI64 (-(toI64 mag)) else toI64 mag, r2.pos)
  else
    match g.decodeUnsigned r with
    | .error e => .error e
    | .ok (z, r1) => .ok (Golomb.fromZigZag z, r1.pos)

/-- Golomb::encodeUnsignedToString. -/
def Golomb.encodeUnsignedToString (g : Golomb) (value : Nat) : List Bool :=
  (g.encodeUnsigned value { bits := [] }).bits

/-- Golomb::decodeUnsignedFromString. -/
def Golomb.decodeUnsignedFromString (g : Golomb) (bits : List Bool) :
    Except DecodeError (Nat × Nat) :=
  match g.decodeUnsigned (BitReader.new bits) with
  | .error e => .error e
  | .ok (v, r) => .ok (v, r.pos)

/-! ## golomb_main.cpp: the encode operation -/

/-- The loop of lines 118-124 of golomb_main.cpp: the codeword of every value is
appended to the string concat. -/
def concatEncode (coder : Golomb) (values : List Int) : List Bool :=
  values.foldl (fun concat v => concat ++ coder.encode v) []

/-- The loop of lines 130-144 of golomb_main.cpp, which decodes the concatenated
stream from the running cursor pos. The values the source prints are collected
in the last argument; the result is this list and the final cursor. The first
argument bounds the number of iterations. -/
def verifyLoop (coder : Golomb) (concat : List Bool) :
    Nat → Nat → List Int → Except DecodeError (List Int × Nat)
  | 0, _, _ => .error .loopFuel
  | fuel + 1, pos, printed =>
    if pos < concat.length then
      match coder.decode (concat.drop pos) with
      | .error e => .error e
      | .ok (decoded, consumed) =>
        if consumed = 0 then .ok (printed, pos)
        else verifyLoop coder concat fuel (pos + consumed) (printed ++ [decoded])
    else .ok (printed, pos)

/-- The verification pass of the encode operation: pos starts at 0. Every
iteration that continues advances pos by at least one bit, so the length of the
stream plus one bounds the iterations. -/
def decodeConcatenated (coder : Golomb) (concat : List Bool) :
    Except DecodeError (List Int × Nat) :=
  verifyLoop coder concat (concat.length + 1) 0 []

/-! ## Specification-level vocabulary -/

/-- The value v written most significant bit first in count bits: the bit at
index i of the result is bit (count - 1 - i) of v. -/
def msbFirst (v : Nat) : Nat → List Bool
  | 0 => []
  | i + 1 => v.testBit i :: msbFirst v i

/-- The relation between the fields of a coder that the constructor
establishes: b is the least exponent with m ≤ 2 ^ b, and cutoff = 2 ^ b - m. -/
def Golomb.WellFormed (g : Golomb) : Prop :=
  1 ≤ g.m ∧ g.b ≤ 63 ∧ g.m ≤ 2 ^ g.b ∧ (g.b = 0 ∨ 2 ^ (g.b - 1) < g.m) ∧
    g.cutoff = 2 ^ g.b - g.m

instance (g : Golomb) : Decidable g.WellFormed := by
  unfold Golomb.WellFormed
  exact inferInstance

/-- The codewords of a list of values, one after the other. -/
def codeStream (g : Golomb) : List Int → List Bool
  | [] => []
  | v :: vs => g.encode v ++ codeStream g vs

/-- One step of the accumulation of BitReader::readBits: v = (v << 1) | bit. -/
def accStep (v : Nat) (bit : Bool) : Nat := ((v <<< 1) % 2 ^ 64) ||| (if bit then 1 else 0)

/-- The accumulator of BitReader::readBits after the bits of a list were read. -/
def accBits (v0 : Nat) (l : List Bool) : Nat := l.foldl accStep v0

/-- The unread part of the stream of a reader. -/
def BitReader.rest (r : BitReader) : List Bool := r.bits.drop r.pos

/-! ## Calls on a reader -/

/-- The calls a client can make on a BitReader. -/
inductive ReaderCall
  | hasMore
  | readBit
  | readBits (count : Nat)
deriving DecidableEq, Repr

/-- The loop of BitReader::readBits seen from the reader: the reader the loop
leaves behind, also when readBit throws in the middle, and the bits read until
then. The first argument is the number of iterations left. -/
def BitReader.readBitsTrace : Nat → BitReader → BitReader × List Bool
  | 0, r => (r, [])
  | k + 1, r =>
    match r.readBit with
    | .error _ => (r, [])
    | .ok (bit, r1) =>
      let res := BitReader.readBitsTrace k r1
      (res.1, bit :: res.2)

/-- The reader after a call, whether the call returned or threw, and the bits
the call took from the stream. -/
def BitReader.call (r : BitReader) : ReaderCall → BitReader × List Bool
  | .hasMore => (r, [])
  | .readBit =>
    match r.readBit with
    | .error _ => (r, [])
    | .ok (bit, r1) => (r1, [bit])
  | .readBits count => if count = 0 then (r, []) else BitReader.readBitsTrace count r

/-- A sequence of calls, from left to right: the final reader and all the bits
taken from the stream, in order. -/
def BitReader.run (r : BitReader) : List ReaderCall → BitReader × List Bool
  | [] => (r, [])
  | c :: cs =>
    let step := r.call c
    let res := BitReader.run step.1 cs
    (res.1, step.2 ++ res.2)

/-! ## image_codec.cpp -/

/-- Modelled from the spec: the OpenCV matrix type cv::Mat is not part of the
repository. The codec uses it as an 8-bit single-channel image given by its
height, its width and a flat row-major pixel buffer. -/
structure Mat where
  rows : Nat
  cols : Nat
  data : List Nat
deriving DecidableEq, Repr

/-- The pixel img.ptr<uint8_t>(r)[c], promoted to int. -/
def Mat.at (img : Mat) (r c : Nat) : Int := (img.data.getD (r * img.cols + c) 0 : Nat)

/-- Lines 74-77 and 160-162 of image_codec.cpp: the value selected from
a = left, b = top and cval = p = left + top - topleft. -/
def medianRule (left top topleft : Int) : Int :=
  let p := left + top - topleft
  let a := left
  let b := top
  let cval := p
  let mx := max a (max b cval)
  let mn := min a (min b cval)
  if a ≠ mx ∧ a ≠ mn then a else if b ≠ mx ∧ b ≠ mn then b else cval

/-- Lines 67-78 (encoder, over the input image) and 153-163 (decoder, over the
pixels already written) of image_codec.cpp: the prediction for position (r, c)
from the pixels px. The first argument is the predictor variable tested against
0 (predictor in the encoder, pred8 in the decoder). -/
def predict (predictor : Int) (px : Nat → Nat → Int) (r c : Nat) : Int :=
  if predictor = 0 then
    (if c = 0 then 0 else px r (c - 1))
  else
    let left := if c = 0 then 0 else px r (c - 1)
    let top := if r = 0 then 0 else px (r - 1) c
    let topleft := if r = 0 ∨ c = 0 then 0 else px (r - 1) (c - 1)
    medianRule left top topleft

/-- Two nested loops "for r < h, for c < w" whose body pushes one value, computed
from the values pushed so far and the position, at the end of a list. -/
def pushLoop {α : Type} (h w : Nat) (f : List α → Nat → Nat → α) : List α :=
  (List.range h).foldl
    (fun out r => (List.range w).foldl (fun out c => out ++ [f out r c]) out) []

/-- Lines 63-82 of image_codec.cpp: the residuals cur - pred in row-major
order. -/
def computeResiduals (predictor : Int) (img : Mat) : List Int :=
  pushLoop img.rows img.cols (fun _ r c => img.at r c - predict predictor img.at r c)

/-- Conversion of an int64_t value to int. -/
def toI32 (x : Int) : Int := (x + 2 ^ 31) % 2 ^ 32 - 2 ^ 31

/-- Conversion of an int value to uint8_t. -/
def toU8 (x : Int) : Nat := (x % 256).toNat

/-- Failures of the image decoder after the header was read: an exception of
Golomb::decode, the message "Decoding error" (zero bits consumed), the message
"Decoded count mismatch", and the exhausted iteration bound of the embedding. -/
inductive ImageError
  | golomb (e : DecodeError)
  | decodingError
  | countMismatch
  | loopFuel
deriving DecidableEq, Repr

/-- The loop of lines 139-146 of image_codec.cpp, total being (size_t)w*h. The
first argument bounds the number of iterations. -/
def decodeResidualsLoop (g : Golomb) (bits : List Bool) (total : Nat) :
    Nat → Nat → List Int → Except ImageError (List Int)
  | 0, _, _ => .error .loopFuel
  | fuel + 1, pos, residuals =>
    if pos < bits.length ∧ residuals.length < total then
      match g.decode (bits.drop pos) with
      | .error e => .error (.golomb e)
      | .ok (value, consumed) =>
        if consumed = 0 then .error .decodingError
        else decodeResidualsLoop g bits total fuel (pos + consumed)
          (residuals ++ [toI32 value])
    else .ok residuals

/-- Line 165 of image_codec.cpp: the clamp to 0 .. 255. -/
def clampPixel (val : Int) : Int := if val < 0 then 0 else if val > 255 then 255 else val

/-- Lines 149-168 of image_codec.cpp: the pixels written into the output
matrix, in row-major order. The index idx of the next residual is the number of
pixels written so far. -/
def reconstruct (pred8 : Int) (w h : Nat) (residuals : List Int) : List Nat :=
  pushLoop h w (fun out r c =>
    toU8 (clampPixel (predict pred8 (fun r1 c1 => ((out.getD (r1 * w + c1) 0 : Nat) : Int)) r c
      + residuals.getD out.length 0)))

/-- Lines 136-168 of image_codec.cpp: the decoder from the unpacked bit string
to the pixel buffer of the output image. Every iteration of the residual loop
that continues advances pos, so the length of the stream plus one bounds the
iterations. -/
def decodeImage (g : Golomb) (pred8 : Int) (w h : Nat) (bits : List Bool) :
    Except ImageError (List Nat) :=
  match decodeResidualsLoop g bits (w * h) (bits.length + 1) 0 [] with
  | .error e => .error e
  | .ok residuals =>
    if residuals.length ≠ w * h then .error .countMismatch
    else .ok (reconstruct pred8 w h residuals)

/-- The median of three integers. -/
def median3 (x y z : Int) : Int := max (min x y) (min (max x y) z)

/-- The values t r c for r < h and c < w in row-major order, as far as k. -/
def rowMajor {α : Type} (t : Nat → Nat → α) (w k : Nat) : List α :=
  (List.range k).map (fun j => t (j / w) (j % w))

/-! ## Doubles

The doubles that occur in golomb_audio_codec.cpp are finite: a double is
embedded as the rational number it denotes. Every arithmetic operation and
every conversion of the source is the exact operation followed by the rounding
F64.round of IEEE 754 binary64 (53 bits of precision, least exponent -1022,
round to nearest, ties to even), each operation being rounded on its own.
Overflow to infinity, which needs a magnitude of 2 ^ 1024, is outside the
embedding; the values of the codec stay below 2 ^ 17 (emaUpdate_bounds). -/

/-- The power of two with an integer exponent. -/
def F64.pow2 (k : Int) : ℚ := if 0 ≤ k then (2 : ℚ) ^ k.toNat else 1 / (2 : ℚ) ^ (-k).toNat

/-- The number of binary digits of n, the first argument bounding the
recursion. -/
def F64.bitLength : Nat → Nat → Nat
  | 0, _ => 0
  | fuel + 1, n => if n = 0 then 0 else F64.bitLength fuel (n / 2) + 1

/-- The exponent e with 2 ^ e ≤ q < 2 ^ (e + 1) of a positive rational q. The
difference k of the digit counts of numerator and denominator satisfies
2 ^ (k - 1) < q < 2 ^ (k + 1). -/
def F64.ilog2 (q : ℚ) : Int :=
  let k : Int :=
    (F64.bitLength q.num.natAbs q.num.natAbs : Int) - (F64.bitLength q.den q.den : Int)
  if F64.pow2 k ≤ q then k else k - 1

/-- The integer nearest to x, the even one of the two when x is halfway. -/
def F64.roundHalfEven (x : ℚ) : Int :=
  let f := ⌊x⌋
  if x - f < 1 / 2 then f
  else if 1 / 2 < x - f then f + 1
  else if f % 2 = 0 then f else f + 1

/-- Rounding of a real value to binary64: to the nearest multiple of the unit in
the last place 2 ^ (e - 52), e being the exponent of the value and at least
-1022. -/
@[irreducible]
def F64.round (q : ℚ) : ℚ :=
  if q = 0 then 0
  else
    let ulp := F64.pow2 (max (F64.ilog2 |q|) (-1022) - 52)
    F64.roundHalfEven (q / ulp) * ulp

/-! ## golomb_audio_codec.cpp -/

/-- The constant "const double alpha = 0.01": the double nearest to 1 / 100. -/
def alpha : ℚ := F64.round (1 / 100)

/-- The update "ema = (1.0 - alpha) * ema + alpha * std::abs((double)res)" of
encodeSamples and decodeSamples. -/
@[irreducible]
def emaUpdate (ema : ℚ) (res : Int) : ℚ :=
  F64.round (F64.round (F64.round (1 - alpha) * ema)
    + F64.round (alpha * |F64.round (res : ℚ)|))

/-- The function choose_m_from_ema: floor(ema + 0.5), the maximum with 1.0 and
the conversion to uint64_t. -/
@[irreducible]
def choose_m_from_ema (ema : ℚ) : Nat :=
  let r : ℚ := (⌊F64.round (ema + 1 / 2)⌋ : Int)
  toU64 ⌊max 1 r⌋

/-- The value std::clamp(x, -32768, 32767). -/
def clamp16 (x : Int) : Int := if x < -32768 then -32768 else if 32767 < x then 32767 else x

/-- Conversion of an int64_t value to int16_t. -/
def toI16 (x : Int) : Int := (x + 2 ^ 15) % 2 ^ 16 - 2 ^ 15

/-- The local variables of encodeSamples that live across the frames. -/
structure EncState where
  bits : List Bool
  emaL : ℚ
  emaR : ℚ
  prevL : Int
  first : Bool
deriving DecidableEq

/-- The state of encodeSamples before the first frame. -/
def EncState.init : EncState :=
  { bits := [], emaL := 1, emaR := 1, prevL := 0, first := true }

/-- The body of the loop of encodeSamples for frame i. The constructor of the
per-sample coder can throw. -/
def encodeFrame (samples : List Int) (channels : Nat) (i : Nat) (s : EncState) :
    Except CtorError EncState :=
  let L := samples.getD (i * channels + 0) 0
  let R := if channels = 2 then samples.getD (i * channels + 1) 0 else 0
  let predL := if s.first then 0 else s.prevL
  let resL := wrapI64 (L - predL)
  let mL := choose_m_from_ema s.emaL
  match Golomb.new mL .INTERLEAVED with
  | .error e => .error e
  | .ok gL =>
    let bits1 := s.bits ++ gL.encode resL
    let emaL1 := emaUpdate s.emaL resL
    if channels = 2 then
      let predR := L
      let resR := wrapI64 (R - predR)
      let mR := choose_m_from_ema s.emaR
      match Golomb.new mR .INTERLEAVED with
      | .error e => .error e
      | .ok gR =>
        .ok { bits := bits1 ++ gR.encode resR, emaL := emaL1,
              emaR := emaUpdate s.emaR resR, prevL := L, first := false }
    else
      .ok { bits := bits1, emaL := emaL1, emaR := s.emaR, prevL := L, first := false }

/-- The loop of encodeSamples: n frames starting with frame i. -/
def encodeLoop (samples : List Int) (channels : Nat) :
    Nat → Nat → EncState → Except CtorError EncState
  | 0, _, s => .ok s
  | n + 1, i, s =>
    match encodeFrame samples channels i s with
    | .error e => .error e
    | .ok s1 => encodeLoop samples channels n (i + 1) s1

/-- The function encodeSamples(samples, channels). -/
def encodeSamples (samples : List Int) (channels : Nat) : Except CtorError (List Bool) :=
  match encodeLoop samples channels (samples.length / channels) 0 EncState.init with
  | .error e => .error e
  | .ok s => .ok s.bits

/-- The exceptions of decodeSamples: those of the coder, and the four
std::runtime_error it throws itself. -/
inductive AudioError
  | ctor (e : CtorError)
  | golomb (e : DecodeError)
  | exhaustedLeft
  | zeroConsumedLeft
  | exhaustedRight
  | zeroConsumedRight
deriving DecidableEq, Repr

/-- The local variables of decodeSamples that live across the frames. -/
structure DecState where
  out : List Int
  emaL : ℚ
  emaR : ℚ
  prevL : Int
  first : Bool
  bitpos : Nat
deriving DecidableEq

/-- The state of decodeSamples before the first frame. -/
def DecState.init : DecState :=
  { out := [], emaL := 1, emaR := 1, prevL := 0, first := true, bitpos := 0 }

/-- The body of the loop of decodeSamples. The elements of out are int16_t
values, so the int arithmetic of the assignment to prevL cannot overflow. -/
def decodeFrame (bits : List Bool) (channels : Nat) (s : DecState) :
    Except AudioError DecState :=
  let totalBits := bits.length
  let mL := choose_m_from_ema s.emaL
  match Golomb.new mL .INTERLEAVED with
  | .error e => .error (.ctor e)
  | .ok gL =>
    if s.bitpos ≥ totalBits then .error .exhaustedLeft
    else
      match gL.decode (bits.drop s.bitpos) with
      | .error e => .error (.golomb e)
      | .ok (resL, consumedL) =>
        if consumedL = 0 then .error .zeroConsumedLeft
        else
          let bitpos1 := s.bitpos + consumedL
          let predL := if s.first then 0 else s.prevL
          let L := clamp16 (wrapI64 (predL + resL))
          let out1 := s.out ++ [toI16 L]
          let emaL1 := emaUpdate s.emaL resL
          if channels = 2 then
            let mR := choose_m_from_ema s.emaR
            match Golomb.new mR .INTERLEAVED with
            | .error e => .error (.ctor e)
            | .ok gR =>
              if bitpos1 ≥ totalBits then .error .exhaustedRight
              else
                match gR.decode (bits.drop bitpos1) with
                | .error e => .error (.golomb e)
                | .ok (resR, consumedR) =>
                  if consumedR = 0 then .error .zeroConsumedRight
                  else
                    let R := clamp16 (wrapI64 (L + resR))
                    let out2 := out1 ++ [toI16 R]
                    .ok { out := out2, emaL := emaL1, emaR := emaUpdate s.emaR resR,
                          prevL := out2.getLastD 0
                            - (out2.getD (out2.length - 1) 0 - out2.getD (out2.length - 2) 0),
                          first := false, bitpos := bitpos1 + consumedR }
          else
            .ok { out := out1, emaL := emaL1, emaR := s.emaR,
                  prevL := out1.getLastD 0 - 0, first := false, bitpos := bitpos1 }

/-- The loop of decodeSamples: n frames. -/
def decodeLoop (bits : List Bool) (channels : Nat) :
    Nat → DecState → Except AudioError DecState
  | 0, s => .ok s
  | n + 1, s =>
    match decodeFrame bits channels s with
    | .error e => .error e
    | .ok s1 => decodeLoop bits channels n s1

/-- The function decodeSamples(bits, channels, frames). -/
def decodeSamples (bits : List Bool) (channels : Nat) (frames : Nat) :
    Except AudioError (List Int) :=
  match decodeLoop bits channels frames DecState.init with
  | .error e => .error e
  | .ok s => .ok s.out

/-- The invariant of the encoder state: both averages lie between 0 and 2 ^ 17
and the previous left sample is an int16_t value. -/
def EncState.Inv (s : EncState) : Prop :=
  0 ≤ s.emaL ∧ s.emaL ≤ 131072 ∧ 0 ≤ s.emaR ∧ s.emaR ≤ 131072 ∧
    -32768 ≤ s.prevL ∧ s.prevL ≤ 32767

/-- The decoder state agrees with the encoder state: same averages, same
predictor state, and the cursor is at the end of what the encoder has written. -/
def DecState.Matches (d : DecState) (s : EncState) : Prop :=
  d.emaL = s.emaL ∧ d.emaR = s.emaR ∧ d.prevL = s.prevL ∧ d.first = s.first ∧
    d.bitpos = s.bits.length

/-- The samples of frame i. -/
def frameSamples (samples : List Int) (channels : Nat) (i : Nat) : List Int :=
  if channels = 2 then [samples.getD (i * channels + 0) 0, samples.getD (i * channels + 1) 0]
  else [samples.getD (i * channels + 0) 0]

/-- The samples of the n frames that start with frame i. -/
def framesFrom (samples : List Int) (channels : Nat) : Nat → Nat → List Int
  | _, 0 => []
  | i, n + 1 => frameSamples samples channels i ++ framesFrom samples channels (i + 1) n

/-- The averages and the parameters derived from them with which encodeSamples
enters each of the first frames frames; an entry is none when the loop has
thrown before. -/
def encoderTrace (samples : List Int) (channels frames : Nat) :
    List (Option (ℚ × Nat × ℚ × Nat)) :=
  (List.range frames).map (fun i =>
    match encodeLoop samples channels i 0 EncState.init with
    | .ok s => some (s.emaL, choose_m_from_ema s.emaL, s.emaR, choose_m_from_ema s.emaR)
    | .error _ => none)

/-- The averages and the parameters derived from them with which decodeSamples
enters each of the first frames frames. -/
def decoderTrace (bits : List Bool) (channels frames : Nat) :
    List (Option (ℚ × Nat × ℚ × Nat)) :=
  (List.range frames).map (fun i =>
    match decodeLoop bits channels i DecState.init with
    | .ok s => some (s.emaL, choose_m_from_ema s.emaL, s.emaR, choose_m_from_ema s.emaR)
    | .error _ => none)

/-- The left-channel parameters of a trace. -/
def leftParams (trace : List (Option (ℚ × Nat × ℚ × Nat))) : List (Option Nat) :=
  trace.map (Option.map (fun t => t.2.1))

/-! ## golomb_main.cpp: the decode operation -/

/-- The ways the decode operation of golomb_main.cpp ends after the bit string
was read from the command line: all values printed (return 0), zero bits
consumed at a position (return 3), an exception of the coder caught at a
position (return 4); loopFuel marks the exhausted iteration bound of the
embedding. -/
inductive CliResult
  | decoded (values : List Int)
  | zeroConsumed (pos : Nat)
  | failed (pos : Nat) (e : DecodeError)
  | loopFuel
deriving DecidableEq, Repr

/-- The loop of lines 183-202 of golomb_main.cpp; the values printed are
collected in the last argument. The first argument bounds the number of
iterations. -/
def cliDecodeLoop (coder : Golomb) (bits : List Bool) : Nat → Nat → List Int → CliResult
  | 0, _, _ => .loopFuel
  | fuel + 1, pos, printed =>
    if pos < bits.length then
      match coder.decode (bits.drop pos) with
      | .error e => .failed pos e
      | .ok (decoded, consumed) =>
        if consumed = 0 then .zeroConsumed pos
        else cliDecodeLoop coder bits fuel (pos + consumed) (printed ++ [decoded])
    else .decoded printed

/-- The decode operation of golomb_main.cpp from pos = 0. Every iteration that
continues advances pos by at least one bit, so the length of the stream plus
one bounds the iterations. -/
def cliDecode (coder : Golomb) (bits : List Bool) : CliResult :=
  cliDecodeLoop coder bits (bits.length + 1) 0 []

/-! ## image_codec.cpp: the search for m, the packing and the file -/

/-- The constant SIZE_MAX of the 64-bit target: the largest size_t. -/
def SIZE_MAX : Nat := 2 ^ 64 - 1

/-- The variables best_len, best_m and best_bits of lines 85-86 of
image_codec.cpp. -/
structure Best where
  best_len : Nat
  best_m : Nat
  best_bits : List Bool
deriving DecidableEq, Repr

/-- Failures of the search: the exception of the constructor of the coder, and
the exhausted iteration bound of the embedding. -/
inductive SearchError
  | ctor (e : CtorError)
  | loopFuel
deriving DecidableEq, Repr

/-- The body of the two loops of lines 87-102 of image_codec.cpp for the
candidate m: the residuals are coded one after the other into bits, which
replaces the best so far when it is strictly shorter. -/
def tryCandidate (residuals : List Int) (m : Nat) (s : Best) : Except CtorError Best :=
  match Golomb.new m .INTERLEAVED with
  | .error e => .error e
  | .ok g =>
    let bits := residuals.foldl (fun bits v => bits ++ g.encode v) []
    if bits.length < s.best_len then
      .ok { best_len := bits.length, best_m := m, best_bits := bits }
    else .ok s

/-- The loop "for (uint32_t m = 1; m <= 64; m *= 2)" of lines 87-95. The first
argument bounds the number of iterations. -/
def powerSweep (residuals : List Int) : Nat → Nat → Best → Except SearchError Best
  | 0, _, _ => .error .loopFuel
  | fuel + 1, m, s =>
    if m ≤ 64 then
      match tryCandidate residuals m s with
      | .error e => .error (.ctor e)
      | .ok s1 => powerSweep residuals fuel ((m * 2) % 2 ^ 32) s1
    else .ok s

/-- The loop "for (uint32_t m = 3; m <= 32; m += 2)" of lines 96-102. The first
argument bounds the number of iterations. -/
def oddSweep (residuals : List Int) : Nat → Nat → Best → Except SearchError Best
  | 0, _, _ => .error .loopFuel
  | fuel + 1, m, s =>
    if m ≤ 32 then
      match tryCandidate residuals m s with
      | .error e => .error (.ctor e)
      | .ok s1 => oddSweep residuals fuel ((m + 2) % 2 ^ 32) s1
    else .ok s

/-- Lines 84-102 of image_codec.cpp: the search for the best m. The first loop
tests its condition 8 times and the second one 16 times. -/
def chooseM (residuals : List Int) : Except SearchError Best :=
  match powerSweep residuals 8 1 { best_len := SIZE_MAX, best_m := 1, best_bits := [] } with
  | .error e => .error e
  | .ok s => oddSweep residuals 16 3 s

/-- The function pack_bits_to_bytes of image_codec.cpp. An element of the
string out is embedded as the value 0 .. 255 of its byte, which is what the
file receives; the conversion back to char after "|=" is the reduction modulo
256. -/
def pack_bits_to_bytes (bits : List Bool) : List Nat :=
  let n := bits.length
  let nbytes := ((n + 7) % 2 ^ 64) / 8
  (List.range n).foldl
    (fun out i =>
      if bits.getD i false then
        out.set (i / 8) ((out.getD (i / 8) 0 ||| (1 <<< (7 - i % 8))) % 256)
      else out)
    (List.replicate nbytes 0)

/-- An access outside a buffer, at the given index; the language leaves it
undefined. -/
structure OutOfBounds where
  index : Nat
deriving DecidableEq, Repr

/-- The expression bytes[b] for a const std::string: the byte at b, the
terminating null character when b is the size of the string, and an access
outside the buffer beyond. -/
def stringAt (bytes : List Nat) (b : Nat) : Except OutOfBounds Nat :=
  if b < bytes.length then .ok (bytes.getD b 0)
  else if b = bytes.length then .ok 0
  else .error { index := b }

/-- The loop of unpack_bytes_to_bits: the first argument is the number of
iterations left, the second one the loop variable i. Whether char is signed
does not matter: for off ≤ 7 the expression (bytes[b] >> off) & 1 is bit off of
the byte in both cases. -/
def unpackStringLoop (bytes : List Nat) :
    Nat → Nat → List Bool → Except OutOfBounds (List Bool)
  | 0, _, out => .ok out
  | k + 1, i, out =>
    match stringAt bytes (i / 8) with
    | .error e => .error e
    | .ok byte =>
      unpackStringLoop bytes k (i + 1) (out ++ [((byte >>> (7 - i % 8)) &&& 1) != 0])

/-- The function unpack_bytes_to_bits of image_codec.cpp. -/
def unpack_bytes_to_bits (bytes : List Nat) (bits_len : Nat) :
    Except OutOfBounds (List Bool) :=
  unpackStringLoop bytes bits_len 0 []

/-- The content of a GIMG file after the magic "GIMG": the header fields
(uint32_t w and h, uint8_t pred8, uint32_t m, uint64_t bits_len), which the
source writes and reads as raw memory, and the payload bytes that follow. -/
structure GimgFile where
  w : Nat
  h : Nat
  pred8 : Nat
  m : Nat
  bits_len : Nat
  payload : List Nat
deriving DecidableEq, Repr

/-- Lines 60-118 of image_codec.cpp: the encoder from the image that was read
to the content of the file it writes. -/
def encodeImage (predictor : Int) (img : Mat) : Except SearchError GimgFile :=
  let residuals := computeResiduals predictor img
  match chooseM residuals with
  | .error e => .error e
  | .ok best =>
    .ok { w := img.cols % 2 ^ 32, h := img.rows % 2 ^ 32, pred8 := toU8 predictor,
          m := best.best_m, bits_len := best.best_bits.length % 2 ^ 64,
          payload := pack_bits_to_bytes best.best_bits }

/-- Failures of the image decoder on a file with the right magic: an access
outside the payload, the exception of the constructor of the coder, and the
failures of the decoder proper. -/
inductive FileError
  | outOfBounds (index : Nat)
  | ctor (e : CtorError)
  | image (e : ImageError)
deriving DecidableEq, Repr

/-- Lines 129-168 of image_codec.cpp: the decoder from the content of the file
to the pixel buffer of the image it writes. -/
def decodeFile (f : GimgFile) : Except FileError (List Nat) :=
  match unpack_bytes_to_bits f.payload f.bits_len with
  | .error e => .error (.outOfBounds e.index)
  | .ok bits =>
    match Golomb.new f.m .INTERLEAVED with
    | .error e => .error (.ctor e)
    | .ok g =>
      match decodeImage g (f.pred8 : Int) f.w f.h bits with
      | .error e => .error (.image e)
      | .ok pixels => .ok pixels

/-! ## golomb_audio_codec.cpp: packing and the WAV header -/

/-- The function packBitsToBytes: the bytes assigned to outBytes. -/
def packBitsToBytes (bits : List Bool) : List Nat :=
  let nbits := bits.length
  let nbytes := ((nbits + 7) % 2 ^ 64) / 8
  (List.range nbits).foldl
    (fun outBytes i =>
      if bits.getD i false then
        outBytes.set (i / 8) ((outBytes.getD (i / 8) 0 ||| (1 <<< (7 - i % 8))) % 256)
      else outBytes)
    (List.replicate nbytes 0)

/-- The expression bytes[b] for a std::vector: every index from the size on is
outside the buffer. -/
def vectorAt (bytes : List Nat) (b : Nat) : Except OutOfBounds Nat :=
  if b < bytes.length then .ok (bytes.getD b 0) else .error { index := b }

/-- The loop of unpackBytesToBits: the first argument is the number of
iterations left, the second one the loop variable i. -/
def unpackVectorLoop (bytes : List Nat) :
    Nat → Nat → List Bool → Except OutOfBounds (List Bool)
  | 0, _, bits => .ok bits
  | k + 1, i, bits =>
    match vectorAt bytes (i / 8) with
    | .error e => .error e
    | .ok b =>
      unpackVectorLoop bytes k (i + 1) (bits ++ [((b >>> (7 - i % 8)) &&& 1) != 0])

/-- The function unpackBytesToBits. -/
def unpackBytesToBits (bytes : List Nat) (nbits : Nat) : Except OutOfBounds (List Bool) :=
  unpackVectorLoop bytes nbits 0 []

/-- The struct WAVHeader (packed, 44 bytes); a char array is the list of its
four bytes. -/
structure WAVHeader where
  riff : List Nat
  overall_size : Nat
  wave : List Nat
  fmt_chunk_marker : List Nat
  length_of_fmt : Nat
  format_type : Nat
  channels : Nat
  sample_rate : Nat
  byterate : Nat
  block_align : Nat
  bits_per_sample : Nat
  data_chunk_header : List Nat
  data_size : Nat
deriving DecidableEq, Repr

/-- The uint16_t stored at offset o of the bytes, least significant byte
first. -/
def le16 (bytes : List Nat) (o : Nat) : Nat :=
  bytes.getD o 0 + 256 * bytes.getD (o + 1) 0

/-- The uint32_t stored at offset o of the bytes, least significant byte
first. -/
def le32 (bytes : List Nat) (o : Nat) : Nat :=
  bytes.getD o 0 + 256 * bytes.getD (o + 1) 0 + 65536 * bytes.getD (o + 2) 0
    + 16777216 * bytes.getD (o + 3) 0

/-- The four bytes at offset o. -/
def chars4 (bytes : List Nat) (o : Nat) : List Nat :=
  [bytes.getD o 0, bytes.getD (o + 1) 0, bytes.getD (o + 2) 0, bytes.getD (o + 3) 0]

/-- The header that "f.read(&hdr, sizeof(WAVHeader))" leaves in hdr when the
file starts with the given bytes, on the little-endian target. -/
def WAVHeader.ofBytes (bytes : List Nat) : WAVHeader :=
  { riff := chars4 bytes 0, overall_size := le32 bytes 4, wave := chars4 bytes 8,
    fmt_chunk_marker := chars4 bytes 12, length_of_fmt := le32 bytes 16,
    format_type := le16 bytes 20, channels := le16 bytes 22, sample_rate := le32 bytes 24,
    byterate := le32 bytes 28, block_align := le16 bytes 32, bits_per_sample := le16 bytes 34,
    data_chunk_header := chars4 bytes 36, data_size := le32 bytes 40 }

/-- The function readWav as far as its result and the header go: none stands
for "return false", the argument is the content of the file, none when the file
cannot be opened. After the two checks the function fills the samples (lines
49-51) and returns true; the samples are not part of this embedding. -/
def readWav (file : Option (List Nat)) : Option WAVHeader :=
  match file with
  | none => none
  | some bytes =>
    if bytes.length < 44 then none
    else
      let hdr := WAVHeader.ofBytes bytes
      if hdr.riff ≠ [82, 73, 70, 70] ∨ hdr.wave ≠ [87, 65, 86, 69] then none
      else if hdr.format_type ≠ 1 ∨ hdr.bits_per_sample ≠ 16 then none
      else some hdr

/-! ## Vocabulary for the search and the packing -/

/-- The candidates of the first loop, in the order they are tried. -/
def powerCandidates : List Nat := [1, 2, 4, 8, 16, 32, 64]

/-- The candidates of the second loop, in the order they are tried. -/
def oddCandidates : List Nat := [3, 5, 7, 9, 11, 13, 15, 17, 19, 21, 23, 25, 27, 29, 31]

/-- All candidates in the order they are tried. -/
def imageCandidates : List Nat := powerCandidates ++ oddCandidates

/-- The INTERLEAVED code of the residuals under the parameter m. -/
def candidateBits (residuals : List Int) (m : Nat) : List Bool :=
  match Golomb.new m .INTERLEAVED with
  | .error _ => []
  | .ok g => codeStream g residuals

/-- The update of the best so far by the candidate m. -/
def pick (residuals : List Int) (s : Best) (m : Nat) : Best :=
  if (candidateBits residuals m).length < s.best_len then
    { best_len := (candidateBits residuals m).length, best_m := m,
      best_bits := candidateBits residuals m }
  else s

/-- Bit i of a packed stream: bit 7 - i mod 8 of byte i / 8. -/
def bitAt (bytes : List Nat) (i : Nat) : Bool := (bytes.getD (i / 8) 0).testBit (7 - i % 8)

/-- The number of '0' bits at the start of a bit string. -/
def leadingZeros : List Bool → Nat
  | false :: t => leadingZeros t + 1
  | _ => 0
/-- A 44-byte WAV header with RIFF/WAVE magic, format 1 (PCM), 44100 Hz and 16
bits per sample, for the given channel count. -/
def wavHeaderBytes (channels : Nat) : List Nat :=
  [82, 73, 70, 70, 36, 0, 0, 0, 87, 65, 86, 69, 102, 109, 116, 32, 16, 0, 0, 0, 1, 0,
    channels % 256, channels / 256 % 256, 68, 172, 0, 0, 0, 0, 0, 0, 0, 0, 16, 0,
    100, 97, 116, 97, 0, 0, 0, 0]

/-- The bounds of the encoder state that hold before every frame: both averages
lie between the least positive double 2 ^ -1074 and 65535, and the previous
left sample is an int16_t value. -/
def EncState.Bounded (s : EncState) : Prop :=
  1 / 2 ^ 1074 ≤ s.emaL ∧ s.emaL ≤ 65535 ∧ 1 / 2 ^ 1074 ≤ s.emaR ∧ s.emaR ≤ 65535 ∧
    -32768 ≤ s.prevL ∧ s.prevL ≤ 32767

/-- The residuals that the body of the loop of encodeSamples computes in frame
i from the state s: resL and, for two channels, resR (lines 105-109 and
119-120). -/
def frameResiduals (samples : List Int) (channels : Nat) (i : Nat) (s : EncState) :
    List Int :=
  let L := samples.getD (i * channels + 0) 0
  let R := if channels = 2 then samples.getD (i * channels + 1) 0 else 0
  let predL := if s.first then 0 else s.prevL
  let resL := wrapI64 (L - predL)
  if channels = 2 then
    let predR := L
    [resL, wrapI64 (R - predR)]
  else [resL]

/-! ## Lemmas on the bit writer -/

theorem writeBit_bits (w : BitWriter) (b : Bool) : (w.writeBit b).bits = w.bits ++ [b] := rfl

theorem writeBitsLoop_bits (value : Nat) (k : Nat) (w : BitWriter) :
    (BitWriter.writeBitsLoop value k w).bits = w.bits ++ msbFirst value k := by
  induction k generalizing w with
  | zero => simp [BitWriter.writeBitsLoop, msbFirst]
  | succ i ih =>
    simp only [BitWriter.writeBitsLoop, msbFirst, ih, writeBit_bits, List.append_assoc,
      List.singleton_append]
    simp [Nat.testBit, Nat.and_comm]

theorem writeBits_bits (w : BitWriter) (value count : Nat) :
    (w.writeBits value count).bits = w.bits ++ msbFirst value count :=
  writeBitsLoop_bits value count w

theorem writeZeros_bits (n : Nat) (w : BitWriter) :
    (BitWriter.writeZeros n w).bits = w.bits ++ List.replicate n false := by
  induction n generalizing w with
  | zero => simp [BitWriter.writeZeros]
  | succ n ih =>
    simp only [BitWriter.writeZeros, ih, writeBit_bits, List.append_assoc, List.singleton_append]
    rfl

theorem msbFirst_length (v k : Nat) : (msbFirst v k).length = k := by
  induction k with
  | zero => rfl
  | succ i ih => simp [msbFirst, ih]

/-- Writing k + 1 bits is writing the k high bits and then the lowest bit. -/
theorem msbFirst_succ_eq (v k : Nat) :
    msbFirst v (k + 1) = msbFirst (v / 2) k ++ [v.testBit 0] := by
  induction k with
  | zero => simp [msbFirst]
  | succ i ih =>
    rw [msbFirst, ih]
    simp [msbFirst, Nat.testBit_succ]

/-! ## Lemmas on the bit reader -/

theorem rest_readBit_cons (r : BitReader) (b : Bool) (t : List Bool) (h : r.rest = b :: t) :
    r.readBit = .ok (b, { bits := r.bits, pos := r.pos + 1 }) ∧
      BitReader.rest { bits := r.bits, pos := r.pos + 1 } = t := by
  unfold BitReader.rest at h
  have hlt : r.pos < r.bits.length := by
    by_contra hge
    rw [List.drop_eq_nil_of_le (by omega)] at h
    exact List.noConfusion h
  have hget : r.bits[r.pos]? = some b := by
    rw [← List.head?_drop, h]; rfl
  refine ⟨?_, ?_⟩
  · unfold BitReader.readBit
    rw [if_neg (by omega)]
    simp [List.getD_eq_getElem?_getD, hget]
  · show r.bits.drop (r.pos + 1) = t
    rw [← List.drop_drop, h]
    rfl

theorem rest_readBit_nil (r : BitReader) (h : r.rest = []) :
    r.readBit = .error .outOfBits := by
  unfold BitReader.rest at h
  unfold BitReader.readBit
  rw [if_pos]
  have := List.drop_eq_nil_iff.mp h
  omega

theorem rest_hasMore (r : BitReader) (b : Bool) (t : List Bool) (h : r.rest = b :: t) :
    r.hasMore = true := by
  unfold BitReader.rest at h
  unfold BitReader.hasMore
  have hlt : r.pos < r.bits.length := by
    by_contra hge
    rw [List.drop_eq_nil_of_le (by omega)] at h
    exact List.noConfusion h
  simp [hlt]

theorem rest_nil_hasMore (r : BitReader) (h : r.rest = []) : r.hasMore = false := by
  unfold BitReader.rest at h
  unfold BitReader.hasMore
  have := List.drop_eq_nil_iff.mp h
  simp
  omega

theorem readBitsLoop_ok (k : Nat) : ∀ (r : BitReader) (v0 : Nat) (a t : List Bool),
    r.rest = a ++ t → a.length = k →
    BitReader.readBitsLoop k r v0 = .ok (accBits v0 a, { bits := r.bits, pos := r.pos + k }) ∧
      BitReader.rest { bits := r.bits, pos := r.pos + k } = t := by
  induction k with
  | zero =>
    intro r v0 a t h ha
    have : a = [] := List.length_eq_zero.mp ha
    subst this
    exact ⟨rfl, h⟩
  | succ k ih =>
    intro r v0 a t h ha
    cases a with
    | nil => simp at ha
    | cons b a1 =>
      obtain ⟨h1, h2⟩ := rest_readBit_cons r b (a1 ++ t) h
      have ha1 : a1.length = k := by simpa using ha
      obtain ⟨h3, h4⟩ := ih { bits := r.bits, pos := r.pos + 1 } (accStep v0 b) a1 t h2 ha1
      have hp : r.pos + 1 + k = r.pos + (k + 1) := by omega
      simp only [hp] at h3 h4
      refine ⟨?_, h4⟩
      simp only [BitReader.readBitsLoop, h1]
      exact h3

theorem readBitsLoop_short (k : Nat) : ∀ (r : BitReader) (v0 : Nat),
    r.rest.length < k → BitReader.readBitsLoop k r v0 = .error .outOfBits := by
  induction k with
  | zero => intro r v0 h; omega
  | succ k ih =>
    intro r v0 h
    cases hr : r.rest with
    | nil => simp only [BitReader.readBitsLoop, rest_readBit_nil r hr]
    | cons b t =>
      obtain ⟨h1, h2⟩ := rest_readBit_cons r b t hr
      simp only [BitReader.readBitsLoop, h1]
      apply ih
      rw [h2]
      rw [hr] at h
      simpa using h

theorem unaryLoop_ok (e : DecodeError) (q : Nat) : ∀ (fuel : Nat) (r : BitReader) (q0 : Nat)
    (t : List Bool), r.rest = List.replicate q false ++ true :: t → q < fuel →
    q0 + q < 2 ^ 64 →
    Golomb.unaryLoop e fuel r q0 = .ok (q0 + q, { bits := r.bits, pos := r.pos + (q + 1) }) ∧
      BitReader.rest { bits := r.bits, pos := r.pos + (q + 1) } = t := by
  induction q with
  | zero =>
    intro fuel r q0 t h hf hq
    cases fuel with
    | zero => omega
    | succ fuel =>
      simp only [List.replicate_zero, List.nil_append] at h
      obtain ⟨h1, h2⟩ := rest_readBit_cons r true t h
      refine ⟨?_, h2⟩
      simp [Golomb.unaryLoop, rest_hasMore r true t h, h1]
  | succ q ih =>
    intro fuel r q0 t h hf hq
    cases fuel with
    | zero => omega
    | succ fuel =>
      simp only [List.replicate_succ, List.cons_append] at h
      obtain ⟨h1, h2⟩ := rest_readBit_cons r false _ h
      have hmod : (q0 + 1) % 2 ^ 64 = q0 + 1 := Nat.mod_eq_of_lt (by omega)
      obtain ⟨h3, h4⟩ := ih fuel { bits := r.bits, pos := r.pos + 1 } (q0 + 1) t h2
        (by omega) (by omega)
      have hp : r.pos + 1 + (q + 1) = r.pos + (q + 1 + 1) := by omega
      have hq1 : q0 + 1 + q = q0 + (q + 1) := by omega
      simp only [hp, hq1] at h3 h4
      refine ⟨?_, h4⟩
      simp only [Golomb.unaryLoop, rest_hasMore r false _ h, h1, hmod, Bool.not_true,
        Bool.false_eq_true, if_false]
      exact h3

theorem readBits_ok (k : Nat) (r : BitReader) (a t : List Bool)
    (h : r.rest = a ++ t) (ha : a.length = k) :
    r.readBits k = .ok (accBits 0 a, { bits := r.bits, pos := r.pos + k }) ∧
      BitReader.rest { bits := r.bits, pos := r.pos + k } = t := by
  unfold BitReader.readBits
  by_cases hk : k = 0
  · subst hk
    have : a = [] := List.length_eq_zero.mp ha
    subst this
    exact ⟨by simp [accBits], h⟩
  · rw [if_neg hk]
    exact readBitsLoop_ok k r 0 a t h ha

theorem readBits_short (k : Nat) (r : BitReader) (h : r.rest.length < k) :
    r.readBits k = .error .outOfBits := by
  unfold BitReader.readBits
  rw [if_neg (by omega)]
  exact readBitsLoop_short k r 0 h

/-! ## Arithmetic of the accumulator -/

theorem accStep_eq (v : Nat) (bit : Bool) (hv : 2 * v < 2 ^ 64) :
    accStep v bit = 2 * v + (if bit then 1 else 0) := by
  unfold accStep
  rw [Nat.shiftLeft_eq, Nat.pow_one, Nat.mul_comm v 2, Nat.mod_eq_of_lt hv]
  have h := Nat.mul_add_lt_is_or (show (if bit then 1 else 0) < 2 ^ 1 by cases bit <;> simp) v
  rw [Nat.pow_one] at h
  exact h.symm

theorem testBit_as_mod (v i : Nat) :
    (if v.testBit i then 1 else 0) = v / 2 ^ i % 2 := by
  rw [Nat.testBit_to_div_mod]
  by_cases h : v / 2 ^ i % 2 = 1
  · simp [h]
  · have : v / 2 ^ i % 2 = 0 := by omega
    simp [this]

theorem accBits_msbFirst (v : Nat) (k : Nat) : ∀ (v0 : Nat),
    v0 * 2 ^ k + v % 2 ^ k < 2 ^ 64 →
    accBits v0 (msbFirst v k) = v0 * 2 ^ k + v % 2 ^ k := by
  induction k with
  | zero => intro v0 _; simp [accBits, msbFirst, Nat.mod_one]
  | succ k ih =>
    intro v0 h
    have hsplit : v % 2 ^ (k + 1) = v % 2 ^ k + 2 ^ k * (v / 2 ^ k % 2) := Nat.mod_pow_succ
    have hpow : 2 ^ (k + 1) = 2 * 2 ^ k := by rw [Nat.pow_succ, Nat.mul_comm]
    have hpos : 0 < 2 ^ k := Nat.two_pow_pos k
    have hbit := testBit_as_mod v k
    rw [hsplit, hpow] at h
    have hv0 : 2 * v0 < 2 ^ 64 := by
      have : 2 * v0 * 1 ≤ 2 * v0 * 2 ^ k := Nat.mul_le_mul_left _ hpos
      have e : v0 * (2 * 2 ^ k) = 2 * v0 * 2 ^ k := by ring
      omega
    have hstep := accStep_eq v0 (v.testBit k) hv0
    have hexp : (2 * v0 + v / 2 ^ k % 2) * 2 ^ k
        = v0 * (2 * 2 ^ k) + 2 ^ k * (v / 2 ^ k % 2) := by ring
    show accBits (accStep v0 (v.testBit k)) (msbFirst v k) = _
    rw [hstep, hbit, ih _ (by rw [hexp]; omega), hexp, hsplit, hpow]
    omega

/-! ## The constructor -/

theorem bLoop_ok (m : Nat) (hm : m ≤ 2 ^ 63) (k : Nat) : ∀ (b : Nat), k + b = 64 →
    (b = 0 ∨ 2 ^ (b - 1) < m) →
    ∃ b1, Golomb.bLoop m k b = .ok b1 ∧ b1 ≤ 63 ∧ m ≤ 2 ^ b1 ∧ (b1 = 0 ∨ 2 ^ (b1 - 1) < m) := by
  induction k with
  | zero =>
    intro b hb hinv
    have : b = 64 := by omega
    subst this
    simp at hinv
    omega
  | succ k ih =>
    intro b hb hinv
    unfold Golomb.bLoop
    by_cases hlt : 2 ^ b < m
    · rw [if_pos hlt]
      exact ih (b + 1) (by omega) (Or.inr (by simpa using hlt))
    · rw [if_neg hlt]
      exact ⟨b, rfl, by omega, by omega, hinv⟩

theorem new_ok (m : Nat) (negMode : NegativeMode) (h1 : 1 ≤ m) (h2 : m ≤ 2 ^ 63) :
    ∃ g, Golomb.new m negMode = .ok g ∧ g.m = m ∧ g.negMode = negMode ∧ g.WellFormed := by
  obtain ⟨b, hb, hb63, hle, hmin⟩ := bLoop_ok m h2 64 0 rfl (Or.inl rfl)
  have hpow : 2 ^ b ≤ 2 ^ 63 := Nat.pow_le_pow_right (by decide) hb63
  refine ⟨{ m := m, b := b, cutoff := if m = 1 then 0 else (2 ^ b + 2 ^ 64 - m) % 2 ^ 64,
            negMode := negMode }, ?_, rfl, rfl, ?_⟩
  · unfold Golomb.new
    rw [if_neg (by omega), hb]
  · refine ⟨h1, hb63, hle, hmin, ?_⟩
    show (if m = 1 then 0 else (2 ^ b + 2 ^ 64 - m) % 2 ^ 64) = 2 ^ b - m
    by_cases hm1 : m = 1
    · rw [if_pos hm1]
      subst hm1
      rcases hmin with h0 | h0
      · subst h0; rfl
      · have : 0 < 2 ^ (b - 1) := Nat.two_pow_pos _
        omega
    · rw [if_neg hm1]
      omega

theorem new_eq_ok (m : Nat) (negMode : NegativeMode) (g : Golomb)
    (h : Golomb.new m negMode = .ok g) (h2 : m ≤ 2 ^ 63) :
    g.m = m ∧ g.negMode = negMode ∧ g.WellFormed := by
  have h1 : 1 ≤ m := by
    by_contra h0
    have : m = 0 := by omega
    subst this
    simp [Golomb.new] at h
  obtain ⟨g1, hg1, ha, hb, hc⟩ := new_ok m negMode h1 h2
  rw [h] at hg1
  cases hg1
  exact ⟨ha, hb, hc⟩

/-! ## The unsigned code -/

theorem encodeUnsigned_bits (g : Golomb) (n : Nat) (w : BitWriter) :
    (g.encodeUnsigned n w).bits = w.bits ++ g.encodeUnsignedToString n := by
  unfold Golomb.encodeUnsignedToString Golomb.encodeUnsigned
  by_cases hm : g.m = 1
  · simp only [hm, if_true, writeBit_bits, writeZeros_bits, List.nil_append, List.append_assoc]
  · simp only [hm, if_false]
    split <;>
      simp only [writeBits_bits, writeBit_bits, writeZeros_bits, List.nil_append,
        List.append_assoc]

theorem encodeUnsignedToString_m1 (g : Golomb) (hm : g.m = 1) (n : Nat) :
    g.encodeUnsignedToString n = List.replicate n false ++ [true] := by
  unfold Golomb.encodeUnsignedToString Golomb.encodeUnsigned
  simp only [hm, if_true, writeBit_bits, writeZeros_bits, List.nil_append]

theorem encodeUnsignedToString_lt (g : Golomb) (hm : g.m ≠ 1) (n : Nat)
    (hr : n % g.m < g.cutoff) :
    g.encodeUnsignedToString n
      = List.replicate (n / g.m) false ++ true :: msbFirst (n % g.m) (g.b - 1) := by
  unfold Golomb.encodeUnsignedToString Golomb.encodeUnsigned
  simp only [hm, if_false, hr, if_true, writeBits_bits, writeBit_bits, writeZeros_bits,
    List.nil_append, List.append_assoc, List.singleton_append]

theorem encodeUnsignedToString_ge (g : Golomb) (hm : g.m ≠ 1) (n : Nat)
    (hr : ¬ n % g.m < g.cutoff) :
    g.encodeUnsignedToString n
      = List.replicate (n / g.m) false
          ++ true :: msbFirst ((n % g.m + g.cutoff) % 2 ^ 64) g.b := by
  unfold Golomb.encodeUnsignedToString Golomb.encodeUnsigned
  simp only [hm, if_false, hr, writeBits_bits, writeBit_bits, writeZeros_bits,
    List.nil_append, List.append_assoc, List.singleton_append]

theorem rest_length (r : BitReader) : r.rest.length = r.bits.length - r.pos := by
  simp [BitReader.rest]

theorem decodeUnsigned_encode (g : Golomb) (hg : g.WellFormed) (n : Nat) (hn : n < 2 ^ 64)
    (r : BitReader) (t : List Bool) (h : r.rest = g.encodeUnsignedToString n ++ t) :
    g.decodeUnsigned r
        = .ok (n, { bits := r.bits, pos := r.pos + (g.encodeUnsignedToString n).length }) ∧
      BitReader.rest { bits := r.bits, pos := r.pos + (g.encodeUnsignedToString n).length }
        = t := by
  obtain ⟨hm1, hb63, hle, hmin, hcut⟩ := hg
  have hlen := rest_length r
  by_cases hm : g.m = 1
  · rw [encodeUnsignedToString_m1 g hm] at h ⊢
    rw [List.append_assoc, List.singleton_append] at h
    have hfuel : n < r.bits.length - r.pos + 1 := by
      rw [← hlen, h]
      simp only [List.length_append, List.length_replicate, List.length_cons]
      omega
    obtain ⟨h3, h4⟩ := unaryLoop_ok .unexpectedEndM1 n _ r 0 t h hfuel (by omega)
    simp only [List.length_append, List.length_replicate, List.length_singleton]
    rw [Nat.zero_add] at h3
    refine ⟨?_, h4⟩
    unfold Golomb.decodeUnsigned
    rw [if_pos hm, h3]
  · have hb0 : g.b ≠ 0 := by
      intro hb
      rw [hb] at hle
      simp at hle
      omega
    have hb1 : g.b - 1 + 1 = g.b := by omega
    have hbpow : 2 ^ g.b = 2 * 2 ^ (g.b - 1) := by
      conv_lhs => rw [← hb1, Nat.pow_succ, Nat.mul_comm]
    have hmin1 : 2 ^ (g.b - 1) < g.m := by
      rcases hmin with h0 | h0
      · exact absurd h0 hb0
      · exact h0
    have hpow63 : 2 ^ g.b ≤ 2 ^ 63 := Nat.pow_le_pow_right (by decide) hb63
    have hmpos : 0 < g.m := by omega
    have hrlt : n % g.m < g.m := Nat.mod_lt _ hmpos
    have hdm : n / g.m * g.m + n % g.m = n := Nat.div_add_mod' n g.m
    have hqn : n / g.m ≤ n := Nat.div_le_self _ _
    by_cases hr : n % g.m < g.cutoff
    · rw [encodeUnsignedToString_lt g hm n hr] at h ⊢
      rw [List.append_assoc, List.cons_append] at h
      have hfuel : n / g.m < r.bits.length - r.pos + 1 := by
        rw [← hlen, h]
        simp only [List.length_append, List.length_replicate, List.length_cons]
        omega
      obtain ⟨h3, h4⟩ := unaryLoop_ok .unexpectedEndUnary (n / g.m) _ r 0 _ h hfuel (by omega)
      rw [Nat.zero_add] at h3
      obtain ⟨h5, h6⟩ := readBits_ok (g.b - 1) _ _ t h4 (msbFirst_length _ _)
      have hacc : accBits 0 (msbFirst (n % g.m) (g.b - 1)) = n % g.m := by
        have hmod : n % g.m % 2 ^ (g.b - 1) = n % g.m := Nat.mod_eq_of_lt (by omega)
        rw [accBits_msbFirst _ _ 0 (by rw [hmod]; omega), hmod]
        omega
      rw [hacc] at h5
      have hL : (List.replicate (n / g.m) false ++ true :: msbFirst (n % g.m) (g.b - 1)).length
          = n / g.m + 1 + (g.b - 1) := by
        simp only [List.length_append, List.length_replicate, List.length_cons, msbFirst_length]
        omega
      have hP : r.pos + (n / g.m + 1) + (g.b - 1) = r.pos + (n / g.m + 1 + (g.b - 1)) := by
        omega
      simp only [BitReader.bits, BitReader.pos] at h5 h6
      rw [hP] at h5 h6
      rw [hL]
      refine ⟨?_, h6⟩
      unfold Golomb.decodeUnsigned
      simp only [hm, if_false, h3, hb0, h5, hr, if_true, hdm, Nat.mod_eq_of_lt hn]
    · rw [encodeUnsignedToString_ge g hm n hr] at h ⊢
      rw [List.append_assoc, List.cons_append] at h
      have hfuel : n / g.m < r.bits.length - r.pos + 1 := by
        rw [← hlen, h]
        simp only [List.length_append, List.length_replicate, List.length_cons]
        omega
      obtain ⟨h3, h4⟩ := unaryLoop_ok .unexpectedEndUnary (n / g.m) _ r 0 _ h hfuel (by omega)
      rw [Nat.zero_add] at h3
      have hc : (n % g.m + g.cutoff) % 2 ^ 64 = n % g.m + g.cutoff :=
        Nat.mod_eq_of_lt (by omega)
      rw [hc] at h4 ⊢
      have hsplit := msbFirst_succ_eq (n % g.m + g.cutoff) (g.b - 1)
      rw [hb1] at hsplit
      rw [hsplit, List.append_assoc, List.singleton_append] at h4
      obtain ⟨h5, h6⟩ := readBits_ok (g.b - 1) _ _ _ h4 (msbFirst_length _ _)
      have hacc : accBits 0 (msbFirst ((n % g.m + g.cutoff) / 2) (g.b - 1))
          = (n % g.m + g.cutoff) / 2 := by
        have hmod : (n % g.m + g.cutoff) / 2 % 2 ^ (g.b - 1) = (n % g.m + g.cutoff) / 2 :=
          Nat.mod_eq_of_lt (by omega)
        rw [accBits_msbFirst _ _ 0 (by rw [hmod]; omega), hmod]
        omega
      rw [hacc] at h5
      obtain ⟨h7, h8⟩ := rest_readBit_cons _ _ _ h6
      have hx : ¬ (n % g.m + g.cutoff) / 2 < g.cutoff := by omega
      have hstep := accStep_eq ((n % g.m + g.cutoff) / 2) ((n % g.m + g.cutoff).testBit 0)
        (by omega)
      have hbit := testBit_as_mod (n % g.m + g.cutoff) 0
      rw [Nat.pow_zero, Nat.div_one] at hbit
      rw [hbit] at hstep
      unfold accStep at hstep
      have hval : (2 * ((n % g.m + g.cutoff) / 2) + (n % g.m + g.cutoff) % 2 + 2 ^ 64
          - g.cutoff) % 2 ^ 64 = n % g.m := by
        have e : 2 * ((n % g.m + g.cutoff) / 2) + (n % g.m + g.cutoff) % 2 + 2 ^ 64
            - g.cutoff = n % g.m + 2 ^ 64 := by omega
        rw [e, Nat.add_mod_right]
        exact Nat.mod_eq_of_lt (by omega)
      have hL : (List.replicate (n / g.m) false
          ++ true :: msbFirst (n % g.m + g.cutoff) g.b).length
          = n / g.m + 1 + (g.b - 1) + 1 := by
        simp only [List.length_append, List.length_replicate, List.length_cons, msbFirst_length]
        omega
      have hP : r.pos + (n / g.m + 1) + (g.b - 1) + 1
          = r.pos + (n / g.m + 1 + (g.b - 1) + 1) := by omega
      simp only [BitReader.bits, BitReader.pos] at h5 h6 h7 h8
      rw [hP] at h7 h8
      rw [hL]
      refine ⟨?_, h8⟩
      unfold Golomb.decodeUnsigned
      simp only [hm, if_false, h3, hb0, h5, hx, h7, hstep, hval, hdm, Nat.mod_eq_of_lt hn]

/-! ## The signed mappings -/

theorem toZigZag_nonneg (x : Int) (h0 : 0 ≤ x) (h1 : x < 2 ^ 63) :
    (Golomb.toZigZag x : Int) = 2 * x := by
  unfold Golomb.toZigZag toU64
  rw [if_pos h0, Nat.shiftLeft_eq]
  omega

theorem toZigZag_neg (x : Int) (h0 : x < 0) (h1 : -(2 ^ 63) < x) :
    (Golomb.toZigZag x : Int) = -2 * x - 1 := by
  unfold Golomb.toZigZag toU64 wrapI64
  rw [if_neg (by omega)]
  omega

theorem fromZigZag_even (z : Nat) (hz : z < 2 ^ 64) (h : z % 2 = 0) :
    Golomb.fromZigZag z = (z : Int) / 2 := by
  unfold Golomb.fromZigZag toI64 wrapI64
  rw [Nat.and_one_is_mod, if_pos h, Nat.shiftRight_eq_div_pow]
  omega

theorem fromZigZag_odd (z : Nat) (hz : z < 2 ^ 64 - 1) (h : z % 2 = 1) :
    Golomb.fromZigZag z = -(((z : Int) + 1) / 2) := by
  unfold Golomb.fromZigZag toI64 wrapI64
  rw [Nat.and_one_is_mod, if_neg (by omega), Nat.shiftRight_eq_div_pow]
  omega

theorem toZigZag_lt (x : Int) (hlo : -(2 ^ 63) < x) (hhi : x < 2 ^ 63) :
    Golomb.toZigZag x < 2 ^ 64 := by
  by_cases h0 : 0 ≤ x
  · have := toZigZag_nonneg x h0 hhi
    omega
  · have := toZigZag_neg x (by omega) hlo
    omega

theorem fromZigZag_toZigZag (x : Int) (hlo : -(2 ^ 63) < x) (hhi : x < 2 ^ 63) :
    Golomb.fromZigZag (Golomb.toZigZag x) = x := by
  by_cases h0 : 0 ≤ x
  · have h := toZigZag_nonneg x h0 hhi
    rw [fromZigZag_even _ (by omega) (by omega)]
    omega
  · have h := toZigZag_neg x (by omega) hlo
    rw [fromZigZag_odd _ (by omega) (by omega)]
    omega

theorem magnitude_lt (v : Int) (hlo : -(2 ^ 63) ≤ v) (hhi : v < 2 ^ 63) :
    (if v < 0 then toU64 (wrapI64 (-v)) else toU64 v) = v.natAbs := by
  unfold toU64 wrapI64
  split <;> omega

theorem sign_magnitude_inverse (v : Int) (hlo : -(2 ^ 63) ≤ v) (hhi : v < 2 ^ 63) :
    (if decide (v < 0) = true then wrapI64 (-(toI64 v.natAbs)) else toI64 v.natAbs) = v := by
  unfold toI64 wrapI64
  by_cases h : v < 0
  · simp only [h, decide_True, if_true]
    omega
  · simp only [h, decide_False, Bool.false_eq_true, if_false]
    omega

/-! ## The signed code -/

theorem encode_sign_magnitude (g : Golomb) (h : g.negMode = .SIGN_MAGNITUDE) (v : Int) :
    g.encode v = decide (v < 0)
      :: g.encodeUnsignedToString (if v < 0 then toU64 (wrapI64 (-v)) else toU64 v) := by
  unfold Golomb.encode
  by_cases hv : v < 0
  · simp only [hv, h, if_true, encodeUnsigned_bits, writeBit_bits, List.nil_append,
      List.singleton_append, decide_True]
  · simp only [hv, h, if_true, if_false, encodeUnsigned_bits, writeBit_bits, List.nil_append,
      List.singleton_append, decide_False]

theorem encode_interleaved (g : Golomb) (h : g.negMode = .INTERLEAVED) (v : Int) :
    g.encode v = g.encodeUnsignedToString (Golomb.toZigZag v) := by
  unfold Golomb.encode
  have hne : ¬ (NegativeMode.INTERLEAVED = NegativeMode.SIGN_MAGNITUDE) := by decide
  by_cases hv : v < 0 <;>
    simp only [hv, h, hne, if_true, if_false, encodeUnsigned_bits, List.nil_append]

theorem decode_encode_append (g : Golomb) (hg : g.WellFormed) (v : Int)
    (hlo : -(2 ^ 63) ≤ v) (hhi : v < 2 ^ 63)
    (hmin : g.negMode = .INTERLEAVED → v ≠ -(2 ^ 63)) (s : List Bool) :
    g.decode (g.encode v ++ s) = .ok (v, (g.encode v).length) := by
  cases hmode : g.negMode with
  | SIGN_MAGNITUDE =>
    rw [encode_sign_magnitude g hmode, magnitude_lt v hlo hhi]
    have hr0 : (BitReader.new (decide (v < 0) :: g.encodeUnsignedToString v.natAbs ++ s)).rest
        = decide (v < 0) :: (g.encodeUnsignedToString v.natAbs ++ s) := rfl
    obtain ⟨h1, h2⟩ := rest_readBit_cons _ _ _ hr0
    obtain ⟨h3, h4⟩ := decodeUnsigned_encode g hg v.natAbs (by omega) _ s h2
    unfold Golomb.decode
    simp only [hmode, if_true, rest_hasMore _ _ _ hr0, Bool.not_true, Bool.false_eq_true,
      if_false, h1, h3, sign_magnitude_inverse v hlo hhi]
    simp only [BitReader.new, List.length_cons]
    congr 2
    omega
  | INTERLEAVED =>
    have hv : -(2 ^ 63) < v := by
      have := hmin hmode
      omega
    rw [encode_interleaved g hmode]
    have hr0 : (BitReader.new (g.encodeUnsignedToString (Golomb.toZigZag v) ++ s)).rest
        = g.encodeUnsignedToString (Golomb.toZigZag v) ++ s := rfl
    obtain ⟨h3, h4⟩ := decodeUnsigned_encode g hg _ (toZigZag_lt v hv hhi) _ s hr0
    have hne : ¬ (NegativeMode.INTERLEAVED = NegativeMode.SIGN_MAGNITUDE) := by decide
    unfold Golomb.decode
    simp only [hmode, hne, if_false, h3, fromZigZag_toZigZag v hv hhi]
    simp only [BitReader.new, Nat.zero_add]

/-! ## Decoding looks only at the consumed bits -/

theorem readBit_ok_inv (r : BitReader) (b : Bool) (r1 : BitReader)
    (h : r.readBit = .ok (b, r1)) :
    r1 = { bits := r.bits, pos := r.pos + 1 } ∧ r.pos < r.bits.length ∧
      ∀ s, BitReader.readBit { bits := r.bits ++ s, pos := r.pos }
        = .ok (b, { bits := r.bits ++ s, pos := r.pos + 1 }) := by
  unfold BitReader.readBit at h
  by_cases hp : r.pos ≥ r.bits.length
  · rw [if_pos hp] at h
    cases h
  · rw [if_neg hp] at h
    injection h with h
    injection h with hb hr
    refine ⟨hr.symm, by omega, ?_⟩
    intro s
    unfold BitReader.readBit
    have hlt : ¬ (r.pos ≥ (r.bits ++ s).length) := by
      rw [List.length_append]
      omega
    simp only [hlt, if_false]
    rw [List.getD_append _ _ _ _ (by omega), hb]

theorem readBit_error (r : BitReader) (e : DecodeError) (h : r.readBit = .error e) :
    e = .outOfBits := by
  unfold BitReader.readBit at h
  split at h
  · injection h with h
    exact h.symm
  · cases h

theorem readBitsLoop_error (k : Nat) : ∀ (r : BitReader) (v0 : Nat) (e : DecodeError),
    BitReader.readBitsLoop k r v0 = .error e → e = .outOfBits := by
  induction k with
  | zero => intro r v0 e h; cases h
  | succ k ih =>
    intro r v0 e h
    unfold BitReader.readBitsLoop at h
    cases hrb : r.readBit with
    | error e1 =>
      rw [hrb] at h
      injection h with h
      rw [← h]
      exact readBit_error r e1 hrb
    | ok p =>
      rw [hrb] at h
      exact ih _ _ e h

theorem readBits_error (r : BitReader) (k : Nat) (e : DecodeError)
    (h : r.readBits k = .error e) : e = .outOfBits := by
  unfold BitReader.readBits at h
  split at h
  · cases h
  · exact readBitsLoop_error k r 0 e h

theorem readBitsLoop_ok_inv (k : Nat) : ∀ (r : BitReader) (v0 x : Nat) (r1 : BitReader),
    BitReader.readBitsLoop k r v0 = .ok (x, r1) →
    r1 = { bits := r.bits, pos := r.pos + k } ∧ (0 < k → r.pos + k ≤ r.bits.length) ∧
      ∀ s, BitReader.readBitsLoop k { bits := r.bits ++ s, pos := r.pos } v0
        = .ok (x, { bits := r.bits ++ s, pos := r.pos + k }) := by
  induction k with
  | zero =>
    intro r v0 x r1 h
    unfold BitReader.readBitsLoop at h
    injection h with h
    injection h with hx hr
    subst hx hr
    exact ⟨rfl, by omega, fun s => rfl⟩
  | succ k ih =>
    intro r v0 x r1 h
    unfold BitReader.readBitsLoop at h
    cases hrb : r.readBit with
    | error e1 => rw [hrb] at h; cases h
    | ok p =>
      obtain ⟨bit, r2⟩ := p
      rw [hrb] at h
      obtain ⟨h1, h2, h3⟩ := readBit_ok_inv r bit r2 hrb
      subst h1
      obtain ⟨h4, h5, h6⟩ := ih _ _ _ _ h
      have hp : r.pos + 1 + k = r.pos + (k + 1) := by omega
      simp only [hp] at h4 h5 h6
      refine ⟨h4, ?_, ?_⟩
      · intro _
        by_cases hk : 0 < k
        · exact h5 hk
        · have : k = 0 := by omega
          subst this
          omega
      · intro s
        unfold BitReader.readBitsLoop
        simp only [h3 s]
        exact h6 s

theorem readBits_ok_inv (k : Nat) (r : BitReader) (x : Nat) (r1 : BitReader)
    (hp : r.pos ≤ r.bits.length) (h : r.readBits k = .ok (x, r1)) :
    r1 = { bits := r.bits, pos := r.pos + k } ∧ r.pos + k ≤ r.bits.length ∧
      ∀ s, BitReader.readBits { bits := r.bits ++ s, pos := r.pos } k
        = .ok (x, { bits := r.bits ++ s, pos := r.pos + k }) := by
  unfold BitReader.readBits at h
  by_cases hk : k = 0
  · subst hk
    rw [if_pos rfl] at h
    injection h with h
    injection h with hx hr
    subst hx hr
    exact ⟨rfl, by omega, fun s => rfl⟩
  · rw [if_neg hk] at h
    obtain ⟨h1, h2, h3⟩ := readBitsLoop_ok_inv k r 0 x r1 h
    refine ⟨h1, h2 (by omega), ?_⟩
    intro s
    unfold BitReader.readBits
    rw [if_neg hk]
    exact h3 s

theorem unaryLoop_ok_inv (e : DecodeError) (fuel : Nat) : ∀ (r : BitReader) (q x : Nat)
    (r1 : BitReader), Golomb.unaryLoop e fuel r q = .ok (x, r1) →
    r1.bits = r.bits ∧ r.pos < r1.pos ∧ r1.pos ≤ r.bits.length ∧
      ∀ s fuel1, fuel ≤ fuel1 →
        Golomb.unaryLoop e fuel1 { bits := r.bits ++ s, pos := r.pos } q
          = .ok (x, { bits := r.bits ++ s, pos := r1.pos }) := by
  induction fuel with
  | zero => intro r q x r1 h; cases h
  | succ fuel ih =>
    intro r q x r1 h
    unfold Golomb.unaryLoop at h
    by_cases hm : r.hasMore = true
    · simp only [hm, Bool.not_true, Bool.false_eq_true, if_false] at h
      cases hrb : r.readBit with
      | error e1 => rw [hrb] at h; cases h
      | ok p =>
        obtain ⟨bit, r2⟩ := p
        rw [hrb] at h
        obtain ⟨h1, h2, h3⟩ := readBit_ok_inv r bit r2 hrb
        subst h1
        have hm1 : ∀ s, BitReader.hasMore { bits := r.bits ++ s, pos := r.pos } = true := by
          intro s
          simp only [BitReader.hasMore, List.length_append, decide_eq_true_eq]
          omega
        cases bit with
        | true =>
          simp only [if_true] at h
          injection h with h
          injection h with hx hr
          subst hx hr
          refine ⟨rfl, by simp, by simpa using h2, ?_⟩
          intro s fuel1 hf
          cases fuel1 with
          | zero => omega
          | succ fuel1 =>
            unfold Golomb.unaryLoop
            simp only [hm1 s, Bool.not_true, Bool.false_eq_true, if_false, h3 s, if_true]
        | false =>
          simp only [Bool.false_eq_true, if_false] at h
          obtain ⟨h4, h5, h6, h7⟩ := ih _ _ _ _ h
          simp only at h4 h5 h6 h7
          refine ⟨h4, by omega, h6, ?_⟩
          intro s fuel1 hf
          cases fuel1 with
          | zero => omega
          | succ fuel1 =>
            unfold Golomb.unaryLoop
            simp only [hm1 s, Bool.not_true, Bool.false_eq_true, if_false, h3 s]
            exact h7 s fuel1 (by omega)
    · simp only [hm, Bool.not_false, if_true] at h
      cases h

theorem unaryLoop_error (e0 : DecodeError) (fuel : Nat) : ∀ (r : BitReader) (q : Nat)
    (e : DecodeError), r.bits.length - r.pos < fuel →
    Golomb.unaryLoop e0 fuel r q = .error e → e = e0 ∨ e = .outOfBits := by
  induction fuel with
  | zero => intro r q e hf _; omega
  | succ fuel ih =>
    intro r q e hf h
    unfold Golomb.unaryLoop at h
    by_cases hm : r.hasMore = true
    · simp only [hm, Bool.not_true, Bool.false_eq_true, if_false] at h
      cases hrb : r.readBit with
      | error e1 =>
        rw [hrb] at h
        injection h with h
        rw [← h]
        exact Or.inr (readBit_error r e1 hrb)
      | ok p =>
        obtain ⟨bit, r2⟩ := p
        rw [hrb] at h
        obtain ⟨h1, h2, _⟩ := readBit_ok_inv r bit r2 hrb
        subst h1
        cases bit with
        | true => simp only [if_true] at h; cases h
        | false =>
          simp only [Bool.false_eq_true, if_false] at h
          exact ih _ _ e (by simp only; omega) h
    · simp only [hm, Bool.not_false, if_true] at h
      injection h with h
      exact Or.inl h.symm

theorem decodeUnsigned_error (g : Golomb) (r : BitReader) (e : DecodeError)
    (h : g.decodeUnsigned r = .error e) : e.isStreamUnderflow = true := by
  unfold Golomb.decodeUnsigned at h
  by_cases hm : g.m = 1
  · rw [if_pos hm] at h
    rcases unaryLoop_error _ _ r 0 e (by omega) h with h1 | h1 <;> subst h1 <;> rfl
  · rw [if_neg hm] at h
    cases hu : Golomb.unaryLoop .unexpectedEndUnary (r.bits.length - r.pos + 1) r 0 with
    | error e1 =>
      rw [hu] at h
      injection h with h
      subst h
      rcases unaryLoop_error _ _ r 0 e1 (by omega) hu with h1 | h1 <;> subst h1 <;> rfl
    | ok p =>
      obtain ⟨q, r1⟩ := p
      rw [hu] at h
      simp only at h
      by_cases hb : g.b = 0
      · rw [if_pos hb] at h; cases h
      · rw [if_neg hb] at h
        cases hx : r1.readBits (g.b - 1) with
        | error e1 =>
          rw [hx] at h
          injection h with h
          subst h
          rw [readBits_error _ _ _ hx]
          rfl
        | ok p2 =>
          obtain ⟨x, r2⟩ := p2
          rw [hx] at h
          simp only at h
          by_cases hc : x < g.cutoff
          · rw [if_pos hc] at h; cases h
          · rw [if_neg hc] at h
            cases hn : r2.readBit with
            | error e1 =>
              rw [hn] at h
              injection h with h
              subst h
              rw [readBit_error _ _ hn]
              rfl
            | ok p3 =>
              rw [hn] at h
              cases h

theorem decode_error (g : Golomb) (bits : List Bool) (e : DecodeError)
    (h : g.decode bits = .error e) : e.isStreamUnderflow = true := by
  unfold Golomb.decode at h
  by_cases hmode : g.negMode = .SIGN_MAGNITUDE
  · simp only [hmode, if_true] at h
    by_cases hm : (BitReader.new bits).hasMore = true
    · simp only [hm, Bool.not_true, Bool.false_eq_true, if_false] at h
      cases hrb : (BitReader.new bits).readBit with
      | error e1 =>
        rw [hrb] at h
        injection h with h
        subst h
        rw [readBit_error _ _ hrb]
        rfl
      | ok p =>
        obtain ⟨sign, r1⟩ := p
        rw [hrb] at h
        simp only at h
        cases hd : g.decodeUnsigned r1 with
        | error e1 =>
          rw [hd] at h
          injection h with h
          subst h
          exact decodeUnsigned_error g r1 e1 hd
        | ok p2 => rw [hd] at h; cases h
    · simp only [hm, Bool.not_false, if_true] at h
      injection h with h
      subst h
      rfl
  · simp only [hmode, if_false] at h
    cases hd : g.decodeUnsigned (BitReader.new bits) with
    | error e1 =>
      rw [hd] at h
      injection h with h
      subst h
      exact decodeUnsigned_error g _ e1 hd
    | ok p2 => rw [hd] at h; cases h

theorem decodeUnsigned_ok_inv (g : Golomb) (r : BitReader) (x : Nat) (r1 : BitReader)
    (h : g.decodeUnsigned r = .ok (x, r1)) :
    r1.bits = r.bits ∧ r.pos < r1.pos ∧ r1.pos ≤ r.bits.length ∧
      ∀ s, g.decodeUnsigned { bits := r.bits ++ s, pos := r.pos }
        = .ok (x, { bits := r.bits ++ s, pos := r1.pos }) := by
  unfold Golomb.decodeUnsigned at h
  have hfuel : ∀ s : List Bool, r.bits.length - r.pos + 1 ≤ (r.bits ++ s).length - r.pos + 1 := by
    intro s
    rw [List.length_append]
    omega
  by_cases hm : g.m = 1
  · rw [if_pos hm] at h
    obtain ⟨h1, h2, h3, h4⟩ := unaryLoop_ok_inv _ _ r 0 x r1 h
    refine ⟨h1, h2, h3, ?_⟩
    intro s
    unfold Golomb.decodeUnsigned
    simp only [hm, if_true]
    exact h4 s _ (hfuel s)
  · rw [if_neg hm] at h
    cases hu : Golomb.unaryLoop .unexpectedEndUnary (r.bits.length - r.pos + 1) r 0 with
    | error e1 => rw [hu] at h; cases h
    | ok p =>
      obtain ⟨q, ra⟩ := p
      rw [hu] at h
      simp only at h
      obtain ⟨h1, h2, h3, h4⟩ := unaryLoop_ok_inv _ _ r 0 q ra hu
      obtain ⟨bitsa, posa⟩ := ra
      simp only at h1 h2 h3 h4
      subst h1
      by_cases hb : g.b = 0
      · rw [if_pos hb] at h
        injection h with h
        injection h with hx hr
        subst hx hr
        refine ⟨rfl, h2, h3, ?_⟩
        intro s
        unfold Golomb.decodeUnsigned
        simp only [hm, if_false, h4 s _ (hfuel s), hb, if_true]
      · rw [if_neg hb] at h
        cases hx : BitReader.readBits { bits := r.bits, pos := posa } (g.b - 1) with
        | error e1 => rw [hx] at h; cases h
        | ok p2 =>
          obtain ⟨y, rb⟩ := p2
          rw [hx] at h
          simp only at h
          obtain ⟨h5, h6, h7⟩ := readBits_ok_inv _ _ _ _ h3 hx
          simp only at h5 h6 h7
          subst h5
          by_cases hc : y < g.cutoff
          · rw [if_pos hc] at h
            injection h with h
            injection h with hx1 hr
            subst hx1 hr
            refine ⟨rfl, by simp only; omega, h6, ?_⟩
            intro s
            unfold Golomb.decodeUnsigned
            simp only [hm, if_false, h4 s _ (hfuel s), hb, h7 s, hc, if_true]
          · rw [if_neg hc] at h
            cases hn : BitReader.readBit { bits := r.bits, pos := posa + (g.b - 1) } with
            | error e1 => rw [hn] at h; cases h
            | ok p3 =>
              obtain ⟨bit, rc⟩ := p3
              rw [hn] at h
              simp only at h
              obtain ⟨h8, h9, h10⟩ := readBit_ok_inv _ _ _ hn
              simp only at h8 h9 h10
              subst h8
              injection h with h
              injection h with hx1 hr
              subst hx1 hr
              refine ⟨rfl, by simp only; omega, by simp only; omega, ?_⟩
              intro s
              unfold Golomb.decodeUnsigned
              simp only [hm, if_false, h4 s _ (hfuel s), hb, h7 s, hc, h10 s]

theorem decode_ok_inv (g : Golomb) (bits : List Bool) (v : Int) (k : Nat)
    (h : g.decode bits = .ok (v, k)) :
    1 ≤ k ∧ k ≤ bits.length ∧ ∀ s, g.decode (bits ++ s) = .ok (v, k) := by
  unfold Golomb.decode at h
  by_cases hmode : g.negMode = .SIGN_MAGNITUDE
  · simp only [hmode, if_true] at h
    by_cases hm : (BitReader.new bits).hasMore = true
    · simp only [hm, Bool.not_true, Bool.false_eq_true, if_false] at h
      cases hrb : (BitReader.new bits).readBit with
      | error e1 => rw [hrb] at h; cases h
      | ok p =>
        obtain ⟨sign, r1⟩ := p
        rw [hrb] at h
        simp only at h
        obtain ⟨h1, h2, h3⟩ := readBit_ok_inv _ _ _ hrb
        simp only [BitReader.new] at h1 h2 h3
        subst h1
        cases hd : Golomb.decodeUnsigned g { bits := bits, pos := 0 + 1 } with
        | error e1 => rw [hd] at h; cases h
        | ok p2 =>
          obtain ⟨mag, r2⟩ := p2
          rw [hd] at h
          obtain ⟨h4, h5, h6, h7⟩ := decodeUnsigned_ok_inv g _ _ _ hd
          simp only at h4 h5 h6 h7
          injection h with h
          injection h with hv hk
          subst hv hk
          refine ⟨by omega, h6, ?_⟩
          intro s
          have hm1 : (BitReader.new (bits ++ s)).hasMore = true := by
            simp only [BitReader.new, BitReader.hasMore, List.length_append, decide_eq_true_eq]
            omega
          unfold Golomb.decode
          simp only [hmode, if_true, hm1, Bool.not_true, Bool.false_eq_true, if_false]
          simp only [BitReader.new, h3 s, h7 s]
    · simp only [hm, Bool.not_false, if_true] at h
      cases h
  · simp only [hmode, if_false] at h
    cases hd : g.decodeUnsigned (BitReader.new bits) with
    | error e1 => rw [hd] at h; cases h
    | ok p2 =>
      obtain ⟨z, r2⟩ := p2
      rw [hd] at h
      obtain ⟨h4, h5, h6, h7⟩ := decodeUnsigned_ok_inv g _ _ _ hd
      simp only [BitReader.new] at h4 h5 h6 h7
      injection h with h
      injection h with hv hk
      subst hv hk
      refine ⟨by omega, h6, ?_⟩
      intro s
      unfold Golomb.decode
      simp only [hmode, if_false]
      simp only [BitReader.new, h7 s]

theorem toZigZag_lt_all (x : Int) : Golomb.toZigZag x < 2 ^ 64 := by
  unfold Golomb.toZigZag toU64
  split
  · exact Nat.mod_lt _ (by decide)
  · omega

theorem decode_encode_consumed (g : Golomb) (hg : g.WellFormed) (v : Int)
    (hlo : -(2 ^ 63) ≤ v) (hhi : v < 2 ^ 63) (s : List Bool) :
    ∃ v1, g.decode (g.encode v ++ s) = .ok (v1, (g.encode v).length) := by
  cases hmode : g.negMode with
  | SIGN_MAGNITUDE =>
    exact ⟨v, decode_encode_append g hg v hlo hhi (by rw [hmode]; intro h; cases h) s⟩
  | INTERLEAVED =>
    rw [encode_interleaved g hmode]
    have hr0 : (BitReader.new (g.encodeUnsignedToString (Golomb.toZigZag v) ++ s)).rest
        = g.encodeUnsignedToString (Golomb.toZigZag v) ++ s := rfl
    obtain ⟨h3, h4⟩ := decodeUnsigned_encode g hg _ (toZigZag_lt_all v) _ s hr0
    have hne : ¬ (NegativeMode.INTERLEAVED = NegativeMode.SIGN_MAGNITUDE) := by decide
    refine ⟨Golomb.fromZigZag (Golomb.toZigZag v), ?_⟩
    unfold Golomb.decode
    simp only [hmode, hne, if_false, h3]
    simp only [BitReader.new, Nat.zero_add]

theorem decode_truncated (g : Golomb) (hg : g.WellFormed) (v : Int)
    (hlo : -(2 ^ 63) ≤ v) (hhi : v < 2 ^ 63) (p s : List Bool)
    (hps : p ++ s = g.encode v) (hs : s ≠ []) :
    ∃ e, g.decode p = .error e ∧ e.isStreamUnderflow = true := by
  cases hd : g.decode p with
  | error e => exact ⟨e, rfl, decode_error g p e hd⟩
  | ok res =>
    exfalso
    obtain ⟨v1, k⟩ := res
    obtain ⟨_, h2, h3⟩ := decode_ok_inv g p v1 k hd
    obtain ⟨v2, h4⟩ := decode_encode_consumed g hg v hlo hhi []
    rw [List.append_nil, ← hps, h3 s] at h4
    injection h4 with h4
    injection h4 with _ hk
    rw [List.length_append] at hk
    have : 0 < s.length := List.length_pos.mpr hs
    omega

/-! ## The concatenated stream -/

theorem foldl_concat (g : Golomb) (vs : List Int) : ∀ (acc : List Bool),
    vs.foldl (fun concat v => concat ++ g.encode v) acc = acc ++ codeStream g vs := by
  induction vs with
  | nil => intro acc; simp [codeStream]
  | cons v vs ih =>
    intro acc
    simp only [List.foldl_cons, ih, codeStream, List.append_assoc]

theorem concatEncode_eq (g : Golomb) (vs : List Int) :
    concatEncode g vs = codeStream g vs := by
  unfold concatEncode
  rw [foldl_concat, List.nil_append]

theorem verifyLoop_stream (g : Golomb) (hg : g.WellFormed) (vs : List Int) :
    ∀ (fuel : Nat) (pre : List Bool) (printed : List Int),
    (∀ v ∈ vs, -(2 ^ 63) < v ∧ v < 2 ^ 63) → vs.length < fuel →
    verifyLoop g (pre ++ codeStream g vs) fuel pre.length printed
      = .ok (printed ++ vs, (pre ++ codeStream g vs).length) := by
  induction vs with
  | nil =>
    intro fuel pre printed _ hf
    cases fuel with
    | zero => simp at hf
    | succ fuel =>
      unfold verifyLoop
      simp [codeStream]
  | cons v vs ih =>
    intro fuel pre printed hall hf
    cases fuel with
    | zero => simp at hf
    | succ fuel =>
      obtain ⟨hlo, hhi⟩ := hall v (List.mem_cons_self v vs)
      have hdec := decode_encode_append g hg v (by omega) hhi (fun _ => by omega)
        (codeStream g vs)
      obtain ⟨hpos, _, _⟩ := decode_ok_inv g _ _ _ hdec
      have hlt : pre.length < (pre ++ codeStream g (v :: vs)).length := by
        simp only [codeStream, List.length_append]
        omega
      have hdrop : (pre ++ codeStream g (v :: vs)).drop pre.length
          = g.encode v ++ codeStream g vs := by
        rw [List.drop_left]
        rfl
      have hne : ¬ ((g.encode v).length = 0) := by omega
      have hih := ih fuel (pre ++ g.encode v) (printed ++ [v])
        (fun w hw => hall w (List.mem_cons_of_mem v hw))
        (by simp only [List.length_cons] at hf; omega)
      rw [List.length_append, List.append_assoc, List.append_assoc, List.singleton_append]
        at hih
      unfold verifyLoop
      simp only [hlt, if_true, hdrop, hdec, hne, if_false]
      exact hih

/-! ## Construction beyond 2 ^ 63 -/

theorem bLoop_overflow (m : Nat) (hm : 2 ^ 63 < m) (k : Nat) : ∀ (b : Nat), k + b = 64 →
    Golomb.bLoop m k b = .error .shiftCountOutOfRange := by
  induction k with
  | zero => intro b _; rfl
  | succ k ih =>
    intro b hb
    have hpow : 2 ^ b ≤ 2 ^ 63 := Nat.pow_le_pow_right (by decide) (by omega)
    unfold Golomb.bLoop
    rw [if_pos (by omega)]
    exact ih (b + 1) (by omega)

theorem new_overflow (m : Nat) (negMode : NegativeMode) (hm : 2 ^ 63 < m) :
    Golomb.new m negMode = .error .shiftCountOutOfRange := by
  unfold Golomb.new
  have h0 : ¬ (m = 0) := by
    have : 0 < 2 ^ 63 := by decide
    omega
  rw [if_neg h0, bLoop_overflow m hm 64 0 rfl]

theorem wellFormed_clog (g : Golomb) (hg : g.WellFormed) : g.b = Nat.clog 2 g.m := by
  obtain ⟨_, _, hle, hmin, _⟩ := hg
  have h1 : Nat.clog 2 g.m ≤ g.b := (Nat.le_pow_iff_clog_le (by decide)).mp hle
  rcases hmin with h0 | h0
  · omega
  · have h2 : g.b - 1 < Nat.clog 2 g.m := (Nat.pow_lt_iff_lt_clog (by decide)).mp h0
    omega

/-! ## The claims -/

/-- C1 (amended): for every m with 1 ≤ m ≤ 2 ^ 63, both negative modes and every
signed v with |v| < 2 ^ 62, the coder Golomb(m, mode) is constructed and decoding
encode(v) returns exactly (v, length of encode(v)). -/
theorem C1_signed_round_trip (m : Nat) (mode : NegativeMode) (v : Int)
    (hm1 : 1 ≤ m) (hm : m ≤ 2 ^ 63) (hv : |v| < 2 ^ 62) :
    ∃ g, Golomb.new m mode = .ok g ∧
      g.decode (g.encode v) = .ok (v, (g.encode v).length) := by
  obtain ⟨g, hnew, _, _, hwf⟩ := new_ok m mode hm1 hm
  obtain ⟨hlo, hhi⟩ := abs_lt.mp hv
  refine ⟨g, hnew, ?_⟩
  have h := decode_encode_append g hwf v (by omega) (by omega) (fun _ => by omega) []
  rw [List.append_nil] at h
  exact h

/-- C1, an instance: m = 3, SIGN_MAGNITUDE, v = -5. -/
theorem C1_signed_round_trip_witness :
    (1 ≤ 3 ∧ 3 ≤ 2 ^ 63 ∧ |(-5 : Int)| < 2 ^ 62) ∧
      ∃ g, Golomb.new 3 .SIGN_MAGNITUDE = .ok g ∧
        g.decode (g.encode (-5)) = .ok (-5, (g.encode (-5)).length) :=
  ⟨⟨by decide, by decide, by norm_num⟩,
    C1_signed_round_trip 3 .SIGN_MAGNITUDE (-5) (by decide) (by decide) (by norm_num)⟩

/-- C1 as stated fails: for m = 2 ^ 63 + 1, a value of uint64_t with m ≥ 1, the
constructor has to evaluate 1ULL << 64 and yields no coder, so nothing is
decoded. -/
theorem C1_counterexample :
    ¬ ∃ g, Golomb.new (2 ^ 63 + 1) .SIGN_MAGNITUDE = .ok g ∧
      g.decode (g.encode 7) = .ok (7, (g.encode 7).length) := by
  rintro ⟨g, hg, _⟩
  rw [new_overflow _ _ (by decide)] at hg
  cases hg

/-- C2 (amended): for every m with 1 ≤ m ≤ 2 ^ 63, both negative modes, every
signed v with |v| < 2 ^ 62 and every suffix s, decoding encode(v) followed by s
returns (v, length of encode(v)), and s is what remains at the returned
position. -/
theorem C2_self_delimiting (m : Nat) (mode : NegativeMode) (v : Int) (s : List Bool)
    (hm1 : 1 ≤ m) (hm : m ≤ 2 ^ 63) (hv : |v| < 2 ^ 62) :
    ∃ g, Golomb.new m mode = .ok g ∧
      g.decode (g.encode v ++ s) = .ok (v, (g.encode v).length) ∧
      (g.encode v ++ s).drop (g.encode v).length = s := by
  obtain ⟨g, hnew, _, _, hwf⟩ := new_ok m mode hm1 hm
  obtain ⟨hlo, hhi⟩ := abs_lt.mp hv
  exact ⟨g, hnew,
    decode_encode_append g hwf v (by omega) (by omega) (fun _ => by omega) s,
    List.drop_left _ _⟩

/-- C2, an instance: m = 5, INTERLEAVED, v = -9, suffix 101. -/
theorem C2_self_delimiting_witness :
    (1 ≤ 5 ∧ 5 ≤ 2 ^ 63 ∧ |(-9 : Int)| < 2 ^ 62) ∧
      ∃ g, Golomb.new 5 .INTERLEAVED = .ok g ∧
        g.decode (g.encode (-9) ++ [true, false, true])
          = .ok (-9, (g.encode (-9)).length) ∧
        (g.encode (-9) ++ [true, false, true]).drop (g.encode (-9)).length
          = [true, false, true] :=
  ⟨⟨by decide, by decide, by norm_num⟩,
    C2_self_delimiting 5 .INTERLEAVED (-9) [true, false, true] (by decide) (by decide)
      (by norm_num)⟩

/-- C2 as stated fails: for m = 2 ^ 64 - 1 no coder is constructed. -/
theorem C2_counterexample :
    ¬ ∃ g, Golomb.new (2 ^ 64 - 1) .INTERLEAVED = .ok g ∧
      g.decode (g.encode 0 ++ [true]) = .ok (0, (g.encode 0).length) := by
  rintro ⟨g, hg, _⟩
  rw [new_overflow _ _ (by decide)] at hg
  cases hg

/-- C3 (amended): for every m with 1 ≤ m ≤ 2 ^ 63, both negative modes and every
finite list vs of signed values other than INT64_MIN (-(2 ^ 63) < v < 2 ^ 63), the
verification pass of the encode operation over the concatenated codewords
returns exactly vs in order and ends with the cursor at the total bit length. -/
theorem C3_concatenation (m : Nat) (mode : NegativeMode) (vs : List Int)
    (hm1 : 1 ≤ m) (hm : m ≤ 2 ^ 63) (hvs : ∀ v ∈ vs, -(2 ^ 63) < v ∧ v < 2 ^ 63) :
    ∃ g, Golomb.new m mode = .ok g ∧
      decodeConcatenated g (concatEncode g vs) = .ok (vs, (concatEncode g vs).length) := by
  obtain ⟨g, hnew, _, _, hwf⟩ := new_ok m mode hm1 hm
  refine ⟨g, hnew, ?_⟩
  have hlen : ∀ (ws : List Int), (∀ v ∈ ws, -(2 ^ 63) < v ∧ v < 2 ^ 63) →
      ws.length ≤ (codeStream g ws).length := by
    intro ws
    induction ws with
    | nil => intro _; simp [codeStream]
    | cons w ws ih =>
      intro hall
      obtain ⟨hlo, hhi⟩ := hall w (List.mem_cons_self w ws)
      have hdec := decode_encode_append g hwf w (by omega) hhi (fun _ => by omega) []
      obtain ⟨hpos, _, _⟩ := decode_ok_inv g _ _ _ hdec
      have := ih (fun u hu => hall u (List.mem_cons_of_mem w hu))
      simp only [codeStream, List.length_append, List.length_cons]
      omega
  have h := verifyLoop_stream g hwf vs ((codeStream g vs).length + 1) [] [] hvs
    (by have := hlen vs hvs; omega)
  simp only [List.nil_append, List.length_nil] at h
  unfold decodeConcatenated
  rw [concatEncode_eq]
  exact h

/-- C3, the instance of the specification: the values 10, 12, 9, 9 with m = 2 in
SIGN_MAGNITUDE mode decode back to 10, 12, 9, 9. -/
theorem C3_concatenation_witness :
    (1 ≤ 2 ∧ 2 ≤ 2 ^ 63 ∧ ∀ v ∈ [(10 : Int), 12, 9, 9], -(2 ^ 63) < v ∧ v < 2 ^ 63) ∧
      ∃ g, Golomb.new 2 .SIGN_MAGNITUDE = .ok g ∧
        decodeConcatenated g (concatEncode g [10, 12, 9, 9])
          = .ok ([10, 12, 9, 9], (concatEncode g [10, 12, 9, 9]).length) :=
  ⟨⟨by decide, by decide, by decide⟩,
    C3_concatenation 2 .SIGN_MAGNITUDE [10, 12, 9, 9] (by decide) (by decide) (by decide)⟩

set_option maxRecDepth 100000 in
/-- C3 as stated fails in two places. For m = 2 ^ 63 + 1 no coder is
constructed. For m = 2 ^ 63 - 1 in INTERLEAVED mode the one-element list holding
INT64_MIN = -(2 ^ 63) is decoded as the list holding 0. -/
theorem C3_counterexample :
    (¬ ∃ g, Golomb.new (2 ^ 63 + 1) .SIGN_MAGNITUDE = .ok g ∧
        decodeConcatenated g (concatEncode g [10, 12, 9, 9])
          = .ok ([10, 12, 9, 9], (concatEncode g [10, 12, 9, 9]).length)) ∧
    (∃ g, Golomb.new (2 ^ 63 - 1) .INTERLEAVED = .ok g ∧
        decodeConcatenated g (concatEncode g [-(2 ^ 63)])
          = .ok ([0], (concatEncode g [-(2 ^ 63)]).length)) := by
  constructor
  · rintro ⟨g, hg, _⟩
    rw [new_overflow _ _ (by decide)] at hg
    cases hg
  · exact ⟨{ m := 2 ^ 63 - 1, b := 63, cutoff := 1, negMode := .INTERLEAVED }, rfl, rfl⟩

/-- C4 (amended): for every m with 2 ≤ m ≤ 2 ^ 63 and every unsigned n, with
q = n / m, r = n % m, b = ceil(log2 m) and cutoff = 2 ^ b - m, the coder is
constructed and encodeUnsignedToString(n) is exactly q zero bits, then a one
bit, then r written most significant bit first in b - 1 bits when r < cutoff,
otherwise r + cutoff written in b bits; its length is q + 1 + (b - 1) or
q + 1 + b respectively. -/
theorem C4_codeword_shape (m : Nat) (mode : NegativeMode) (n : Nat)
    (hm2 : 2 ≤ m) (hm : m ≤ 2 ^ 63) :
    ∃ g, Golomb.new m mode = .ok g ∧
      g.encodeUnsignedToString n
        = List.replicate (n / m) false ++ [true] ++
            (if n % m < 2 ^ Nat.clog 2 m - m then msbFirst (n % m) (Nat.clog 2 m - 1)
             else msbFirst (n % m + (2 ^ Nat.clog 2 m - m)) (Nat.clog 2 m)) ∧
      (g.encodeUnsignedToString n).length
        = n / m + 1 + (if n % m < 2 ^ Nat.clog 2 m - m then Nat.clog 2 m - 1
                       else Nat.clog 2 m) := by
  obtain ⟨g, hnew, hgm, _, hwf⟩ := new_ok m mode (by omega) hm
  have hb := wellFormed_clog g hwf
  obtain ⟨_, hb63, hle, _, hcut⟩ := hwf
  subst hgm
  rw [← hb, ← hcut]
  have hm1 : g.m ≠ 1 := by omega
  have hpow : 2 ^ g.b ≤ 2 ^ 63 := Nat.pow_le_pow_right (by decide) hb63
  have hrlt : n % g.m < g.m := Nat.mod_lt _ (by omega)
  refine ⟨g, hnew, ?_⟩
  by_cases hr : n % g.m < g.cutoff
  · rw [encodeUnsignedToString_lt g hm1 n hr]
    simp only [hr, if_true, List.append_assoc, List.singleton_append, List.length_append,
      List.length_replicate, List.length_cons, msbFirst_length, true_and]
    omega
  · rw [encodeUnsignedToString_ge g hm1 n hr, Nat.mod_eq_of_lt (by omega)]
    simp only [hr, if_false, List.append_assoc, List.singleton_append, List.length_append,
      List.length_replicate, List.length_cons, msbFirst_length, true_and]
    omega

/-- C4, an instance: m = 5 and n = 13. -/
theorem C4_codeword_shape_witness :
    (2 ≤ 5 ∧ 5 ≤ 2 ^ 63) ∧
      ∃ g, Golomb.new 5 .INTERLEAVED = .ok g ∧
        g.encodeUnsignedToString 13
          = List.replicate (13 / 5) false ++ [true] ++
              (if 13 % 5 < 2 ^ Nat.clog 2 5 - 5 then msbFirst (13 % 5) (Nat.clog 2 5 - 1)
               else msbFirst (13 % 5 + (2 ^ Nat.clog 2 5 - 5)) (Nat.clog 2 5)) ∧
        (g.encodeUnsignedToString 13).length
          = 13 / 5 + 1 + (if 13 % 5 < 2 ^ Nat.clog 2 5 - 5 then Nat.clog 2 5 - 1
                          else Nat.clog 2 5) :=
  ⟨⟨by decide, by decide⟩, C4_codeword_shape 5 .INTERLEAVED 13 (by decide) (by decide)⟩

/-- C4 as stated fails: for m = 2 ^ 63 + 2 no coder is constructed, so no
codeword is produced. -/
theorem C4_counterexample :
    ¬ ∃ g, Golomb.new (2 ^ 63 + 2) .INTERLEAVED = .ok g ∧
      (g.encodeUnsignedToString 0).length
        = 0 / (2 ^ 63 + 2) + 1 + (Nat.clog 2 (2 ^ 63 + 2) - 1) := by
  rintro ⟨g, hg, _⟩
  rw [new_overflow _ _ (by decide)] at hg
  cases hg

/-- C5 (amended): for every m with 1 ≤ m ≤ 2 ^ 63 and every unsigned n the coder
is constructed and decodeUnsignedFromString(encodeUnsignedToString(n)) returns
(n, length of encodeUnsignedToString(n)); when m is not a power of two, both
branches of the truncated binary code occur (remainder 0 is below the cutoff,
remainder m - 1 is not). -/
theorem C5_unsigned_round_trip (m : Nat) (mode : NegativeMode) (n : Nat)
    (hm1 : 1 ≤ m) (hm : m ≤ 2 ^ 63) (hn : n < 2 ^ 64) :
    ∃ g, Golomb.new m mode = .ok g ∧
      g.decodeUnsignedFromString (g.encodeUnsignedToString n)
        = .ok (n, (g.encodeUnsignedToString n).length) ∧
      ((∀ k, m ≠ 2 ^ k) → 0 % m < g.cutoff ∧ ¬ ((m - 1) % m < g.cutoff)) := by
  obtain ⟨g, hnew, hgm, _, hwf⟩ := new_ok m mode hm1 hm
  refine ⟨g, hnew, ?_, ?_⟩
  · have hr0 : (BitReader.new (g.encodeUnsignedToString n)).rest
        = g.encodeUnsignedToString n ++ [] := by
      rw [List.append_nil]
      rfl
    obtain ⟨h3, _⟩ := decodeUnsigned_encode g hwf n hn _ [] hr0
    unfold Golomb.decodeUnsignedFromString
    rw [h3]
    simp only [BitReader.new, Nat.zero_add]
  · intro hpow
    obtain ⟨_, _, hle, hmin, hcut⟩ := hwf
    subst hgm
    have hne : g.m ≠ 2 ^ g.b := hpow g.b
    have hb0 : g.b ≠ 0 := by
      intro h0
      rw [h0] at hle
      have := hpow 0
      omega
    have hmin1 : 2 ^ (g.b - 1) < g.m := by
      rcases hmin with h0 | h0
      · exact absurd h0 hb0
      · exact h0
    have hbpow : 2 ^ g.b = 2 * 2 ^ (g.b - 1) := by
      have hb1 : g.b - 1 + 1 = g.b := by omega
      conv_lhs => rw [← hb1, Nat.pow_succ, Nat.mul_comm]
    have hmod : (g.m - 1) % g.m = g.m - 1 := Nat.mod_eq_of_lt (by omega)
    rw [hmod, Nat.zero_mod]
    omega

/-- C5, an instance: m = 6 and n = 29. -/
theorem C5_unsigned_round_trip_witness :
    (1 ≤ 6 ∧ 6 ≤ 2 ^ 63 ∧ 29 < 2 ^ 64) ∧
      ∃ g, Golomb.new 6 .INTERLEAVED = .ok g ∧
        g.decodeUnsignedFromString (g.encodeUnsignedToString 29)
          = .ok (29, (g.encodeUnsignedToString 29).length) ∧
        ((∀ k, 6 ≠ 2 ^ k) → 0 % 6 < g.cutoff ∧ ¬ ((6 - 1) % 6 < g.cutoff)) :=
  ⟨⟨by decide, by decide, by decide⟩,
    C5_unsigned_round_trip 6 .INTERLEAVED 29 (by decide) (by decide) (by decide)⟩

/-- C5 as stated fails: for m = 2 ^ 63 + 3 no coder is constructed. -/
theorem C5_counterexample :
    ¬ ∃ g, Golomb.new (2 ^ 63 + 3) .INTERLEAVED = .ok g ∧
      g.decodeUnsignedFromString (g.encodeUnsignedToString 0)
        = .ok (0, (g.encodeUnsignedToString 0).length) := by
  rintro ⟨g, hg, _⟩
  rw [new_overflow _ _ (by decide)] at hg
  cases hg

/-- C6: for m = 1 and every unsigned n, encodeUnsignedToString(n) is exactly n
zero bits followed by a single one bit, of length n + 1. -/
theorem C6_unary_unsigned (mode : NegativeMode) (n : Nat) :
    ∃ g, Golomb.new 1 mode = .ok g ∧
      g.encodeUnsignedToString n = List.replicate n false ++ [true] ∧
      (g.encodeUnsignedToString n).length = n + 1 := by
  obtain ⟨g, hnew, hgm, _, _⟩ := new_ok 1 mode (by decide) (by decide)
  refine ⟨g, hnew, ?_⟩
  rw [encodeUnsignedToString_m1 g hgm n]
  simp

/-- C7 (amended): for m = 1 and every integer n with 0 ≤ n < 2 ^ 63, encode(n)
is a run of zero bits followed by a single one bit, which is its last bit; the
run has 2n zeros in INTERLEAVED mode and n + 1 zeros (the sign bit and n more)
in SIGN_MAGNITUDE mode, so the length is 2n + 1 respectively n + 2. -/
theorem C7_unary_signed (mode : NegativeMode) (n : Int) (h0 : 0 ≤ n) (h1 : n < 2 ^ 63) :
    ∃ g, Golomb.new 1 mode = .ok g ∧
      g.encode n
        = List.replicate (if mode = .INTERLEAVED then 2 * n.toNat else n.toNat + 1) false
            ++ [true] ∧
      (g.encode n).length = (if mode = .INTERLEAVED then 2 * n.toNat + 1 else n.toNat + 2) ∧
      (g.encode n).count true = 1 ∧
      (g.encode n).getLast? = some true := by
  obtain ⟨g, hnew, hgm, hmode, _⟩ := new_ok 1 mode (by decide) (by decide)
  have hshape : g.encode n
      = List.replicate (if mode = .INTERLEAVED then 2 * n.toNat else n.toNat + 1) false
          ++ [true] := by
    cases mode with
    | SIGN_MAGNITUDE =>
      have hne : ¬ (NegativeMode.SIGN_MAGNITUDE = NegativeMode.INTERLEAVED) := by decide
      have hmag : toU64 n = n.toNat := by
        unfold toU64
        omega
      rw [encode_sign_magnitude g hmode, encodeUnsignedToString_m1 g hgm]
      simp only [show ¬ (n < 0) by omega, if_false, hne, decide_False, hmag,
        List.replicate_succ, List.cons_append]
    | INTERLEAVED =>
      have hz : Golomb.toZigZag n = 2 * n.toNat := by
        have := toZigZag_nonneg n h0 h1
        omega
      rw [encode_interleaved g hmode, encodeUnsignedToString_m1 g hgm, hz]
      simp only [if_true]
  refine ⟨g, hnew, hshape, ?_, ?_, ?_⟩
  · rw [hshape]
    cases mode <;> simp
  · rw [hshape]
    simp [List.count_replicate]
  · rw [hshape]
    simp

/-- C7, an instance: INTERLEAVED mode and n = 4. -/
theorem C7_unary_signed_witness :
    ((0 : Int) ≤ 4 ∧ (4 : Int) < 2 ^ 63) ∧
      ∃ g, Golomb.new 1 .INTERLEAVED = .ok g ∧
        g.encode 4
          = List.replicate
              (if NegativeMode.INTERLEAVED = .INTERLEAVED then 2 * (4 : Int).toNat
               else (4 : Int).toNat + 1) false ++ [true] ∧
        (g.encode 4).length
          = (if NegativeMode.INTERLEAVED = .INTERLEAVED then 2 * (4 : Int).toNat + 1
             else (4 : Int).toNat + 2) ∧
        (g.encode 4).count true = 1 ∧
        (g.encode 4).getLast? = some true :=
  ⟨⟨by decide, by decide⟩, C7_unary_signed .INTERLEAVED 4 (by decide) (by decide)⟩

/-- C7 as stated fails: with m = 1 the codeword of n = 1 is 001 in both modes,
of length 3 and not n + 1 = 2. -/
theorem C7_counterexample :
    (∃ g, Golomb.new 1 .INTERLEAVED = .ok g ∧ g.encode 1 = [false, false, true] ∧
        (g.encode 1).length ≠ 1 + 1) ∧
    (∃ g, Golomb.new 1 .SIGN_MAGNITUDE = .ok g ∧ g.encode 1 = [false, false, true] ∧
        (g.encode 1).length ≠ 1 + 1) :=
  ⟨⟨{ m := 1, b := 0, cutoff := 0, negMode := .INTERLEAVED }, rfl, rfl, by decide⟩,
    ⟨{ m := 1, b := 0, cutoff := 0, negMode := .SIGN_MAGNITUDE }, rfl, rfl, by decide⟩⟩

/-- C8: for every coder and every signed v with |v| < 2 ^ 62, in SIGN_MAGNITUDE
mode encode(v) is one sign bit (set iff v < 0) followed by the unsigned codeword
of |v|; in INTERLEAVED mode encode(v) is the unsigned codeword of 2v for v ≥ 0
and of -2v - 1 for v < 0. -/
theorem C8_signed_mapping (g : Golomb) (v : Int) (hv : |v| < 2 ^ 62) :
    (g.negMode = .SIGN_MAGNITUDE →
        g.encode v = decide (v < 0) :: g.encodeUnsignedToString v.natAbs) ∧
    (g.negMode = .INTERLEAVED →
        g.encode v = g.encodeUnsignedToString
          (if 0 ≤ v then (2 * v).toNat else (-2 * v - 1).toNat)) := by
  obtain ⟨hlo, hhi⟩ := abs_lt.mp hv
  constructor
  · intro hmode
    rw [encode_sign_magnitude g hmode, magnitude_lt v (by omega) (by omega)]
  · intro hmode
    rw [encode_interleaved g hmode]
    congr 1
    by_cases h0 : 0 ≤ v
    · have := toZigZag_nonneg v h0 (by omega)
      rw [if_pos h0]
      omega
    · have := toZigZag_neg v (by omega) (by omega)
      rw [if_neg h0]
      omega

/-- C8, an instance: the coder with m = 3 in INTERLEAVED mode and v = -4. -/
theorem C8_signed_mapping_witness :
    |(-4 : Int)| < 2 ^ 62 ∧
      (NegativeMode.INTERLEAVED = .SIGN_MAGNITUDE →
        Golomb.encode { m := 3, b := 2, cutoff := 1, negMode := .INTERLEAVED } (-4)
          = decide ((-4 : Int) < 0)
            :: Golomb.encodeUnsignedToString
                { m := 3, b := 2, cutoff := 1, negMode := .INTERLEAVED } (-4 : Int).natAbs) ∧
      (NegativeMode.INTERLEAVED = .INTERLEAVED →
        Golomb.encode { m := 3, b := 2, cutoff := 1, negMode := .INTERLEAVED } (-4)
          = Golomb.encodeUnsignedToString
              { m := 3, b := 2, cutoff := 1, negMode := .INTERLEAVED }
              (if (0 : Int) ≤ -4 then (2 * (-4 : Int)).toNat
               else (-2 * (-4 : Int) - 1).toNat)) :=
  ⟨by norm_num,
    C8_signed_mapping { m := 3, b := 2, cutoff := 1, negMode := .INTERLEAVED } (-4)
      (by norm_num)⟩

/-- C9: for every signed x with |x| < 2 ^ 62, fromZigZag(toZigZag(x)) = x, a
non-negative x is mapped to the even code 2x and a negative x to the odd code
-2x - 1; for every unsigned z < 2 ^ 63, toZigZag(fromZigZag(z)) = z. -/
theorem C9_zigzag_bijection (x : Int) (z : Nat) (hx : |x| < 2 ^ 62) (hz : z < 2 ^ 63) :
    Golomb.fromZigZag (Golomb.toZigZag x) = x ∧
      Golomb.toZigZag (Golomb.fromZigZag z) = z ∧
      (0 ≤ x → (Golomb.toZigZag x : Int) = 2 * x) ∧
      (x < 0 → (Golomb.toZigZag x : Int) = -2 * x - 1) := by
  obtain ⟨hlo, hhi⟩ := abs_lt.mp hx
  refine ⟨fromZigZag_toZigZag x (by omega) (by omega), ?_,
    fun h0 => toZigZag_nonneg x h0 (by omega),
    fun h0 => toZigZag_neg x h0 (by omega)⟩
  by_cases hpar : z % 2 = 0
  · have h := fromZigZag_even z (by omega) hpar
    have h2 := toZigZag_nonneg (Golomb.fromZigZag z) (by omega) (by omega)
    omega
  · have h := fromZigZag_odd z (by omega) (by omega)
    by_cases hmax : z = 2 ^ 63 - 1
    · subst hmax
      rfl
    · have h2 := toZigZag_neg (Golomb.fromZigZag z) (by omega) (by omega)
      omega

/-- C9, an instance: x = -3 and z = 5. -/
theorem C9_zigzag_bijection_witness :
    (|(-3 : Int)| < 2 ^ 62 ∧ 5 < 2 ^ 63) ∧
      Golomb.fromZigZag (Golomb.toZigZag (-3)) = -3 ∧
      Golomb.toZigZag (Golomb.fromZigZag 5) = 5 ∧
      ((0 : Int) ≤ -3 → (Golomb.toZigZag (-3) : Int) = 2 * (-3)) ∧
      ((-3 : Int) < 0 → (Golomb.toZigZag (-3) : Int) = -2 * (-3) - 1) :=
  ⟨⟨by norm_num, by decide⟩, C9_zigzag_bijection (-3) 5 (by norm_num) (by decide)⟩

/-- C10 (amended): for every m with 1 ≤ m ≤ 2 ^ 63, both negative modes, every
signed 64-bit v and every proper prefix p of encode(v), the empty one included,
decode(p) throws one of the out-of-bits errors and returns no pair. -/
theorem C10_truncated_stream_fails (m : Nat) (mode : NegativeMode) (v : Int)
    (p s : List Bool) (hm1 : 1 ≤ m) (hm : m ≤ 2 ^ 63)
    (hlo : -(2 ^ 63) ≤ v) (hhi : v < 2 ^ 63) :
    ∃ g, Golomb.new m mode = .ok g ∧
      (p ++ s = g.encode v → s ≠ [] →
        ∃ e, g.decode p = .error e ∧ e.isStreamUnderflow = true) := by
  obtain ⟨g, hnew, _, _, hwf⟩ := new_ok m mode hm1 hm
  exact ⟨g, hnew, fun hps hs => decode_truncated g hwf v hlo hhi p s hps hs⟩

/-- C10, an instance: m = 3 in SIGN_MAGNITUDE mode, v = 7 with codeword 000110,
cut after its first four bits. -/
theorem C10_truncated_stream_fails_witness :
    (1 ≤ 3 ∧ 3 ≤ 2 ^ 63 ∧ -(2 ^ 63) ≤ (7 : Int) ∧ (7 : Int) < 2 ^ 63) ∧
      ∃ g, Golomb.new 3 .SIGN_MAGNITUDE = .ok g ∧
        ([false, false, false, true] ++ [true, false] = g.encode 7 ∧
          [true, false] ≠ ([] : List Bool)) ∧
        ∃ e, g.decode [false, false, false, true] = .error e ∧
          e.isStreamUnderflow = true := by
  refine ⟨⟨by decide, by decide, by decide, by decide⟩, ?_⟩
  obtain ⟨g, hg, h⟩ := C10_truncated_stream_fails 3 .SIGN_MAGNITUDE 7
    [false, false, false, true] [true, false] (by decide) (by decide) (by decide) (by decide)
  have hg1 : g = { m := 3, b := 2, cutoff := 1, negMode := .SIGN_MAGNITUDE } := by
    have h3 : Golomb.new 3 .SIGN_MAGNITUDE
        = .ok { m := 3, b := 2, cutoff := 1, negMode := .SIGN_MAGNITUDE } := rfl
    rw [h3] at hg
    injection hg with hg
    exact hg.symm
  subst hg1
  exact ⟨_, hg, ⟨rfl, by decide⟩, h rfl (by decide)⟩

/-- C10 as stated fails: for m = 2 ^ 63 + 4 no coder is constructed, so decode
is never reached and no out-of-bits error is thrown. -/
theorem C10_counterexample :
    ¬ ∃ g, Golomb.new (2 ^ 63 + 4) .INTERLEAVED = .ok g ∧
      ∃ e, g.decode [] = .error e ∧ e.isStreamUnderflow = true := by
  rintro ⟨g, hg, _⟩
  rw [new_overflow _ _ (by decide)] at hg
  cases hg

/-! ## The derived parameters -/

theorem new_ok_wellFormed (m : Nat) (negMode : NegativeMode) (g : Golomb)
    (h : Golomb.new m negMode = .ok g) :
    1 ≤ m ∧ m ≤ 2 ^ 63 ∧ g.m = m ∧ g.negMode = negMode ∧ g.WellFormed := by
  have h2 : m ≤ 2 ^ 63 := by
    by_contra hgt
    rw [new_overflow m negMode (by omega)] at h
    cases h
  obtain ⟨ha, hb, hc⟩ := new_eq_ok m negMode g h h2
  exact ⟨by have := hc.1; omega, h2, ha, hb, hc⟩

theorem msbFirst_getD (v : Nat) (k : Nat) : ∀ (i : Nat), i < k →
    (msbFirst v k).getD i false = v.testBit (k - 1 - i) := by
  induction k with
  | zero => intro i hi; omega
  | succ k ih =>
    intro i hi
    cases i with
    | zero => simp [msbFirst]
    | succ i =>
      have h := ih i (by omega)
      have e : k + 1 - 1 - (i + 1) = k - 1 - i := by omega
      rw [e, ← h]
      simp [msbFirst]

/-! ## The reader under arbitrary calls -/

theorem readBitsTrace_spec (k : Nat) : ∀ (r : BitReader), r.pos ≤ r.bits.length →
    (BitReader.readBitsTrace k r).1.bits = r.bits ∧
      (BitReader.readBitsTrace k r).1.pos = r.pos + min k (r.bits.length - r.pos) ∧
      (BitReader.readBitsTrace k r).2 = (r.bits.drop r.pos).take k := by
  induction k with
  | zero => intro r _; simp [BitReader.readBitsTrace]
  | succ k ih =>
    intro r hp
    cases hr : r.rest with
    | nil =>
      have hlen := rest_length r
      rw [hr] at hlen
      simp only [List.length_nil] at hlen
      unfold BitReader.rest at hr
      simp only [BitReader.readBitsTrace, rest_readBit_nil r hr, hr, List.take_nil]
      refine ⟨trivial, ?_, trivial⟩
      omega
    | cons b t =>
      have hlen := rest_length r
      rw [hr] at hlen
      simp only [List.length_cons] at hlen
      obtain ⟨h1, h2⟩ := rest_readBit_cons r b t hr
      obtain ⟨h3, h4, h5⟩ := ih { bits := r.bits, pos := r.pos + 1 } (by simp only; omega)
      unfold BitReader.rest at hr h2
      simp only at h2 h3 h4 h5
      simp only [BitReader.readBitsTrace, h1, hr, List.take_succ_cons, h3, h4, h5, h2]
      refine ⟨trivial, ?_, trivial⟩
      omega

theorem call_spec (r : BitReader) (c : ReaderCall) (hp : r.pos ≤ r.bits.length) :
    (r.call c).1.bits = r.bits ∧ r.pos ≤ (r.call c).1.pos ∧
      (r.call c).1.pos ≤ r.bits.length ∧
      (r.call c).2 = (r.bits.drop r.pos).take ((r.call c).1.pos - r.pos) := by
  cases c with
  | hasMore => simp [BitReader.call, hp]
  | readBit =>
    cases hr : r.rest with
    | nil =>
      simp [BitReader.call, rest_readBit_nil r hr, hp]
    | cons b t =>
      have hlen := rest_length r
      rw [hr] at hlen
      simp only [List.length_cons] at hlen
      obtain ⟨h1, _⟩ := rest_readBit_cons r b t hr
      unfold BitReader.rest at hr
      simp only [BitReader.call, h1, hr, Nat.add_sub_cancel_left, List.take_succ_cons,
        List.take_zero, and_true, true_and]
      omega
  | readBits count =>
    obtain ⟨h1, h2, h3⟩ := readBitsTrace_spec count r hp
    by_cases hc : count = 0
    · simp [BitReader.call, hc, hp]
    · simp only [BitReader.call, hc, if_false, h1, h2, h3, Nat.add_sub_cancel_left,
        true_and]
      refine ⟨by omega, by omega, ?_⟩
      rw [List.take_eq_take]
      simp only [List.length_drop]
      omega

theorem run_spec (cs : List ReaderCall) : ∀ (r : BitReader), r.pos ≤ r.bits.length →
    (r.run cs).1.bits = r.bits ∧ r.pos ≤ (r.run cs).1.pos ∧
      (r.run cs).1.pos ≤ r.bits.length ∧
      (r.run cs).2 = (r.bits.drop r.pos).take ((r.run cs).1.pos - r.pos) := by
  induction cs with
  | nil => intro r hp; simp [BitReader.run, hp]
  | cons c cs ih =>
    intro r hp
    obtain ⟨h1, h2, h3, h4⟩ := call_spec r c hp
    obtain ⟨h5, h6, h7, h8⟩ := ih (r.call c).1 (by rw [h1]; exact h3)
    rw [h1] at h5 h7 h8
    simp only [BitReader.run]
    refine ⟨h5, by omega, h7, ?_⟩
    rw [h4, h8]
    have e : (r.run (c :: cs)).1.pos = ((r.call c).1.run cs).1.pos := rfl
    have hsplit : ((r.call c).1.run cs).1.pos - r.pos
        = ((r.call c).1.pos - r.pos) + (((r.call c).1.run cs).1.pos - (r.call c).1.pos) := by
      omega
    rw [hsplit, List.take_add, List.drop_drop]
    congr 3
    omega

/-! ## Claims on the constructor, the writer and the reader -/

/-- C11: constructing a coder throws the invalid-argument error if and only if
m = 0, and for every m with 1 ≤ m ≤ 2 ^ 63 the constructor succeeds, keeping m
and the negative mode. -/
theorem C11_construction (m : Nat) (mode : NegativeMode) :
    (Golomb.new m mode = .error .invalidArgument ↔ m = 0) ∧
      (1 ≤ m → m ≤ 2 ^ 63 → ∃ g, Golomb.new m mode = .ok g ∧ g.m = m ∧ g.negMode = mode) := by
  constructor
  · constructor
    · intro h
      by_contra h0
      by_cases hle : m ≤ 2 ^ 63
      · obtain ⟨g, hg, _⟩ := new_ok m mode (by omega) hle
        rw [hg] at h
        cases h
      · rw [new_overflow m mode (by omega)] at h
        cases h
    · intro h0
      subst h0
      rfl
  · intro h1 h2
    obtain ⟨g, hg, ha, hb, _⟩ := new_ok m mode h1 h2
    exact ⟨g, hg, ha, hb⟩

/-- C11, an instance: m = 5 is accepted and is not 0. -/
theorem C11_construction_witness :
    (1 ≤ 5 ∧ 5 ≤ 2 ^ 63) ∧
      (Golomb.new 5 .INTERLEAVED = .error .invalidArgument ↔ 5 = 0) ∧
      ∃ g, Golomb.new 5 .INTERLEAVED = .ok g ∧ g.m = 5 ∧ g.negMode = .INTERLEAVED :=
  ⟨⟨by decide, by decide⟩, (C11_construction 5 .INTERLEAVED).1,
    (C11_construction 5 .INTERLEAVED).2 (by decide) (by decide)⟩

/-- C12: for every m with 1 ≤ m ≤ 2 ^ 63 the constructor sets b to the least
exponent with m ≤ 2 ^ b, which is ceil(log2 m) and is 0 for m = 1, and cutoff to
2 ^ b - m, which is 0 for m = 1; hence cutoff < m, and cutoff < 2 ^ (b - 1) for
m ≥ 2. -/
theorem C12_derived_parameters (m : Nat) (mode : NegativeMode)
    (h1 : 1 ≤ m) (h2 : m ≤ 2 ^ 63) :
    ∃ g, Golomb.new m mode = .ok g ∧
      m ≤ 2 ^ g.b ∧ (∀ k, m ≤ 2 ^ k → g.b ≤ k) ∧ g.b = Nat.clog 2 m ∧
      g.cutoff = 2 ^ g.b - m ∧ (m = 1 → g.b = 0 ∧ g.cutoff = 0) ∧
      g.cutoff < m ∧ (2 ≤ m → g.cutoff < 2 ^ (g.b - 1)) := by
  obtain ⟨g, hg, hgm, _, hwf⟩ := new_ok m mode h1 h2
  have hclog := wellFormed_clog g hwf
  obtain ⟨_, _, hle, hmin, hcut⟩ := hwf
  subst hgm
  have hb1 : g.m = 1 → g.b = 0 := by
    intro hm
    rcases hmin with h0 | h0
    · exact h0
    · have : 0 < 2 ^ (g.b - 1) := Nat.two_pow_pos _
      omega
  have hpow : g.b ≠ 0 → 2 ^ g.b = 2 * 2 ^ (g.b - 1) := by
    intro hb0
    have hb : g.b - 1 + 1 = g.b := by omega
    conv_lhs => rw [← hb, Nat.pow_succ, Nat.mul_comm]
  refine ⟨g, hg, hle, ?_, hclog, hcut, ?_, ?_, ?_⟩
  · intro k hk
    rw [hclog]
    exact (Nat.le_pow_iff_clog_le (by decide)).mp hk
  · intro hm
    have hb0 := hb1 hm
    rw [hcut, hb0, hm]
    exact ⟨rfl, rfl⟩
  · rcases hmin with h0 | h0
    · rw [h0] at hle hcut
      simp at hle
      omega
    · by_cases hb0 : g.b = 0
      · rw [hb0] at hcut
        simp at hcut
        omega
      · have := hpow hb0
        omega
  · intro hm2
    have hb0 : g.b ≠ 0 := by
      intro hb0
      rw [hb0] at hle
      simp at hle
      omega
    rcases hmin with h0 | h0
    · exact absurd h0 hb0
    · have := hpow hb0
      omega

/-- C12, an instance: m = 6 gives b = 3 and cutoff = 2. -/
theorem C12_derived_parameters_witness :
    (1 ≤ 6 ∧ 6 ≤ 2 ^ 63) ∧
      ∃ g, Golomb.new 6 .INTERLEAVED = .ok g ∧
        6 ≤ 2 ^ g.b ∧ (∀ k, 6 ≤ 2 ^ k → g.b ≤ k) ∧ g.b = Nat.clog 2 6 ∧
        g.cutoff = 2 ^ g.b - 6 ∧ (6 = 1 → g.b = 0 ∧ g.cutoff = 0) ∧
        g.cutoff < 6 ∧ (2 ≤ 6 → g.cutoff < 2 ^ (g.b - 1)) :=
  ⟨⟨by decide, by decide⟩, C12_derived_parameters 6 .INTERLEAVED (by decide) (by decide)⟩

/-- C13: for every count with 0 ≤ count ≤ 64 and every 64-bit value,
writeBits(value, count) appends exactly count bits, the bit at index i of them
being bit (count - 1 - i) of value, and a reader whose cursor is at the start
of these bits gets value mod 2 ^ count from readBits(count) and has its cursor
advanced by exactly count. -/
theorem C13_writeBits_readBits (w : BitWriter) (value count : Nat) (pre t : List Bool)
    (hv : value < 2 ^ 64) (_hc : count ≤ 64) :
    ∃ l, (w.writeBits value count).bits = w.bits ++ l ∧ l.length = count ∧
      (∀ i, i < count → l.getD i false = value.testBit (count - 1 - i)) ∧
      BitReader.readBits { bits := pre ++ l ++ t, pos := pre.length } count
        = .ok (value % 2 ^ count, { bits := pre ++ l ++ t, pos := pre.length + count }) := by
  refine ⟨msbFirst value count, writeBits_bits w value count, msbFirst_length value count,
    msbFirst_getD value count, ?_⟩
  have hrest : BitReader.rest { bits := pre ++ msbFirst value count ++ t, pos := pre.length }
      = msbFirst value count ++ t := by
    unfold BitReader.rest
    rw [List.append_assoc, List.drop_left]
  obtain ⟨h1, _⟩ := readBits_ok count _ _ t hrest (msbFirst_length value count)
  have hmod : value % 2 ^ count < 2 ^ 64 :=
    Nat.lt_of_le_of_lt (Nat.mod_le _ _) hv
  rw [accBits_msbFirst value count 0 (by omega)] at h1
  rw [h1]
  simp

/-- C13, an instance: the three low bits 101 of the value 13, written after 1
and read back from the stream 1 101 0. -/
theorem C13_writeBits_readBits_witness :
    (13 < 2 ^ 64 ∧ 3 ≤ 64) ∧
      ∃ l, (BitWriter.writeBits { bits := [true] } 13 3).bits = [true] ++ l ∧ l.length = 3 ∧
        (∀ i, i < 3 → l.getD i false = Nat.testBit 13 (3 - 1 - i)) ∧
        BitReader.readBits { bits := [true] ++ l ++ [false], pos := [true].length } 3
          = .ok (13 % 2 ^ 3, { bits := [true] ++ l ++ [false], pos := [true].length + 3 }) :=
  ⟨⟨by decide, by decide⟩,
    C13_writeBits_readBits { bits := [true] } 13 3 [true] [false] (by decide) (by decide)⟩

/-- C14: after any sequence of hasMore, readBit and readBits calls on a reader
that starts at pos = 0, the reader still views the same stream and its cursor
satisfies 0 ≤ pos ≤ length; the bits taken so far are exactly the first pos bits
of the stream, so never more than the length; a further call never decreases
the cursor; hasMore() is true iff pos < length; readBit() throws iff
pos ≥ length, leaving the reader unchanged, and otherwise returns the bit at pos
and increments pos by one. -/
theorem C14_cursor_invariant (bits : List Bool) (calls : List ReaderCall)
    (next : ReaderCall) :
    ((BitReader.new bits).run calls).1.bits = bits ∧
      ((BitReader.new bits).run calls).1.pos ≤ bits.length ∧
      ((BitReader.new bits).run calls).2
        = bits.take ((BitReader.new bits).run calls).1.pos ∧
      ((BitReader.new bits).run calls).2.length ≤ bits.length ∧
      ((BitReader.new bits).run calls).1.pos
        ≤ (((BitReader.new bits).run calls).1.call next).1.pos ∧
      (((BitReader.new bits).run calls).1.hasMore = true
        ↔ ((BitReader.new bits).run calls).1.pos < bits.length) ∧
      ((∃ e, ((BitReader.new bits).run calls).1.readBit = .error e)
        ↔ bits.length ≤ ((BitReader.new bits).run calls).1.pos) ∧
      (bits.length ≤ ((BitReader.new bits).run calls).1.pos →
        (((BitReader.new bits).run calls).1.call .readBit).1
          = ((BitReader.new bits).run calls).1) ∧
      (((BitReader.new bits).run calls).1.pos < bits.length →
        ((BitReader.new bits).run calls).1.readBit
          = .ok (bits.getD ((BitReader.new bits).run calls).1.pos false,
              { bits := bits, pos := ((BitReader.new bits).run calls).1.pos + 1 })) := by
  obtain ⟨h1, _, h3, h4⟩ := run_spec calls (BitReader.new bits) (Nat.zero_le _)
  simp only [BitReader.new, List.drop_zero, Nat.sub_zero] at h1 h3 h4
  generalize hr : ((BitReader.new bits).run calls).1 = r at *
  generalize hy : ((BitReader.new bits).run calls).2 = ys at *
  simp only [BitReader.new] at hr hy
  rw [hr] at h1 h3 h4
  rw [hy] at h4
  obtain ⟨rb, rp⟩ := r
  simp only at h1 h3 h4
  subst h1
  obtain ⟨_, h6, _, _⟩ := call_spec { bits := rb, pos := rp } next h3
  refine ⟨rfl, h3, h4, ?_, h6, ?_, ?_, ?_, ?_⟩
  · rw [h4, List.length_take]
    omega
  · simp [BitReader.hasMore]
  · unfold BitReader.readBit
    constructor
    · rintro ⟨e, he⟩
      by_contra hlt
      rw [if_neg (by simpa using hlt)] at he
      cases he
    · intro hge
      exact ⟨.outOfBits, by rw [if_pos hge]⟩
  · intro hge
    simp only [BitReader.call, BitReader.readBit]
    rw [if_pos hge]
  · intro hlt
    unfold BitReader.readBit
    rw [if_neg (by simpa using hlt)]

/-! ## The image predictors -/

theorem medianRule_eq_median3 (a b c : Int) (h : a ≠ b ∨ c = a) :
    medianRule a b c = median3 a b (a + b - c) := by
  unfold medianRule median3
  simp only [ne_eq]
  split_ifs <;> omega

theorem rowMajor_succ {α : Type} (t : Nat → Nat → α) (w k : Nat) :
    rowMajor t w (k + 1) = rowMajor t w k ++ [t (k / w) (k % w)] := by
  unfold rowMajor
  rw [List.range_succ, List.map_append]
  rfl

theorem rowMajor_length {α : Type} (t : Nat → Nat → α) (w k : Nat) :
    (rowMajor t w k).length = k := by
  simp [rowMajor]

theorem rowMajor_getD {α : Type} (t : Nat → Nat → α) (w k r c : Nat) (d : α)
    (hc : c < w) (hk : r * w + c < k) :
    (rowMajor t w k).getD (r * w + c) d = t r c := by
  unfold rowMajor
  rw [List.getD_eq_getElem _ _ (by simpa using hk)]
  simp only [List.getElem_map, List.getElem_range]
  have h1 : (r * w + c) / w = r := by
    rw [Nat.add_comm, Nat.add_mul_div_right _ _ (by omega), Nat.div_eq_of_lt hc, Nat.zero_add]
  have h2 : (r * w + c) % w = c := by
    rw [Nat.add_comm, Nat.add_mul_mod_self_right, Nat.mod_eq_of_lt hc]
  rw [h1, h2]

theorem pushLoop_rowMajor {α : Type} (h w : Nat) (f : List α → Nat → Nat → α)
    (t : Nat → Nat → α)
    (hf : ∀ r c, r < h → c < w → f (rowMajor t w (r * w + c)) r c = t r c) :
    pushLoop h w f = rowMajor t w (h * w) := by
  have inner : ∀ r, r < h → ∀ c, c ≤ w →
      (List.range c).foldl (fun out c => out ++ [f out r c]) (rowMajor t w (r * w))
        = rowMajor t w (r * w + c) := by
    intro r hr c
    induction c with
    | zero => intro _; rfl
    | succ c ih =>
      intro hc
      have h1 : (r * w + c) / w = r := by
        rw [Nat.add_comm, Nat.add_mul_div_right _ _ (by omega), Nat.div_eq_of_lt (by omega),
          Nat.zero_add]
      have h2 : (r * w + c) % w = c := by
        rw [Nat.add_comm, Nat.add_mul_mod_self_right, Nat.mod_eq_of_lt (by omega)]
      rw [List.range_succ, List.foldl_append, ih (by omega)]
      simp only [List.foldl_cons, List.foldl_nil]
      rw [hf r c hr (by omega), ← Nat.add_assoc, rowMajor_succ, h1, h2]
  have outer : ∀ r, r ≤ h →
      (List.range r).foldl
        (fun out r => (List.range w).foldl (fun out c => out ++ [f out r c]) out) []
        = rowMajor t w (r * w) := by
    intro r
    induction r with
    | zero => intro _; simp [rowMajor]
    | succ r ih =>
      intro hr
      rw [List.range_succ, List.foldl_append, ih (by omega)]
      simp only [List.foldl_cons, List.foldl_nil]
      rw [inner r (by omega) w (Nat.le_refl _), Nat.succ_mul]
  exact outer h (Nat.le_refl _)

theorem predict_congr (p : Int) (f g : Nat → Nat → Int) (r c : Nat)
    (h1 : c ≠ 0 → f r (c - 1) = g r (c - 1))
    (h2 : r ≠ 0 → f (r - 1) c = g (r - 1) c)
    (h3 : r ≠ 0 → c ≠ 0 → f (r - 1) (c - 1) = g (r - 1) (c - 1)) :
    predict p f r c = predict p g r c := by
  have e1 : (if c = 0 then (0 : Int) else f r (c - 1)) = (if c = 0 then 0 else g r (c - 1)) := by
    by_cases hc : c = 0
    · rw [if_pos hc, if_pos hc]
    · rw [if_neg hc, if_neg hc, h1 hc]
  have e2 : (if r = 0 then (0 : Int) else f (r - 1) c) = (if r = 0 then 0 else g (r - 1) c) := by
    by_cases hr : r = 0
    · rw [if_pos hr, if_pos hr]
    · rw [if_neg hr, if_neg hr, h2 hr]
  have e3 : (if r = 0 ∨ c = 0 then (0 : Int) else f (r - 1) (c - 1))
      = (if r = 0 ∨ c = 0 then 0 else g (r - 1) (c - 1)) := by
    by_cases hrc : r = 0 ∨ c = 0
    · rw [if_pos hrc, if_pos hrc]
    · rw [if_neg hrc, if_neg hrc, h3 (fun h => hrc (Or.inl h)) (fun h => hrc (Or.inr h))]
  unfold predict
  simp only [e1, e2, e3]

theorem predict_bounds (p : Int) (px : Nat → Nat → Int) (r c : Nat)
    (hpx : ∀ r c, 0 ≤ px r c ∧ px r c ≤ 255) :
    -255 ≤ predict p px r c ∧ predict p px r c ≤ 510 := by
  have ha := hpx r (c - 1)
  have hb := hpx (r - 1) c
  have hc := hpx (r - 1) (c - 1)
  unfold predict medianRule
  simp only [ne_eq]
  split_ifs <;> omega

theorem mat_at_bounds (img : Mat) (hpix : ∀ x ∈ img.data, x < 256) (r c : Nat) :
    0 ≤ img.at r c ∧ img.at r c ≤ 255 := by
  unfold Mat.at
  have h : img.data.getD (r * img.cols + c) 0 < 256 := by
    by_cases hlt : r * img.cols + c < img.data.length
    · rw [List.getD_eq_getElem _ _ hlt]
      exact hpix _ (List.getElem_mem _)
    · rw [List.getD_eq_default _ _ (by omega)]
      decide
  omega

theorem data_eq_rowMajor (img : Mat) (hlen : img.data.length = img.rows * img.cols) :
    img.data
      = rowMajor (fun r c => img.data.getD (r * img.cols + c) 0) img.cols
          (img.rows * img.cols) := by
  apply List.ext_getElem
  · rw [rowMajor_length, hlen]
  · intro k h1 h2
    unfold rowMajor
    simp only [List.getElem_map, List.getElem_range]
    rw [Nat.div_add_mod' k img.cols, List.getD_eq_getElem _ _ h1]

theorem computeResiduals_eq (predictor : Int) (img : Mat) :
    computeResiduals predictor img
      = rowMajor (fun r c => img.at r c - predict predictor img.at r c) img.cols
          (img.rows * img.cols) :=
  pushLoop_rowMajor _ _ _ _ (fun _ _ _ _ => rfl)

theorem reconstruct_computeResiduals (predictor : Int) (img : Mat)
    (hlen : img.data.length = img.rows * img.cols) (hpix : ∀ x ∈ img.data, x < 256) :
    reconstruct predictor img.cols img.rows (computeResiduals predictor img) = img.data := by
  have hdata := data_eq_rowMajor img hlen
  rw [computeResiduals_eq]
  conv_rhs => rw [hdata]
  unfold reconstruct
  apply pushLoop_rowMajor
  intro r c hr hc
  have hk : r * img.cols + c < img.rows * img.cols := by
    have : (r + 1) * img.cols ≤ img.rows * img.cols := Nat.mul_le_mul_right _ hr
    rw [Nat.succ_mul] at this
    omega
  rw [rowMajor_length, rowMajor_getD _ _ _ r c 0 hc hk]
  have hpred : predict predictor
      (fun r1 c1 => (((rowMajor (fun r c => img.data.getD (r * img.cols + c) 0) img.cols
        (r * img.cols + c)).getD (r1 * img.cols + c1) 0 : Nat) : Int)) r c
      = predict predictor img.at r c := by
    apply predict_congr
    · intro hc0
      show ((_ : Nat) : Int) = img.at r (c - 1)
      rw [rowMajor_getD _ _ _ r (c - 1) 0 (by omega) (by omega)]
      rfl
    · intro hr0
      show ((_ : Nat) : Int) = img.at (r - 1) c
      have : (r - 1) * img.cols + c < r * img.cols + c := by
        have : (r - 1 + 1) * img.cols = r * img.cols := by
          rw [Nat.sub_add_cancel (by omega)]
        rw [Nat.succ_mul] at this
        omega
      rw [rowMajor_getD _ _ _ (r - 1) c 0 hc this]
      rfl
    · intro hr0 hc0
      show ((_ : Nat) : Int) = img.at (r - 1) (c - 1)
      have : (r - 1) * img.cols + (c - 1) < r * img.cols + c := by
        have : (r - 1 + 1) * img.cols = r * img.cols := by
          rw [Nat.sub_add_cancel (by omega)]
        rw [Nat.succ_mul] at this
        omega
      rw [rowMajor_getD _ _ _ (r - 1) (c - 1) 0 (by omega) this]
      rfl
  rw [hpred]
  have hb := mat_at_bounds img hpix r c
  have hval : predict predictor img.at r c + (img.at r c - predict predictor img.at r c)
      = img.at r c := by omega
  rw [hval]
  unfold clampPixel toU8
  rw [if_neg (by omega), if_neg (by omega)]
  unfold Mat.at at hb ⊢
  omega

theorem decodeResidualsLoop_stream (g : Golomb) (hg : g.WellFormed) (total : Nat)
    (vs : List Int) : ∀ (fuel : Nat) (pre : List Bool) (acc : List Int),
    (∀ v ∈ vs, -(2 ^ 31) ≤ v ∧ v < 2 ^ 31) → vs.length < fuel →
    acc.length + vs.length = total →
    decodeResidualsLoop g (pre ++ codeStream g vs) total fuel pre.length acc
      = .ok (acc ++ vs) := by
  induction vs with
  | nil =>
    intro fuel pre acc _ hf _
    cases fuel with
    | zero => simp at hf
    | succ fuel =>
      unfold decodeResidualsLoop
      simp [codeStream]
  | cons v vs ih =>
    intro fuel pre acc hall hf htot
    cases fuel with
    | zero => simp at hf
    | succ fuel =>
      obtain ⟨hlo, hhi⟩ := hall v (List.mem_cons_self v vs)
      have hdec := decode_encode_append g hg v (by omega) (by omega) (fun _ => by omega)
        (codeStream g vs)
      obtain ⟨hpos, _, _⟩ := decode_ok_inv g _ _ _ hdec
      have hlt : pre.length < (pre ++ codeStream g (v :: vs)).length := by
        simp only [codeStream, List.length_append]
        omega
      have hcnt : acc.length < total := by
        simp only [List.length_cons] at htot
        omega
      have hdrop : (pre ++ codeStream g (v :: vs)).drop pre.length
          = g.encode v ++ codeStream g vs := by
        rw [List.drop_left]
        rfl
      have hne : ¬ ((g.encode v).length = 0) := by omega
      have hcast : toI32 v = v := by
        unfold toI32
        omega
      have hih := ih fuel (pre ++ g.encode v) (acc ++ [v])
        (fun u hu => hall u (List.mem_cons_of_mem v hu))
        (by simp only [List.length_cons] at hf; omega)
        (by simp only [List.length_cons, List.length_append, List.length_nil] at htot ⊢; omega)
      rw [List.length_append, List.append_assoc, List.append_assoc, List.singleton_append]
        at hih
      unfold decodeResidualsLoop
      simp only [hlt, hcnt, and_self, if_true, hdrop, hdec, hne, if_false, hcast]
      exact hih

theorem codeStream_length_ge (g : Golomb) (hg : g.WellFormed) (vs : List Int)
    (hall : ∀ v ∈ vs, -(2 ^ 63) < v ∧ v < 2 ^ 63) :
    vs.length ≤ (codeStream g vs).length := by
  induction vs with
  | nil => simp [codeStream]
  | cons w ws ih =>
    obtain ⟨hlo, hhi⟩ := hall w (List.mem_cons_self w ws)
    have hdec := decode_encode_append g hg w (by omega) hhi (fun _ => by omega) []
    obtain ⟨hpos, _, _⟩ := decode_ok_inv g _ _ _ hdec
    have := ih (fun u hu => hall u (List.mem_cons_of_mem w hu))
    simp only [codeStream, List.length_append, List.length_cons]
    omega

theorem computeResiduals_bounds (predictor : Int) (img : Mat)
    (hpix : ∀ x ∈ img.data, x < 256) :
    ∀ v ∈ computeResiduals predictor img, -510 ≤ v ∧ v ≤ 510 := by
  intro v hv
  rw [computeResiduals_eq] at hv
  unfold rowMajor at hv
  obtain ⟨j, _, hj⟩ := List.mem_map.mp hv
  simp only at hj
  have h1 := mat_at_bounds img hpix (j / img.cols) (j % img.cols)
  have h2 := predict_bounds predictor img.at (j / img.cols) (j % img.cols)
    (mat_at_bounds img hpix)
  omega

/-! ## Claims on the image codec -/

/-- C18: for predictor 0 or 1, every image of 8-bit pixels and every Golomb
parameter m the encoder can choose (every m with 1 ≤ m ≤ 2 ^ 63), the residuals
of the encoder, coded with m in INTERLEAVED mode, are decoded and reconstructed
by the decoder, which tests the header byte pred8 = (uint8_t)predictor, into
exactly the original pixels. -/
theorem C18_image_round_trip (predictor : Int) (img : Mat) (m : Nat)
    (hpred : predictor = 0 ∨ predictor = 1)
    (hlen : img.data.length = img.rows * img.cols) (hpix : ∀ x ∈ img.data, x < 256)
    (hm1 : 1 ≤ m) (hm : m ≤ 2 ^ 63) :
    ∃ g, Golomb.new m .INTERLEAVED = .ok g ∧
      decodeImage g (toU8 predictor) img.cols img.rows
        (concatEncode g (computeResiduals predictor img)) = .ok img.data := by
  obtain ⟨g, hnew, _, _, hwf⟩ := new_ok m .INTERLEAVED hm1 hm
  refine ⟨g, hnew, ?_⟩
  have hp8 : ((toU8 predictor : Nat) : Int) = predictor := by
    rcases hpred with h | h <;> subst h <;> rfl
  rw [hp8]
  have hb := computeResiduals_bounds predictor img hpix
  have hrlen : (computeResiduals predictor img).length = img.cols * img.rows := by
    rw [computeResiduals_eq, rowMajor_length, Nat.mul_comm]
  have hge := codeStream_length_ge g hwf (computeResiduals predictor img)
    (fun v hv => by have := hb v hv; omega)
  have hloop := decodeResidualsLoop_stream g hwf (img.cols * img.rows)
    (computeResiduals predictor img)
    ((codeStream g (computeResiduals predictor img)).length + 1) [] []
    (fun v hv => by have := hb v hv; omega) (by omega)
    (by simp only [List.length_nil, Nat.zero_add]; exact hrlen)
  simp only [List.nil_append, List.length_nil] at hloop
  unfold decodeImage
  rw [concatEncode_eq, hloop]
  simp only [hrlen, ne_eq, not_true_eq_false, if_false]
  rw [reconstruct_computeResiduals predictor img hlen hpix]

/-- C18, an instance: the 2 x 2 image with rows 5, 10 and 10, 200, the median
predictor and m = 4. -/
theorem C18_image_round_trip_witness :
    (((1 : Int) = 0 ∨ (1 : Int) = 1) ∧
      (Mat.mk 2 2 [5, 10, 10, 200]).data.length
        = (Mat.mk 2 2 [5, 10, 10, 200]).rows * (Mat.mk 2 2 [5, 10, 10, 200]).cols ∧
      (∀ x ∈ (Mat.mk 2 2 [5, 10, 10, 200]).data, x < 256) ∧ 1 ≤ 4 ∧ 4 ≤ 2 ^ 63) ∧
      ∃ g, Golomb.new 4 .INTERLEAVED = .ok g ∧
        decodeImage g (toU8 1) (Mat.mk 2 2 [5, 10, 10, 200]).cols
          (Mat.mk 2 2 [5, 10, 10, 200]).rows
          (concatEncode g (computeResiduals 1 (Mat.mk 2 2 [5, 10, 10, 200])))
          = .ok (Mat.mk 2 2 [5, 10, 10, 200]).data :=
  ⟨⟨Or.inr rfl, rfl, by decide, by decide, by decide⟩,
    C18_image_round_trip 1 (Mat.mk 2 2 [5, 10, 10, 200]) 4 (Or.inr rfl) rfl (by decide)
      (by decide) (by decide)⟩

/-- C19: with pixels in 0 .. 255 and missing neighbours taken as 0, predictor 1
predicts 0 at position (0, 0), the left pixel at every position of row 0 with
column > 0 and the top pixel at every position of column 0 with row > 0;
predictor 0 predicts 0 at column 0 and the left pixel elsewhere. -/
theorem C19_predictor_edges (px : Nat → Nat → Int) (r c : Nat)
    (hpx : ∀ r c, 0 ≤ px r c ∧ px r c ≤ 255) :
    predict 1 px 0 0 = 0 ∧
      (0 < c → predict 1 px 0 c = px 0 (c - 1)) ∧
      (0 < r → predict 1 px r 0 = px (r - 1) 0) ∧
      predict 0 px r 0 = 0 ∧
      (0 < c → predict 0 px r c = px r (c - 1)) := by
  have ha := hpx 0 (c - 1)
  have hb := hpx (r - 1) 0
  refine ⟨?_, ?_, ?_, ?_, ?_⟩
  · simp [predict, medianRule]
  · intro hc
    have hc0 : c ≠ 0 := by omega
    simp only [predict, medianRule, hc0, if_false, if_true, true_or, ne_eq,
      show ¬ ((1 : Int) = 0) by decide]
    split_ifs <;> omega
  · intro hr
    have hr0 : r ≠ 0 := by omega
    simp only [predict, medianRule, hr0, if_false, if_true, or_true, ne_eq,
      show ¬ ((1 : Int) = 0) by decide]
    split_ifs <;> omega
  · simp [predict]
  · intro hc
    have hc0 : c ≠ 0 := by omega
    simp [predict, hc0]

/-- C19, an instance: the pixels of the 3 x 3 image with rows 1, 2, 3 / 4, 5,
6 / 7, 8, 9, at row 2 and column 2. -/
theorem C19_predictor_edges_witness :
    (∀ r c, 0 ≤ (Mat.mk 3 3 [1, 2, 3, 4, 5, 6, 7, 8, 9]).at r c ∧
        (Mat.mk 3 3 [1, 2, 3, 4, 5, 6, 7, 8, 9]).at r c ≤ 255) ∧
      predict 1 (Mat.mk 3 3 [1, 2, 3, 4, 5, 6, 7, 8, 9]).at 0 0 = 0 ∧
      (0 < 2 → predict 1 (Mat.mk 3 3 [1, 2, 3, 4, 5, 6, 7, 8, 9]).at 0 2
        = (Mat.mk 3 3 [1, 2, 3, 4, 5, 6, 7, 8, 9]).at 0 (2 - 1)) ∧
      (0 < 2 → predict 1 (Mat.mk 3 3 [1, 2, 3, 4, 5, 6, 7, 8, 9]).at 2 0
        = (Mat.mk 3 3 [1, 2, 3, 4, 5, 6, 7, 8, 9]).at (2 - 1) 0) ∧
      predict 0 (Mat.mk 3 3 [1, 2, 3, 4, 5, 6, 7, 8, 9]).at 2 0 = 0 ∧
      (0 < 2 → predict 0 (Mat.mk 3 3 [1, 2, 3, 4, 5, 6, 7, 8, 9]).at 2 2
        = (Mat.mk 3 3 [1, 2, 3, 4, 5, 6, 7, 8, 9]).at 2 (2 - 1)) :=
  ⟨mat_at_bounds _ (by decide),
    C19_predictor_edges (Mat.mk 3 3 [1, 2, 3, 4, 5, 6, 7, 8, 9]).at 2 2
      (mat_at_bounds _ (by decide))⟩

/-- C20 fails on the code at a tie: with left = 10, top = 10 and top-left = 5
the gradient is p = 15, neither a nor b is strictly between the other two
values, and the rule selects p = 15, while the median of 10, 10 and 15 is 10.
In the image with rows 5, 10 and 10, 0 this is the prediction at (1, 1). -/
theorem C20_median_tie :
    medianRule 10 10 5 = 15 ∧ median3 10 10 (10 + 10 - 5) = 10 ∧
      predict 1 (Mat.mk 2 2 [5, 10, 10, 0]).at 1 1 = 15 := by
  refine ⟨by decide, by decide, by decide⟩

/-! ## Rounding -/

theorem f64_pow2_eq_zpow (k : Int) : F64.pow2 k = (2 : ℚ) ^ k := by
  unfold F64.pow2
  by_cases h : 0 ≤ k
  · rw [if_pos h]
    conv_rhs => rw [← Int.toNat_of_nonneg h]
    rw [zpow_natCast]
  · rw [if_neg h]
    have hk : k = -((-k).toNat : Int) := by
      rw [Int.toNat_of_nonneg (by omega)]
      omega
    conv_rhs => rw [hk]
    rw [zpow_neg, zpow_natCast, one_div]

theorem f64_pow2_pos (k : Int) : 0 < F64.pow2 k := by
  rw [f64_pow2_eq_zpow]
  positivity

theorem f64_bitLength_spec (fuel : Nat) : ∀ (n : Nat), 0 < n → n ≤ fuel →
    2 ^ (F64.bitLength fuel n - 1) ≤ n ∧ n < 2 ^ F64.bitLength fuel n ∧
      1 ≤ F64.bitLength fuel n := by
  induction fuel with
  | zero => intro n h1 h2; omega
  | succ fuel ih =>
    intro n h1 h2
    unfold F64.bitLength
    rw [if_neg (by omega)]
    by_cases hn : n / 2 = 0
    · have h1n : n = 1 := by omega
      subst h1n
      cases fuel with
      | zero => simp [F64.bitLength]
      | succ fuel => simp [F64.bitLength]
    · obtain ⟨ha, hb, hc⟩ := ih (n / 2) (by omega) (by omega)
      have e : F64.bitLength fuel (n / 2) + 1 - 1 = (F64.bitLength fuel (n / 2) - 1) + 1 := by
        omega
      refine ⟨?_, ?_, by omega⟩
      · rw [e, Nat.pow_succ]
        omega
      · rw [Nat.pow_succ]
        omega

theorem f64_ilog2_le (q : ℚ) (hq : 0 < q) : F64.pow2 (F64.ilog2 q) ≤ q := by
  unfold F64.ilog2
  simp only
  split
  · assumption
  · rw [f64_pow2_eq_zpow]
    have hnum : 0 < q.num := Rat.num_pos.mpr hq
    have hnat : 0 < q.num.natAbs := Int.natAbs_pos.mpr (by omega)
    obtain ⟨ha, _, ha1⟩ := f64_bitLength_spec q.num.natAbs q.num.natAbs hnat (Nat.le_refl _)
    obtain ⟨_, hb, hb1⟩ := f64_bitLength_spec q.den q.den q.den_pos (Nat.le_refl _)
    generalize F64.bitLength q.num.natAbs q.num.natAbs = a at *
    generalize F64.bitLength q.den q.den = b at *
    have hqa : ((2 : ℚ) ^ (a - 1) : ℚ) ≤ (q.num : ℚ) := by
      have h1 : ((2 ^ (a - 1) : Nat) : ℚ) ≤ ((q.num.natAbs : Nat) : ℚ) := by exact_mod_cast ha
      have h2 : ((q.num.natAbs : Nat) : ℚ) = (q.num : ℚ) := by
        have : ((q.num.natAbs : Nat) : Int) = q.num := Int.natAbs_of_nonneg (by omega)
        rw [← Int.cast_natCast, this]
      rw [h2] at h1
      exact_mod_cast h1
    have hqb : (q.den : ℚ) ≤ (2 : ℚ) ^ b := by
      have : ((q.den : Nat) : ℚ) ≤ ((2 ^ b : Nat) : ℚ) := by exact_mod_cast (Nat.le_of_lt hb)
      exact_mod_cast this
    have hden : (0 : ℚ) < q.den := by exact_mod_cast q.den_pos
    have hexp : ((a : Int) - (b : Int) - 1) = (((a - 1 : Nat) : Int) - (b : Int)) := by omega
    rw [hexp, zpow_sub₀ (by norm_num), zpow_natCast, zpow_natCast]
    have hqeq : q = (q.num : ℚ) / (q.den : ℚ) := (Rat.num_div_den q).symm
    rw [hqeq]
    rw [div_le_div_iff₀ (by positivity) hden]
    calc (2 : ℚ) ^ (a - 1) * (q.den : ℚ) ≤ (q.num : ℚ) * (q.den : ℚ) := by
          exact mul_le_mul_of_nonneg_right hqa (le_of_lt hden)
      _ ≤ (q.num : ℚ) * 2 ^ b := by
          exact mul_le_mul_of_nonneg_left hqb (by exact_mod_cast (le_of_lt hnum))

theorem roundHalfEven_error (x : ℚ) : |(F64.roundHalfEven x : ℚ) - x| ≤ 1 / 2 := by
  have h1 := Int.floor_le x
  have h2 := Int.lt_floor_add_one x
  unfold F64.roundHalfEven
  simp only
  rw [abs_le]
  split_ifs <;> push_cast <;> constructor <;> linarith

theorem roundHalfEven_nonneg (x : ℚ) (hx : 0 ≤ x) : 0 ≤ F64.roundHalfEven x := by
  have h0 : 0 ≤ ⌊x⌋ := Int.floor_nonneg.mpr hx
  unfold F64.roundHalfEven
  simp only
  split_ifs <;> omega

/-- The rounding error is at most half a unit in the last place. -/
theorem f64_round_error (q : ℚ) :
    |F64.round q - q| ≤ |q| / 2 ^ 53 + 1 / 2 ^ 1075 := by
  unfold F64.round
  by_cases hq : q = 0
  · subst hq
    simp
  · rw [if_neg hq]
    simp only
    have habs : 0 < |q| := abs_pos.mpr hq
    generalize he : max (F64.ilog2 |q|) (-1022) - 52 = e
    have hulp := f64_pow2_pos e
    have herr := roundHalfEven_error (q / F64.pow2 e)
    have hmul : (F64.roundHalfEven (q / F64.pow2 e) : ℚ) * F64.pow2 e - q
        = ((F64.roundHalfEven (q / F64.pow2 e) : ℚ) - q / F64.pow2 e) * F64.pow2 e := by
      field_simp
    rw [hmul, abs_mul, abs_of_pos hulp]
    have hstep : |(F64.roundHalfEven (q / F64.pow2 e) : ℚ) - q / F64.pow2 e| * F64.pow2 e
        ≤ 1 / 2 * F64.pow2 e := mul_le_mul_of_nonneg_right herr (le_of_lt hulp)
    refine le_trans hstep ?_
    by_cases hnorm : -1022 ≤ F64.ilog2 |q|
    · have hle := f64_ilog2_le |q| habs
      have hee : e = F64.ilog2 |q| - 52 := by
        rw [← he, max_eq_left hnorm]
      rw [hee, f64_pow2_eq_zpow, zpow_sub₀ (by norm_num)]
      rw [f64_pow2_eq_zpow] at hle
      have h52 : ((2 : ℚ) ^ (52 : Int)) = 2 ^ 52 := by norm_num
      rw [h52]
      have hpos : (0 : ℚ) < 1 / 2 ^ 1075 := by positivity
      have : 1 / 2 * ((2 : ℚ) ^ F64.ilog2 |q| / 2 ^ 52) ≤ |q| / 2 ^ 53 := by
        have h53 : (1 : ℚ) / 2 * ((2 : ℚ) ^ F64.ilog2 |q| / 2 ^ 52)
            = (2 : ℚ) ^ F64.ilog2 |q| / 2 ^ 53 := by ring
        rw [h53]
        exact (div_le_div_iff_of_pos_right (by positivity)).mpr hle
      linarith
    · have hee : e = -1074 := by
        rw [← he, max_eq_right (by omega)]
        norm_num
      rw [hee, f64_pow2_eq_zpow]
      have h1 : (1 : ℚ) / 2 * 2 ^ (-1074 : Int) = 1 / 2 ^ 1075 := by
        rw [zpow_neg]
        norm_num
      rw [h1]
      have : 0 ≤ |q| / 2 ^ 53 := by positivity
      linarith

theorem f64_round_nonneg (q : ℚ) (hq : 0 ≤ q) : 0 ≤ F64.round q := by
  unfold F64.round
  split
  · exact le_refl _
  · simp only
    have hulp := f64_pow2_pos (max (F64.ilog2 |q|) (-1022) - 52)
    have h := roundHalfEven_nonneg (q / F64.pow2 (max (F64.ilog2 |q|) (-1022) - 52))
      (div_nonneg hq (le_of_lt hulp))
    have h1 : (0 : ℚ) ≤ (F64.roundHalfEven (q / F64.pow2 (max (F64.ilog2 |q|) (-1022) - 52)) : ℚ) := by
      exact_mod_cast h
    exact mul_nonneg h1 (le_of_lt hulp)

theorem f64_round_le (q : ℚ) (hq : 0 ≤ q) : F64.round q ≤ q + q / 2 ^ 53 + 1 / 2 ^ 1075 := by
  have h := f64_round_error q
  rw [abs_of_nonneg hq] at h
  have := (abs_le.mp h).2
  linarith

theorem alpha_eq : alpha = 5764607523034235 / 576460752303423488 := by
  unfold alpha
  decide!

theorem one_sub_alpha_eq :
    F64.round (1 - alpha) = 4458563631096791 / 4503599627370496 := by
  unfold alpha
  decide!

theorem emaUpdate_bounds (ema : ℚ) (res : Int) (h0 : 0 ≤ ema) (hK : ema ≤ 131072)
    (hlo : -65535 ≤ res) (hhi : res ≤ 65535) :
    0 ≤ emaUpdate ema res ∧ emaUpdate ema res ≤ 131072 := by
  unfold emaUpdate
  rw [one_sub_alpha_eq, alpha_eq]
  have hres : |(res : ℚ)| ≤ 65535 := by
    rw [abs_le]
    constructor
    · exact_mod_cast hlo
    · exact_mod_cast hhi
  have herr := f64_round_error (res : ℚ)
  have ha0 : (0 : ℚ) ≤ |F64.round (res : ℚ)| := abs_nonneg _
  have ha : |F64.round (res : ℚ)| ≤ 65536 := by
    have h1 : |F64.round (res : ℚ)| ≤ |F64.round (res : ℚ) - res| + |(res : ℚ)| := by
      have := abs_add (F64.round (res : ℚ) - res) (res : ℚ)
      simpa using this
    have h2 : |(res : ℚ)| / 2 ^ 53 + 1 / 2 ^ 1075 ≤ 1 := by
      have : |(res : ℚ)| / 2 ^ 53 ≤ 65535 / 2 ^ 53 :=
        (div_le_div_iff_of_pos_right (by positivity)).mpr hres
      have h3 : (65535 : ℚ) / 2 ^ 53 + 1 / 2 ^ 1075 ≤ 1 := by norm_num
      linarith
    linarith
  generalize |F64.round (res : ℚ)| = a at ha0 ha
  have hx1 : (0 : ℚ) ≤ 4458563631096791 / 4503599627370496 * ema := by positivity
  have hx2 : (0 : ℚ) ≤ 5764607523034235 / 576460752303423488 * a := by positivity
  have ht1 := f64_round_le _ hx1
  have ht2 := f64_round_le _ hx2
  have hn1 := f64_round_nonneg _ hx1
  have hn2 := f64_round_nonneg _ hx2
  generalize F64.round (4458563631096791 / 4503599627370496 * ema) = t1 at ht1 hn1
  generalize F64.round (5764607523034235 / 576460752303423488 * a) = t2 at ht2 hn2
  have hsum : (0 : ℚ) ≤ t1 + t2 := by linarith
  have ht3 := f64_round_le _ hsum
  refine ⟨f64_round_nonneg _ hsum, ?_⟩
  have he : (1 : ℚ) / 2 ^ 1075 ≤ 1 / 2 ^ 53 := by
    apply one_div_le_one_div_of_le (by positivity)
    exact pow_le_pow_right₀ (by norm_num) (by norm_num)
  have h53 : (0 : ℚ) < 1 / 2 ^ 53 := by positivity
  generalize (1 : ℚ) / 2 ^ 1075 = eps at *
  have hb1 : t1 ≤ 129762 := by
    have : 4458563631096791 / 4503599627370496 * ema / 2 ^ 53 ≤ 1 := by
      rw [div_le_one (by positivity)]
      have : (2 : ℚ) ^ 53 = 9007199254740992 := by norm_num
      rw [this]
      linarith
    have h2 : eps ≤ 1 / 2 ^ 53 := he
    have h3 : (1 : ℚ) / 2 ^ 53 ≤ 1 := by norm_num
    linarith
  have hb2 : t2 ≤ 657 := by
    have : 5764607523034235 / 576460752303423488 * a / 2 ^ 53 ≤ 1 := by
      rw [div_le_one (by positivity)]
      have : (2 : ℚ) ^ 53 = 9007199254740992 := by norm_num
      rw [this]
      linarith
    have h3 : (1 : ℚ) / 2 ^ 53 ≤ 1 := by norm_num
    linarith
  have hb3 : (t1 + t2) / 2 ^ 53 ≤ 1 := by
    rw [div_le_one (by positivity)]
    have : (2 : ℚ) ^ 53 = 9007199254740992 := by norm_num
    rw [this]
    linarith
  have h3 : (1 : ℚ) / 2 ^ 53 ≤ 1 := by norm_num
  linarith

theorem choose_m_bounds (ema : ℚ) (h0 : 0 ≤ ema) (hK : ema ≤ 131072) :
    1 ≤ choose_m_from_ema ema ∧ choose_m_from_ema ema ≤ 2 ^ 63 := by
  unfold choose_m_from_ema
  simp only
  have hx : (0 : ℚ) ≤ ema + 1 / 2 := by linarith
  have h1 := f64_round_le _ hx
  have h2 := f64_round_nonneg _ hx
  have hb : F64.round (ema + 1 / 2) ≤ 131075 := by
    have : (ema + 1 / 2) / 2 ^ 53 ≤ 1 := by
      rw [div_le_one (by positivity)]
      have : (2 : ℚ) ^ 53 = 9007199254740992 := by norm_num
      rw [this]
      linarith
    have he : (1 : ℚ) / 2 ^ 1075 ≤ 1 := by
      rw [div_le_one (by positivity)]
      exact one_le_pow₀ (by norm_num)
    linarith
  generalize F64.round (ema + 1 / 2) = x at h2 hb
  have hf0 : 0 ≤ ⌊x⌋ := Int.floor_nonneg.mpr h2
  have hf1 : ⌊x⌋ ≤ 131075 := by
    have : (⌊x⌋ : ℚ) ≤ x := Int.floor_le x
    have : (⌊x⌋ : ℚ) ≤ 131075 := by linarith
    exact_mod_cast this
  have hmax : max (1 : ℚ) ((⌊x⌋ : Int) : ℚ) = ((max 1 ⌊x⌋ : Int) : ℚ) := by
    push_cast
    rfl
  rw [hmax, Int.floor_intCast]
  unfold toU64
  omega

/-! ## The audio codec: one frame -/

theorem getD_int16 (samples : List Int) (hs : ∀ x ∈ samples, -32768 ≤ x ∧ x ≤ 32767)
    (k : Nat) : -32768 ≤ samples.getD k 0 ∧ samples.getD k 0 ≤ 32767 := by
  by_cases hlt : k < samples.length
  · rw [List.getD_eq_getElem _ _ hlt]
    exact hs _ (List.getElem_mem _)
  · rw [List.getD_eq_default _ _ (by omega)]
    omega

theorem coder_of_ema (ema : ℚ) (h0 : 0 ≤ ema) (hK : ema ≤ 131072) :
    ∃ g, Golomb.new (choose_m_from_ema ema) .INTERLEAVED = .ok g ∧ g.WellFormed := by
  obtain ⟨h1, h2⟩ := choose_m_bounds ema h0 hK
  obtain ⟨g, hg, _, _, hwf⟩ := new_ok _ .INTERLEAVED h1 h2
  exact ⟨g, hg, hwf⟩

theorem decode_residual (g : Golomb) (hg : g.WellFormed) (res : Int)
    (hlo : -65535 ≤ res) (hhi : res ≤ 65535) (pre rest : List Bool) :
    g.decode ((pre ++ g.encode res ++ rest).drop pre.length)
        = .ok (res, (g.encode res).length) ∧
      1 ≤ (g.encode res).length := by
  have hd := decode_encode_append g hg res (by omega) (by omega) (fun _ => by omega) rest
  obtain ⟨h1, _, _⟩ := decode_ok_inv g _ _ _ hd
  rw [List.append_assoc, List.drop_left]
  exact ⟨hd, h1⟩

theorem residual_wrap (x p : Int) (hx : -32768 ≤ x ∧ x ≤ 32767) (hp : -32768 ≤ p ∧ p ≤ 32767) :
    wrapI64 (x - p) = x - p ∧ -65535 ≤ x - p ∧ x - p ≤ 65535 := by
  unfold wrapI64
  omega

theorem reconstruct_sample (x p : Int) (hx : -32768 ≤ x ∧ x ≤ 32767) :
    clamp16 (wrapI64 (p + (x - p))) = x ∧ toI16 x = x := by
  have e : p + (x - p) = x := by omega
  rw [e]
  unfold toI16 clamp16 wrapI64
  constructor
  · split_ifs <;> omega
  · omega

theorem frame_sim_mono (samples : List Int)
    (hs : ∀ x ∈ samples, -32768 ≤ x ∧ x ≤ 32767) (i : Nat) (se : EncState) (sd : DecState)
    (hinv : se.Inv) (hm : sd.Matches se) :
    ∃ se1 code, encodeFrame samples 1 i se = .ok se1 ∧ se1.Inv ∧
      se1.bits = se.bits ++ code ∧
      ∀ rest, ∃ sd1, decodeFrame (se.bits ++ code ++ rest) 1 sd = .ok sd1 ∧
        sd1.Matches se1 ∧ sd1.out = sd.out ++ frameSamples samples 1 i := by
  obtain ⟨hL0, hLK, hR0, hRK, hp0, hp1⟩ := hinv
  obtain ⟨hmL, hmR, hmp, hmf, hmb⟩ := hm
  obtain ⟨gL, hnewL, hwfL⟩ := coder_of_ema se.emaL hL0 hLK
  have hLs := getD_int16 samples hs (i * 1 + 0)
  generalize hLdef : samples.getD (i * 1 + 0) 0 = L at hLs
  have hpred : -32768 ≤ (if se.first = true then 0 else se.prevL) ∧
      (if se.first = true then 0 else se.prevL) ≤ 32767 := by
    split <;> omega
  generalize hpdef : (if se.first = true then 0 else se.prevL) = predL at hpred
  obtain ⟨hresL, hrl0, hrl1⟩ := residual_wrap L predL hLs hpred
  obtain ⟨hrecL, hcastL⟩ := reconstruct_sample L predL hLs
  have hemaL := emaUpdate_bounds se.emaL (L - predL) hL0 hLK hrl0 hrl1
  have h12 : ¬ ((1 : Nat) = 2) := by decide
  refine ⟨{ bits := se.bits ++ gL.encode (L - predL), emaL := emaUpdate se.emaL (L - predL),
            emaR := se.emaR, prevL := L, first := false }, gL.encode (L - predL), ?_, ?_, rfl, ?_⟩
  · unfold encodeFrame
    simp only [hLdef, hpdef, hresL, hnewL, h12, if_false]
  · exact ⟨hemaL.1, hemaL.2, hR0, hRK, hLs.1, hLs.2⟩
  · intro rest
    obtain ⟨hd, hlen⟩ := decode_residual gL hwfL (L - predL) hrl0 hrl1 se.bits rest
    have hnot : ¬ (se.bits.length ≥ (se.bits ++ gL.encode (L - predL) ++ rest).length) := by
      simp only [List.length_append]
      omega
    have hne : ¬ ((gL.encode (L - predL)).length = 0) := by omega
    refine ⟨{ out := sd.out ++ [L], emaL := emaUpdate se.emaL (L - predL), emaR := se.emaR,
              prevL := L, first := false,
              bitpos := se.bits.length + (gL.encode (L - predL)).length }, ?_, ?_, ?_⟩
    · unfold decodeFrame
      simp only [hmL, hnewL, hmb, hnot, if_false, hd, hne, hmf, hmp, hpdef, hrecL, hcastL,
        h12, hmR, List.getLastD_concat, sub_zero]
    · exact ⟨rfl, rfl, rfl, rfl, by simp only [List.length_append]⟩
    · simp only [frameSamples, h12, if_false, hLdef]

theorem getD_two_last (l : List Int) (a b : Int) :
    (l ++ [a] ++ [b]).getD ((l ++ [a] ++ [b]).length - 1) 0 = b ∧
      (l ++ [a] ++ [b]).getD ((l ++ [a] ++ [b]).length - 2) 0 = a := by
  have e : l ++ [a] ++ [b] = l ++ [a, b] := by simp
  rw [e]
  have hlen : (l ++ [a, b]).length = l.length + 2 := by simp
  rw [hlen]
  constructor
  · rw [List.getD_append_right _ _ _ _ (by omega)]
    have : l.length + 2 - 1 - l.length = 1 := by omega
    rw [this]
    rfl
  · rw [List.getD_append_right _ _ _ _ (by omega)]
    have : l.length + 2 - 2 - l.length = 0 := by omega
    rw [this]
    rfl

theorem frame_sim_stereo (samples : List Int)
    (hs : ∀ x ∈ samples, -32768 ≤ x ∧ x ≤ 32767) (i : Nat) (se : EncState) (sd : DecState)
    (hinv : se.Inv) (hm : sd.Matches se) :
    ∃ se1 code, encodeFrame samples 2 i se = .ok se1 ∧ se1.Inv ∧
      se1.bits = se.bits ++ code ∧
      ∀ rest, ∃ sd1, decodeFrame (se.bits ++ code ++ rest) 2 sd = .ok sd1 ∧
        sd1.Matches se1 ∧ sd1.out = sd.out ++ frameSamples samples 2 i := by
  obtain ⟨hL0, hLK, hR0, hRK, hp0, hp1⟩ := hinv
  obtain ⟨hmL, hmR, hmp, hmf, hmb⟩ := hm
  obtain ⟨gL, hnewL, hwfL⟩ := coder_of_ema se.emaL hL0 hLK
  obtain ⟨gR, hnewR, hwfR⟩ := coder_of_ema se.emaR hR0 hRK
  have hLs := getD_int16 samples hs (i * 2 + 0)
  have hRs := getD_int16 samples hs (i * 2 + 1)
  generalize hLdef : samples.getD (i * 2 + 0) 0 = L at hLs
  generalize hRdef : samples.getD (i * 2 + 1) 0 = R at hRs
  have hpred : -32768 ≤ (if se.first = true then 0 else se.prevL) ∧
      (if se.first = true then 0 else se.prevL) ≤ 32767 := by
    split <;> omega
  generalize hpdef : (if se.first = true then 0 else se.prevL) = predL at hpred
  obtain ⟨hresL, hrl0, hrl1⟩ := residual_wrap L predL hLs hpred
  obtain ⟨hresR, hrr0, hrr1⟩ := residual_wrap R L hRs hLs
  obtain ⟨hrecL, hcastL⟩ := reconstruct_sample L predL hLs
  obtain ⟨hrecR, hcastR⟩ := reconstruct_sample R L hRs
  have hemaL := emaUpdate_bounds se.emaL (L - predL) hL0 hLK hrl0 hrl1
  have hemaR := emaUpdate_bounds se.emaR (R - L) hR0 hRK hrr0 hrr1
  refine ⟨{ bits := se.bits ++ gL.encode (L - predL) ++ gR.encode (R - L),
            emaL := emaUpdate se.emaL (L - predL), emaR := emaUpdate se.emaR (R - L),
            prevL := L, first := false },
          gL.encode (L - predL) ++ gR.encode (R - L), ?_, ?_, ?_, ?_⟩
  · unfold encodeFrame
    simp only [hLdef, hRdef, hpdef, hresL, hresR, hnewL, hnewR, if_true]
  · exact ⟨hemaL.1, hemaL.2, hemaR.1, hemaR.2, hLs.1, hLs.2⟩
  · simp only [List.append_assoc]
  · intro rest
    obtain ⟨hd, hlen⟩ := decode_residual gL hwfL (L - predL) hrl0 hrl1 se.bits
      (gR.encode (R - L) ++ rest)
    obtain ⟨hd2, hlen2⟩ := decode_residual gR hwfR (R - L) hrr0 hrr1
      (se.bits ++ gL.encode (L - predL)) rest
    have hwhole : se.bits ++ (gL.encode (L - predL) ++ gR.encode (R - L)) ++ rest
        = se.bits ++ gL.encode (L - predL) ++ (gR.encode (R - L) ++ rest) := by
      simp only [List.append_assoc]
    have hwhole2 : se.bits ++ gL.encode (L - predL) ++ gR.encode (R - L) ++ rest
        = se.bits ++ gL.encode (L - predL) ++ (gR.encode (R - L) ++ rest) := by
      simp only [List.append_assoc]
    rw [hwhole]
    rw [hwhole2, List.length_append] at hd2
    have hnot : ¬ (se.bits.length
        ≥ (se.bits ++ gL.encode (L - predL) ++ (gR.encode (R - L) ++ rest)).length) := by
      simp only [List.length_append]
      omega
    have hnot2 : ¬ (se.bits.length + (gL.encode (L - predL)).length
        ≥ (se.bits ++ gL.encode (L - predL) ++ (gR.encode (R - L) ++ rest)).length) := by
      simp only [List.length_append]
      omega
    have hne : ¬ ((gL.encode (L - predL)).length = 0) := by omega
    have hne2 : ¬ ((gR.encode (R - L)).length = 0) := by omega
    have hprev : (sd.out ++ [L] ++ [R]).getLastD 0
        - ((sd.out ++ [L] ++ [R]).getD ((sd.out ++ [L] ++ [R]).length - 1) 0
          - (sd.out ++ [L] ++ [R]).getD ((sd.out ++ [L] ++ [R]).length - 2) 0) = L := by
      have e1 : (sd.out ++ [L] ++ [R]).getLastD 0 = R := List.getLastD_concat _ _ _
      obtain ⟨e2, e3⟩ := getD_two_last sd.out L R
      rw [e1, e2, e3]
      omega
    refine ⟨{ out := sd.out ++ [L] ++ [R], emaL := emaUpdate se.emaL (L - predL),
              emaR := emaUpdate se.emaR (R - L), prevL := L, first := false,
              bitpos := se.bits.length + (gL.encode (L - predL)).length
                + (gR.encode (R - L)).length }, ?_, ?_, ?_⟩
    · unfold decodeFrame
      simp only [hmL, hnewL, hmb, hnot, if_false, hd, hne, hmf, hmp, hpdef, hrecL, hcastL,
        hmR, hnewR, hnot2, hd2, hne2, hrecR, hcastR, if_true, hprev]
    · exact ⟨rfl, rfl, rfl, rfl, by simp only [List.length_append]⟩
    · simp only [frameSamples, if_true, hLdef, hRdef, List.append_assoc, List.singleton_append]

theorem frame_sim (samples : List Int) (channels : Nat) (hch : channels = 1 ∨ channels = 2)
    (hs : ∀ x ∈ samples, -32768 ≤ x ∧ x ≤ 32767) (i : Nat) (se : EncState) (sd : DecState)
    (hinv : se.Inv) (hm : sd.Matches se) :
    ∃ se1 code, encodeFrame samples channels i se = .ok se1 ∧ se1.Inv ∧
      se1.bits = se.bits ++ code ∧
      ∀ rest, ∃ sd1, decodeFrame (se.bits ++ code ++ rest) channels sd = .ok sd1 ∧
        sd1.Matches se1 ∧ sd1.out = sd.out ++ frameSamples samples channels i := by
  rcases hch with h | h
  · subst h
    exact frame_sim_mono samples hs i se sd hinv hm
  · subst h
    exact frame_sim_stereo samples hs i se sd hinv hm

/-! ## The audio codec: the loops -/

theorem loop_sim (samples : List Int) (channels : Nat) (hch : channels = 1 ∨ channels = 2)
    (hs : ∀ x ∈ samples, -32768 ≤ x ∧ x ≤ 32767) (n : Nat) :
    ∀ (i : Nat) (se : EncState) (sd : DecState), se.Inv → sd.Matches se →
    ∃ se1 code, encodeLoop samples channels n i se = .ok se1 ∧ se1.Inv ∧
      se1.bits = se.bits ++ code ∧
      ∀ rest, ∃ sd1, decodeLoop (se.bits ++ code ++ rest) channels n sd = .ok sd1 ∧
        sd1.Matches se1 ∧ sd1.out = sd.out ++ framesFrom samples channels i n := by
  induction n with
  | zero =>
    intro i se sd hinv hm
    refine ⟨se, [], rfl, hinv, (List.append_nil _).symm, ?_⟩
    intro rest
    exact ⟨sd, rfl, hm, by simp [framesFrom]⟩
  | succ n ih =>
    intro i se sd hinv hm
    obtain ⟨se1, code1, henc1, hinv1, hbits1, hdec1⟩ :=
      frame_sim samples channels hch hs i se sd hinv hm
    obtain ⟨sd0, hd0, hm0, _⟩ := hdec1 []
    obtain ⟨se2, code2, henc2, hinv2, hbits2, hdec2⟩ := ih (i + 1) se1 sd0 hinv1 hm0
    refine ⟨se2, code1 ++ code2, ?_, hinv2, ?_, ?_⟩
    · unfold encodeLoop
      rw [henc1]
      exact henc2
    · rw [hbits2, hbits1, List.append_assoc]
    · intro rest
      obtain ⟨sd1, hd1, hm1, hout1⟩ := hdec1 (code2 ++ rest)
      obtain ⟨se2b, code2b, henc2b, _, hbits2b, hdec2b⟩ := ih (i + 1) se1 sd1 hinv1 hm1
      rw [henc2] at henc2b
      injection henc2b with hse
      subst hse
      have hcode : code2b = code2 := by
        rw [hbits2] at hbits2b
        exact (List.append_cancel_left hbits2b).symm
      subst hcode
      obtain ⟨sd2, hd2, hm2, hout2⟩ := hdec2b rest
      have hw1 : se.bits ++ (code1 ++ code2b) ++ rest = se.bits ++ code1 ++ (code2b ++ rest) := by
        simp only [List.append_assoc]
      have hw2 : se1.bits ++ code2b ++ rest = se.bits ++ code1 ++ (code2b ++ rest) := by
        rw [hbits1]
        simp only [List.append_assoc]
      rw [hw2] at hd2
      rw [hw1]
      refine ⟨sd2, ?_, hm2, ?_⟩
      · unfold decodeLoop
        rw [hd1]
        exact hd2
      · rw [hout2, hout1, List.append_assoc]
        rfl

theorem encodeLoop_add (samples : List Int) (channels : Nat) (a b : Nat) :
    ∀ (i : Nat) (s : EncState),
    encodeLoop samples channels (a + b) i s
      = match encodeLoop samples channels a i s with
        | .error e => .error e
        | .ok s1 => encodeLoop samples channels b (i + a) s1 := by
  induction a with
  | zero => intro i s; simp [encodeLoop]
  | succ a ih =>
    intro i s
    have e : a + 1 + b = (a + b) + 1 := by omega
    rw [e]
    simp only [encodeLoop]
    cases hf : encodeFrame samples channels i s with
    | error e => rfl
    | ok s1 =>
      simp only
      rw [ih (i + 1) s1]
      have e2 : i + 1 + a = i + (a + 1) := by omega
      rw [e2]

theorem framesFrom_eq (samples : List Int) (channels : Nat)
    (hch : channels = 1 ∨ channels = 2) (n : Nat) :
    ∀ (i : Nat), (i + n) * channels ≤ samples.length →
    framesFrom samples channels i n = (samples.drop (i * channels)).take (n * channels) := by
  induction n with
  | zero => intro i _; simp [framesFrom]
  | succ n ih =>
    intro i hlen
    have hih := ih (i + 1) (by
      have e : i + 1 + n = i + (n + 1) := by omega
      rw [e]
      exact hlen)
    simp only [framesFrom, hih]
    rcases hch with h | h
    · subst h
      simp only [Nat.mul_one] at hlen ⊢
      have hlt : i < samples.length := by omega
      rw [List.drop_eq_getElem_cons hlt, List.take_succ_cons]
      simp [frameSamples, List.getElem?_eq_getElem hlt]
    · subst h
      have hlt : i * 2 < samples.length := by omega
      have hlt2 : i * 2 + 1 < samples.length := by omega
      have e : (n + 1) * 2 = n * 2 + 1 + 1 := by omega
      have e2 : (i + 1) * 2 = i * 2 + 1 + 1 := by omega
      rw [e, e2, List.drop_eq_getElem_cons hlt, List.take_succ_cons,
        List.drop_eq_getElem_cons hlt2, List.take_succ_cons]
      simp [frameSamples, List.getElem?_eq_getElem hlt, List.getElem?_eq_getElem hlt2]

theorem init_inv : EncState.init.Inv := by
  unfold EncState.Inv EncState.init
  norm_num

theorem init_matches : DecState.init.Matches EncState.init := by
  unfold DecState.Matches DecState.init EncState.init
  simp

theorem loops_agree (samples : List Int) (channels : Nat) (hch : channels = 1 ∨ channels = 2)
    (hs : ∀ x ∈ samples, -32768 ≤ x ∧ x ≤ 32767) (frames i : Nat) (hi : i ≤ frames) :
    ∃ sfin se sd, encodeLoop samples channels frames 0 EncState.init = .ok sfin ∧
      encodeLoop samples channels i 0 EncState.init = .ok se ∧
      decodeLoop sfin.bits channels i DecState.init = .ok sd ∧ sd.Matches se ∧
      sd.out = framesFrom samples channels 0 i := by
  obtain ⟨se, code, henc, hinv, hbits, hdec⟩ :=
    loop_sim samples channels hch hs i 0 EncState.init DecState.init init_inv init_matches
  obtain ⟨sd0, _, hm0, _⟩ := hdec []
  obtain ⟨sfin, code2, henc2, _, hbits2, _⟩ :=
    loop_sim samples channels hch hs (frames - i) (0 + i) se sd0 hinv hm0
  have hadd := encodeLoop_add samples channels i (frames - i) 0 EncState.init
  rw [henc] at hadd
  simp only at hadd
  rw [henc2, Nat.add_sub_cancel' hi] at hadd
  obtain ⟨sd, hd, hm, hout⟩ := hdec code2
  have hb : sfin.bits = EncState.init.bits ++ code ++ code2 := by
    rw [hbits2, hbits]
  rw [← hb] at hd
  refine ⟨sfin, se, sd, hadd, henc, hd, hm, ?_⟩
  rw [hout]
  rfl

/-! ## Claims on the audio codec -/

/-- C15: for channels 1 or 2 and every sequence of 16-bit samples of length
frames * channels, encodeSamples returns a bit string and decodeSamples of it,
with the same channels and frames, returns exactly the samples. -/
theorem C15_audio_round_trip (samples : List Int) (channels frames : Nat)
    (hch : channels = 1 ∨ channels = 2) (hs : ∀ x ∈ samples, -32768 ≤ x ∧ x ≤ 32767)
    (hlen : samples.length = frames * channels) :
    ∃ bits, encodeSamples samples channels = .ok bits ∧
      decodeSamples bits channels frames = .ok samples := by
  obtain ⟨sfin, se, sd, hfin, henc, hdec, _, hout⟩ :=
    loops_agree samples channels hch hs frames frames (Nat.le_refl _)
  have hpos : 0 < channels := by
    rcases hch with h | h <;> omega
  have hframes : samples.length / channels = frames := by
    rw [hlen]
    exact Nat.mul_div_cancel _ hpos
  refine ⟨sfin.bits, ?_, ?_⟩
  · unfold encodeSamples
    rw [hframes, hfin]
  · unfold decodeSamples
    rw [hdec]
    simp only
    rw [hout, framesFrom_eq samples channels hch frames 0 (by rw [Nat.zero_add, hlen])]
    simp only [Nat.zero_mul, List.drop_zero]
    rw [← hlen, List.take_length]

/-- C15, an instance: the stereo samples 10, -3 / 200, -32768 / 32767, 0. -/
theorem C15_audio_round_trip_witness :
    (((2 : Nat) = 1 ∨ (2 : Nat) = 2) ∧
      (∀ x ∈ [(10 : Int), -3, 200, -32768, 32767, 0], -32768 ≤ x ∧ x ≤ 32767) ∧
      [(10 : Int), -3, 200, -32768, 32767, 0].length = 3 * 2) ∧
      ∃ bits, encodeSamples [10, -3, 200, -32768, 32767, 0] 2 = .ok bits ∧
        decodeSamples bits 2 3 = .ok [10, -3, 200, -32768, 32767, 0] :=
  ⟨⟨Or.inr rfl, by decide, rfl⟩,
    C15_audio_round_trip [10, -3, 200, -32768, 32767, 0] 2 3 (Or.inr rfl) (by decide) rfl⟩

theorem trace_agree (samples : List Int) (channels frames : Nat)
    (hch : channels = 1 ∨ channels = 2) (hs : ∀ x ∈ samples, -32768 ≤ x ∧ x ≤ 32767) :
    ∃ bits, encodeLoop samples channels frames 0 EncState.init = .ok bits ∧
      decoderTrace bits.bits channels frames = encoderTrace samples channels frames ∧
      ∀ t ∈ encoderTrace samples channels frames, t ≠ none := by
  obtain ⟨sfin, _, _, hfin, _, _, _, _⟩ :=
    loops_agree samples channels hch hs frames 0 (Nat.zero_le _)
  refine ⟨sfin, hfin, ?_, ?_⟩
  · unfold decoderTrace encoderTrace
    apply List.map_congr_left
    intro i hi
    have hlt : i < frames := List.mem_range.mp hi
    obtain ⟨sfin2, se, sd, hfin2, henc, hdec, hm, _⟩ :=
      loops_agree samples channels hch hs frames i (by omega)
    rw [hfin] at hfin2
    injection hfin2 with e
    subst e
    obtain ⟨h1, h2, _⟩ := hm
    rw [henc, hdec]
    simp only [h1, h2]
  · intro t ht
    unfold encoderTrace at ht
    obtain ⟨i, hi, hti⟩ := List.mem_map.mp ht
    have hlt : i < frames := List.mem_range.mp hi
    obtain ⟨_, se, _, _, henc, _, _, _⟩ :=
      loops_agree samples channels hch hs frames i (by omega)
    rw [henc] at hti
    rw [← hti]
    simp

set_option maxRecDepth 100000 in
theorem trace_example :
    leftParams (encoderTrace [0, 0, 0, 50, 50] 1 5) = [some 1, some 1, some 1, some 1, some 1] := by
  decide!

/-- C16: for channels 1 or 2 and every sequence of 16-bit samples, decodeSamples
run on the output of encodeSamples enters every frame with the same averages
emaL, emaR and the same derived parameters as encodeSamples, and neither loop
throws. For the mono samples 0, 0, 0, 50, 50 (residuals 0, 0, 0, 50, 0) the
parameter sequence is 1, 1, 1, 1, 1 on both sides. -/
theorem C16_adaptive_state_agreement (samples : List Int) (channels frames : Nat)
    (hch : channels = 1 ∨ channels = 2) (hs : ∀ x ∈ samples, -32768 ≤ x ∧ x ≤ 32767)
    (hlen : samples.length = frames * channels) :
    (∃ bits, encodeSamples samples channels = .ok bits ∧
      decoderTrace bits channels frames = encoderTrace samples channels frames ∧
      ∀ t ∈ encoderTrace samples channels frames, t ≠ none) ∧
    (∃ bits, encodeSamples [0, 0, 0, 50, 50] 1 = .ok bits ∧
      leftParams (encoderTrace [0, 0, 0, 50, 50] 1 5)
        = [some 1, some 1, some 1, some 1, some 1] ∧
      leftParams (decoderTrace bits 1 5) = [some 1, some 1, some 1, some 1, some 1]) := by
  have hpos : 0 < channels := by
    rcases hch with h | h <;> omega
  have hframes : samples.length / channels = frames := by
    rw [hlen]
    exact Nat.mul_div_cancel _ hpos
  constructor
  · obtain ⟨sfin, hfin, h1, h2⟩ := trace_agree samples channels frames hch hs
    refine ⟨sfin.bits, ?_, h1, h2⟩
    unfold encodeSamples
    rw [hframes, hfin]
  · obtain ⟨sfin, hfin, h1, _⟩ := trace_agree [0, 0, 0, 50, 50] 1 5 (Or.inl rfl) (by decide)
    refine ⟨sfin.bits, ?_, trace_example, ?_⟩
    · unfold encodeSamples
      have : [(0 : Int), 0, 0, 50, 50].length / 1 = 5 := rfl
      rw [this, hfin]
    · rw [h1]
      exact trace_example

/-- C16, an instance: the mono samples 0, 0, 0, 50, 50. -/
theorem C16_adaptive_state_agreement_witness :
    (((1 : Nat) = 1 ∨ (1 : Nat) = 2) ∧
      (∀ x ∈ [(0 : Int), 0, 0, 50, 50], -32768 ≤ x ∧ x ≤ 32767) ∧
      [(0 : Int), 0, 0, 50, 50].length = 5 * 1) ∧
      ∃ bits, encodeSamples [0, 0, 0, 50, 50] 1 = .ok bits ∧
        decoderTrace bits 1 5 = encoderTrace [0, 0, 0, 50, 50] 1 5 ∧
        ∀ t ∈ encoderTrace [0, 0, 0, 50, 50] 1 5, t ≠ none :=
  ⟨⟨Or.inl rfl, by decide, rfl⟩,
    (C16_adaptive_state_agreement [0, 0, 0, 50, 50] 1 5 (Or.inl rfl) (by decide) rfl).1⟩

theorem getLastD_append_one (l : List Int) (a : Int) : (l ++ [a]).getLastD 0 = a := by
  simp [List.getLastD_eq_getLast?]

theorem getD_append_one (l : List Int) (a : Int) : (l ++ [a]).getD l.length 0 = a := by
  rw [List.getD_append_right _ _ _ _ (Nat.le_refl _)]
  simp

theorem getD_append_two (l : List Int) (a b : Int) :
    (l ++ [a] ++ [b]).getD l.length 0 = a := by
  have e : l ++ [a] ++ [b] = l ++ [a, b] := by simp
  rw [e, List.getD_append_right _ _ _ _ (Nat.le_refl _)]
  simp

theorem decodeFrame_prevL (bits : List Bool) (channels : Nat) (s s1 : DecState)
    (hch : channels = 1 ∨ channels = 2) (h : decodeFrame bits channels s = .ok s1) :
    s1.out.length = s.out.length + channels ∧ s1.prevL = s1.out.getD s.out.length 0 ∧
      s1.first = false := by
  unfold decodeFrame at h
  simp only at h
  split at h
  · exact absurd h (by simp)
  · split at h
    · exact absurd h (by simp)
    · split at h
      · exact absurd h (by simp)
      · split at h
        · exact absurd h (by simp)
        · split at h
          · rename_i hc2
            split at h
            · exact absurd h (by simp)
            · split at h
              · exact absurd h (by simp)
              · split at h
                · exact absurd h (by simp)
                · split at h
                  · exact absurd h (by simp)
                  · injection h with h
                    subst h
                    simp only
                    obtain ⟨e1, e2⟩ := getD_two_last s.out
                      (toI16 (clamp16 (wrapI64 ((if s.first = true then 0 else s.prevL) + _))))
                      (toI16 (clamp16 (wrapI64 (clamp16 (wrapI64
                        ((if s.first = true then 0 else s.prevL) + _)) + _))))
                    refine ⟨by simp [hc2], ?_, trivial⟩
                    rw [e1, e2, getLastD_append_one, getD_append_two]
                    omega
          · rename_i hc2
            injection h with h
            subst h
            simp only
            have hc1 : channels = 1 := by omega
            refine ⟨by simp [hc1], ?_, trivial⟩
            rw [getLastD_append_one, getD_append_one]
            omega

theorem encodeFrame_prevL (samples : List Int) (channels i : Nat) (se se1 : EncState)
    (h : encodeFrame samples channels i se = .ok se1) :
    se1.prevL = samples.getD (i * channels) 0 ∧ se1.first = false := by
  unfold encodeFrame at h
  simp only at h
  split at h
  · exact absurd h (by simp)
  · split at h
    · split at h
      · exact absurd h (by simp)
      · injection h with h
        subst h
        exact ⟨rfl, rfl⟩
    · injection h with h
      subst h
      exact ⟨rfl, rfl⟩

theorem choose_m_one : choose_m_from_ema 1 = 1 := by decide!

set_option maxRecDepth 100000 in
theorem decodeFrame_example :
    decodeFrame [false, true, false, false, true] 2 DecState.init
      = .ok { out := [-1, 0], emaL := emaUpdate 1 (-1), emaR := emaUpdate 1 1,
              prevL := -1, first := false, bitpos := 5 } := by
  unfold decodeFrame
  rw [show choose_m_from_ema DecState.init.emaL = 1 from choose_m_one,
    show choose_m_from_ema DecState.init.emaR = 1 from choose_m_one]
  rfl

/-- C17: for channels 1 or 2, a frame of decodeSamples appends one sample per
channel and leaves in prevL the left sample it reconstructed in that frame (the
first of the samples it appended), with first cleared, so that the next left
sample is predicted from it; a frame of encodeSamples leaves prevL = L, the
left sample of that frame, in the same way. -/
theorem C17_decoder_prevL (bits : List Bool) (channels : Nat) (s s1 : DecState)
    (hch : channels = 1 ∨ channels = 2) (h : decodeFrame bits channels s = .ok s1) :
    s1.out.length = s.out.length + channels ∧ s1.prevL = s1.out.getD s.out.length 0 ∧
      s1.first = false ∧
      ∀ (samples : List Int) (i : Nat) (se se1 : EncState),
        encodeFrame samples channels i se = .ok se1 →
          se1.prevL = samples.getD (i * channels) 0 ∧ se1.first = false := by
  obtain ⟨h1, h2, h3⟩ := decodeFrame_prevL bits channels s s1 hch h
  exact ⟨h1, h2, h3, fun samples i se se1 he => encodeFrame_prevL samples channels i se se1 he⟩

/-- C17, an instance: the first stereo frame of the stream 01001 decodes to the
samples -1, 0 and leaves prevL = -1, the left one. -/
theorem C17_decoder_prevL_witness :
    (((2 : Nat) = 1 ∨ (2 : Nat) = 2) ∧
      decodeFrame [false, true, false, false, true] 2 DecState.init
        = .ok { out := [-1, 0], emaL := emaUpdate 1 (-1), emaR := emaUpdate 1 1,
                prevL := -1, first := false, bitpos := 5 }) ∧
      (([-1, 0] : List Int).length = ([] : List Int).length + 2 ∧
        (-1 : Int) = ([-1, 0] : List Int).getD ([] : List Int).length 0) :=
  ⟨⟨Or.inr rfl, decodeFrame_example⟩,
    (C17_decoder_prevL [false, true, false, false, true] 2 DecState.init _ (Or.inr rfl)
      decodeFrame_example).1,
    (C17_decoder_prevL [false, true, false, false, true] 2 DecState.init _ (Or.inr rfl)
      decodeFrame_example).2.1⟩

/-! ## Progress of the decoding loops -/

theorem decodeFrame_ok (bits : List Bool) (channels : Nat) (s s1 : DecState)
    (h : decodeFrame bits channels s = .ok s1) :
    ∃ fresh, s1.out = s.out ++ fresh ∧ fresh.length = (if channels = 2 then 2 else 1) ∧
      (∀ x ∈ fresh, -32768 ≤ x ∧ x ≤ 32767) ∧ s.bitpos + fresh.length ≤ s1.bitpos ∧
      s1.bitpos ≤ bits.length ∧ s.bitpos < bits.length := by
  have hrange : ∀ x : Int, -32768 ≤ toI16 x ∧ toI16 x ≤ 32767 := by
    intro x
    unfold toI16
    omega
  unfold decodeFrame at h
  simp only at h
  split at h
  · exact absurd h (by simp)
  · split at h
    · exact absurd h (by simp)
    · rename_i hpos
      split at h
      · exact absurd h (by simp)
      · rename_i resL consumedL hdL
        obtain ⟨hL1, hL2, _⟩ := decode_ok_inv _ _ _ _ hdL
        rw [List.length_drop] at hL2
        split at h
        · exact absurd h (by simp)
        · split at h
          · rename_i hc2
            split at h
            · exact absurd h (by simp)
            · split at h
              · exact absurd h (by simp)
              · split at h
                · exact absurd h (by simp)
                · rename_i resR consumedR hdR
                  obtain ⟨hR1, hR2, _⟩ := decode_ok_inv _ _ _ _ hdR
                  rw [List.length_drop] at hR2
                  split at h
                  · exact absurd h (by simp)
                  · injection h with h
                    subst h
                    refine ⟨[_] ++ [_], List.append_assoc _ _ _, by simp [hc2], ?_, ?_, ?_, by omega⟩
                    · intro x hx
                      simp only [List.mem_append, List.mem_singleton] at hx
                      rcases hx with hx | hx <;> rw [hx] <;> exact hrange _
                    · simp only [List.length_append, List.length_cons, List.length_nil]
                      omega
                    · simp only
                      omega
          · rename_i hc2
            injection h with h
            subst h
            refine ⟨[_], rfl, by simp [hc2], ?_, ?_, ?_, by omega⟩
            · intro x hx
              simp only [List.mem_singleton] at hx
              rw [hx]
              exact hrange _
            · simp only [List.length_cons, List.length_nil]
              omega
            · simp only
              omega

theorem decodeFrame_not_zero (bits : List Bool) (channels : Nat) (s : DecState) :
    decodeFrame bits channels s ≠ .error .zeroConsumedLeft ∧
      decodeFrame bits channels s ≠ .error .zeroConsumedRight := by
  have key : ∀ e, decodeFrame bits channels s = .error e →
      e ≠ .zeroConsumedLeft ∧ e ≠ .zeroConsumedRight := by
    intro e h
    unfold decodeFrame at h
    simp only at h
    split at h
    · injection h with h
      subst h
      exact ⟨by simp, by simp⟩
    · split at h
      · injection h with h
        subst h
        exact ⟨by simp, by simp⟩
      · split at h
        · injection h with h
          subst h
          exact ⟨by simp, by simp⟩
        · rename_i resL consumedL hdL
          obtain ⟨hL1, _, _⟩ := decode_ok_inv _ _ _ _ hdL
          split at h
          · omega
          · split at h
            · split at h
              · injection h with h
                subst h
                exact ⟨by simp, by simp⟩
              · split at h
                · injection h with h
                  subst h
                  exact ⟨by simp, by simp⟩
                · split at h
                  · injection h with h
                    subst h
                    exact ⟨by simp, by simp⟩
                  · rename_i resR consumedR hdR
                    obtain ⟨hR1, _, _⟩ := decode_ok_inv _ _ _ _ hdR
                    split at h
                    · omega
                    · exact absurd h (by simp)
            · exact absurd h (by simp)
  exact ⟨fun h => (key _ h).1 rfl, fun h => (key _ h).2 rfl⟩

theorem decodeFrame_exhausted (bits : List Bool) (channels : Nat) (s : DecState)
    (hpos : bits.length ≤ s.bitpos) : ∃ e, decodeFrame bits channels s = .error e := by
  cases h : decodeFrame bits channels s with
  | error e => exact ⟨e, rfl⟩
  | ok s1 =>
    obtain ⟨_, _, _, _, _, _, hlt⟩ := decodeFrame_ok bits channels s s1 h
    omega

theorem decodeLoop_add (bits : List Bool) (channels : Nat) (a b : Nat) :
    ∀ (s : DecState),
    decodeLoop bits channels (a + b) s
      = match decodeLoop bits channels a s with
        | .error e => .error e
        | .ok s1 => decodeLoop bits channels b s1 := by
  induction a with
  | zero => intro s; simp [decodeLoop]
  | succ a ih =>
    intro s
    have e : a + 1 + b = (a + b) + 1 := by omega
    rw [e]
    simp only [decodeLoop]
    cases hf : decodeFrame bits channels s with
    | error e => rfl
    | ok s1 =>
      simp only
      rw [ih s1]

theorem decodeLoop_ok (bits : List Bool) (channels : Nat)
    (hch : channels = 1 ∨ channels = 2) (n : Nat) :
    ∀ (s s1 : DecState), decodeLoop bits channels n s = .ok s1 →
    ∃ fresh, s1.out = s.out ++ fresh ∧ fresh.length = n * channels ∧
      (∀ x ∈ fresh, -32768 ≤ x ∧ x ≤ 32767) ∧ s.bitpos + n * channels ≤ s1.bitpos ∧
      (0 < n → s1.bitpos ≤ bits.length) := by
  induction n with
  | zero =>
    intro s s1 h
    simp only [decodeLoop] at h
    injection h with h
    subst h
    exact ⟨[], by simp, by simp, by simp, by omega, by omega⟩
  | succ n ih =>
    intro s s1 h
    simp only [decodeLoop] at h
    cases hf : decodeFrame bits channels s with
    | error e =>
      rw [hf] at h
      exact absurd h (by simp)
    | ok s2 =>
      rw [hf] at h
      simp only at h
      obtain ⟨f1, ho1, hl1, hr1, hb1, hb1le, _⟩ := decodeFrame_ok bits channels s s2 hf
      obtain ⟨f2, ho2, hl2, hr2, hb2, hb2le⟩ := ih s2 s1 h
      have hl1c : f1.length = channels := by
        rcases hch with hc | hc <;> rw [hl1, hc] <;> rfl
      refine ⟨f1 ++ f2, by rw [ho2, ho1, List.append_assoc], ?_, ?_, ?_, ?_⟩
      · rw [List.length_append, hl1c, hl2, Nat.succ_mul]
        omega
      · intro x hx
        rcases List.mem_append.mp hx with hx | hx
        · exact hr1 x hx
        · exact hr2 x hx
      · rw [Nat.succ_mul]
        omega
      · intro _
        by_cases hn : 0 < n
        · exact hb2le hn
        · have hn0 : n = 0 := by omega
          subst hn0
          simp only [decodeLoop] at h
          injection h with h
          subst h
          exact hb1le

theorem decodeLoop_not_zero (bits : List Bool) (channels : Nat) (n : Nat) :
    ∀ (s : DecState), decodeLoop bits channels n s ≠ .error .zeroConsumedLeft ∧
      decodeLoop bits channels n s ≠ .error .zeroConsumedRight := by
  induction n with
  | zero =>
    intro s
    simp [decodeLoop]
  | succ n ih =>
    intro s
    simp only [decodeLoop]
    cases hf : decodeFrame bits channels s with
    | error e =>
      have := decodeFrame_not_zero bits channels s
      rw [hf] at this
      exact this
    | ok s2 => exact ih s2

theorem decodeResidualsLoop_progress (g : Golomb) (bits : List Bool) (total : Nat) :
    ∀ (fuel pos : Nat) (acc : List Int), pos ≤ bits.length → bits.length < pos + fuel →
    decodeResidualsLoop g bits total fuel pos acc ≠ .error .decodingError ∧
      decodeResidualsLoop g bits total fuel pos acc ≠ .error .loopFuel := by
  intro fuel
  induction fuel with
  | zero =>
    intro pos acc hp hf
    omega
  | succ fuel ih =>
    intro pos acc hp hf
    unfold decodeResidualsLoop
    split
    · rename_i hc
      cases hd : g.decode (bits.drop pos) with
      | error e => simp
      | ok p =>
        obtain ⟨v, k⟩ := p
        obtain ⟨hk1, hk2, _⟩ := decode_ok_inv _ _ _ _ hd
        rw [List.length_drop] at hk2
        simp only
        rw [if_neg (by omega)]
        exact ih (pos + k) _ (by omega) (by omega)
    · simp

theorem cliDecodeLoop_progress (g : Golomb) (bits : List Bool) :
    ∀ (fuel pos : Nat) (acc : List Int), pos ≤ bits.length → bits.length < pos + fuel →
    (∀ p, cliDecodeLoop g bits fuel pos acc ≠ .zeroConsumed p) ∧
      cliDecodeLoop g bits fuel pos acc ≠ .loopFuel := by
  intro fuel
  induction fuel with
  | zero =>
    intro pos acc hp hf
    omega
  | succ fuel ih =>
    intro pos acc hp hf
    unfold cliDecodeLoop
    split
    · rename_i hc
      cases hd : g.decode (bits.drop pos) with
      | error e => simp
      | ok p =>
        obtain ⟨v, k⟩ := p
        obtain ⟨hk1, hk2, _⟩ := decode_ok_inv _ _ _ _ hd
        rw [List.length_drop] at hk2
        simp only
        rw [if_neg (by omega)]
        exact ih (pos + k) _ (by omega) (by omega)
    · simp

/-- C27: for channels 1 or 2 and every bit string, decodeSamples either throws
or returns exactly frames * channels samples, each in [-32768, 32767], having
consumed at least one bit for each of them; so it throws whenever the stream
has fewer bits than samples are asked for, and whenever the cursor has reached
the end of the stream after fewer than frames frames. -/
theorem C27_no_partial_results (bits : List Bool) (channels frames : Nat)
    (hch : channels = 1 ∨ channels = 2) :
    ((∃ e, decodeSamples bits channels frames = .error e) ∨
      ∃ out, decodeSamples bits channels frames = .ok out ∧
        out.length = frames * channels ∧ (∀ x ∈ out, -32768 ≤ x ∧ x ≤ 32767) ∧
        frames * channels ≤ bits.length) ∧
    (bits.length < frames * channels →
      ∃ e, decodeSamples bits channels frames = .error e) ∧
    (∀ i s, i < frames → decodeLoop bits channels i DecState.init = .ok s →
      bits.length ≤ s.bitpos → ∃ e, decodeSamples bits channels frames = .error e) := by
  have hmain : (∃ e, decodeSamples bits channels frames = .error e) ∨
      ∃ out, decodeSamples bits channels frames = .ok out ∧
        out.length = frames * channels ∧ (∀ x ∈ out, -32768 ≤ x ∧ x ≤ 32767) ∧
        frames * channels ≤ bits.length := by
    unfold decodeSamples
    cases h : decodeLoop bits channels frames DecState.init with
    | error e => exact Or.inl ⟨e, rfl⟩
    | ok s1 =>
      right
      obtain ⟨fresh, ho, hl, hr, hb, hble⟩ :=
        decodeLoop_ok bits channels hch frames DecState.init s1 h
      have hout : s1.out = fresh := by
        rw [ho]
        rfl
      refine ⟨s1.out, rfl, by rw [hout, hl], by rw [hout]; exact hr, ?_⟩
      by_cases hn : 0 < frames
      · have h1 := hble hn
        have h2 : DecState.init.bitpos = 0 := rfl
        omega
      · have hn0 : frames = 0 := by omega
        rw [hn0]
        omega
  refine ⟨hmain, ?_, ?_⟩
  · intro hlt
    rcases hmain with he | ⟨out, _, _, _, hle⟩
    · exact he
    · omega
  · intro i s hi hloop hpos
    obtain ⟨k, hk⟩ : ∃ k, frames = i + (k + 1) := ⟨frames - i - 1, by omega⟩
    unfold decodeSamples
    rw [hk, decodeLoop_add, hloop]
    simp only [decodeLoop]
    obtain ⟨e, he⟩ := decodeFrame_exhausted bits channels s hpos
    rw [he]
    exact ⟨e, rfl⟩

/-- C27, an instance: two mono frames asked of the one-bit stream 1, which
holds a single residual. -/
theorem C27_no_partial_results_witness :
    ((1 : Nat) = 1 ∨ (1 : Nat) = 2) ∧
      ([true].length < 2 * 1 → ∃ e, decodeSamples [true] 1 2 = .error e) :=
  ⟨Or.inl rfl, (C27_no_partial_results [true] 1 2 (Or.inl rfl)).2.1⟩

/-- C30: whenever decode returns (v, k), for any coder, either negative mode and
any bit string, 1 ≤ k ≤ length of the bit string. Hence decodeSamples never
throws one of its two "0 bits consumed" errors and each of its frames moves
bitpos forward; the image decoder never reports "Decoding error" for zero
consumed bits and the decode operation of the command line tool never returns
3, and both loops end within length + 1 iterations. -/
theorem C30_decode_progress (g : Golomb) (bits : List Bool) :
    (∀ v k, g.decode bits = .ok (v, k) → 1 ≤ k ∧ k ≤ bits.length) ∧
    (∀ channels frames, decodeSamples bits channels frames ≠ .error .zeroConsumedLeft ∧
      decodeSamples bits channels frames ≠ .error .zeroConsumedRight) ∧
    (∀ channels s s1, decodeFrame bits channels s = .ok s1 → s.bitpos < s1.bitpos) ∧
    (∀ pred8 w h, decodeImage g pred8 w h bits ≠ .error .decodingError ∧
      decodeImage g pred8 w h bits ≠ .error .loopFuel) ∧
    (∀ pos, cliDecode g bits ≠ .zeroConsumed pos) ∧ cliDecode g bits ≠ .loopFuel := by
  refine ⟨?_, ?_, ?_, ?_, ?_⟩
  · intro v k h
    obtain ⟨h1, h2, _⟩ := decode_ok_inv g bits v k h
    exact ⟨h1, h2⟩
  · intro channels frames
    have h := decodeLoop_not_zero bits channels frames DecState.init
    unfold decodeSamples
    cases hl : decodeLoop bits channels frames DecState.init with
    | error e =>
      rw [hl] at h
      simp only [ne_eq, Except.error.injEq] at h ⊢
      exact h
    | ok s => simp
  · intro channels s s1 h
    obtain ⟨fresh, _, hl, _, hb, _, _⟩ := decodeFrame_ok bits channels s s1 h
    have : 1 ≤ fresh.length := by
      rw [hl]
      split <;> omega
    omega
  · intro pred8 w h
    have hp := decodeResidualsLoop_progress g bits (w * h) (bits.length + 1) 0 []
      (Nat.zero_le _) (by omega)
    unfold decodeImage
    cases hl : decodeResidualsLoop g bits (w * h) (bits.length + 1) 0 [] with
    | error e =>
      rw [hl] at hp
      simp only [ne_eq, Except.error.injEq] at hp ⊢
      exact hp
    | ok residuals =>
      simp only
      split <;> simp
  · exact cliDecodeLoop_progress g bits (bits.length + 1) 0 [] (Nat.zero_le _) (by omega)

/-! ## Range of the image residuals -/

/-- C26 fails on the code for predictor 1: in the image with rows 0, 255 and
255, 0 the pixel at (1, 1) has left = top = 255 and top-left = 0, the rule
selects p = 510 (the tie of C20), and the residual is 0 - 510 = -510, outside
[-255, 255]. The mirrored image with rows 255, 0 and 0, 255 gives the residual
255 - (-255) = 510. -/
theorem C26_residual_out_of_range :
    (∀ x ∈ (Mat.mk 2 2 [0, 255, 255, 0]).data, x < 256) ∧
      medianRule 255 255 0 = 510 ∧
      computeResiduals 1 (Mat.mk 2 2 [0, 255, 255, 0]) = [0, 255, 255, -510] ∧
      computeResiduals 1 (Mat.mk 2 2 [255, 0, 0, 255]) = [255, -255, -255, 510] := by
  refine ⟨by decide, by decide, by decide, by decide⟩

/-! ## The search for m -/

theorem tryCandidate_eq (residuals : List Int) (m : Nat) (s : Best)
    (h1 : 1 ≤ m) (h2 : m ≤ 2 ^ 63) :
    tryCandidate residuals m s = .ok (pick residuals s m) := by
  obtain ⟨g, hg, _, _, _⟩ := new_ok m .INTERLEAVED h1 h2
  have hfold : residuals.foldl (fun bits v => bits ++ g.encode v) [] = codeStream g residuals :=
    concatEncode_eq g residuals
  unfold tryCandidate pick candidateBits
  rw [hg]
  simp only [hfold]
  split <;> rfl

theorem powerSweep_eq (residuals : List Int) (s : Best) :
    powerSweep residuals 8 1 s = .ok (powerCandidates.foldl (pick residuals) s) := by
  have h : ∀ m s, 1 ≤ m → m ≤ 64 → tryCandidate residuals m s = .ok (pick residuals s m) :=
    fun m s h1 h2 => tryCandidate_eq residuals m s h1 (by omega)
  simp only [powerSweep, powerCandidates, List.foldl]
  rw [if_pos (by decide), h 1 _ (by decide) (by decide)]
  simp only
  rw [if_pos (by decide), h _ _ (by decide) (by decide)]
  simp only
  rw [if_pos (by decide), h _ _ (by decide) (by decide)]
  simp only
  rw [if_pos (by decide), h _ _ (by decide) (by decide)]
  simp only
  rw [if_pos (by decide), h _ _ (by decide) (by decide)]
  simp only
  rw [if_pos (by decide), h _ _ (by decide) (by decide)]
  simp only
  rw [if_pos (by decide), h _ _ (by decide) (by decide)]
  simp only
  rw [if_neg (by decide)]
  rfl

theorem oddSweep_eq (residuals : List Int) (s : Best) :
    oddSweep residuals 16 3 s = .ok (oddCandidates.foldl (pick residuals) s) := by
  have h : ∀ m s, 1 ≤ m → m ≤ 64 → tryCandidate residuals m s = .ok (pick residuals s m) :=
    fun m s h1 h2 => tryCandidate_eq residuals m s h1 (by omega)
  simp only [oddSweep, oddCandidates, List.foldl]
  rw [if_pos (by decide), h 3 _ (by decide) (by decide)]
  simp only
  iterate 14
    rw [if_pos (by decide), h _ _ (by decide) (by decide)]
    simp only
  rw [if_neg (by decide)]
  rfl

theorem chooseM_eq (residuals : List Int) :
    chooseM residuals = .ok (imageCandidates.foldl (pick residuals)
      { best_len := SIZE_MAX, best_m := 1, best_bits := [] }) := by
  unfold chooseM imageCandidates
  rw [powerSweep_eq]
  simp only
  rw [oddSweep_eq, List.foldl_append]

theorem pick_fold (residuals : List Int) (l : List Nat) :
    ∀ s : Best,
    (l.foldl (pick residuals) s = s ∧ ∀ m ∈ l, s.best_len ≤ (candidateBits residuals m).length) ∨
    ∃ pre post m, l = pre ++ m :: post ∧
      l.foldl (pick residuals) s
        = { best_len := (candidateBits residuals m).length, best_m := m,
            best_bits := candidateBits residuals m } ∧
      (candidateBits residuals m).length < s.best_len ∧
      (∀ x ∈ pre, (candidateBits residuals m).length < (candidateBits residuals x).length) ∧
      (∀ x ∈ post, (candidateBits residuals m).length ≤ (candidateBits residuals x).length) := by
  induction l with
  | nil =>
    intro s
    left
    exact ⟨rfl, by simp⟩
  | cons a t ih =>
    intro s
    rw [List.foldl_cons]
    by_cases hlt : (candidateBits residuals a).length < s.best_len
    · have hp : pick residuals s a
          = { best_len := (candidateBits residuals a).length, best_m := a,
              best_bits := candidateBits residuals a } := by
        unfold pick
        rw [if_pos hlt]
      rw [hp]
      rcases ih { best_len := (candidateBits residuals a).length, best_m := a,
                  best_bits := candidateBits residuals a } with ⟨hA, hall⟩ | hB
      · right
        refine ⟨[], t, a, rfl, hA, hlt, by simp, ?_⟩
        intro x hx
        exact hall x hx
      · obtain ⟨pre, post, m, hl, hr, hlen, hpre, hpost⟩ := hB
        right
        refine ⟨a :: pre, post, m, by rw [hl]; rfl, hr, ?_, ?_, hpost⟩
        · simp only at hlen
          omega
        · intro x hx
          rcases List.mem_cons.mp hx with hx | hx
          · rw [hx]
            exact hlen
          · exact hpre x hx
    · have hp : pick residuals s a = s := by
        unfold pick
        rw [if_neg hlt]
      rw [hp]
      rcases ih s with ⟨hA, hall⟩ | hB
      · left
        refine ⟨hA, ?_⟩
        intro x hx
        rcases List.mem_cons.mp hx with hx | hx
        · rw [hx]
          omega
        · exact hall x hx
      · obtain ⟨pre, post, m, hl, hr, hlen, hpre, hpost⟩ := hB
        right
        refine ⟨a :: pre, post, m, by rw [hl]; rfl, hr, hlen, ?_, hpost⟩
        intro x hx
        rcases List.mem_cons.mp hx with hx | hx
        · rw [hx]
          omega
        · exact hpre x hx

theorem chooseM_spec (residuals : List Int)
    (hfit : ∀ m ∈ imageCandidates, (candidateBits residuals m).length < SIZE_MAX) :
    ∃ pre post m, imageCandidates = pre ++ m :: post ∧
      chooseM residuals
        = .ok { best_len := (candidateBits residuals m).length, best_m := m,
                best_bits := candidateBits residuals m } ∧
      (∀ x ∈ pre, (candidateBits residuals m).length < (candidateBits residuals x).length) ∧
      (∀ x ∈ imageCandidates,
        (candidateBits residuals m).length ≤ (candidateBits residuals x).length) := by
  rw [chooseM_eq]
  rcases pick_fold residuals imageCandidates
      { best_len := SIZE_MAX, best_m := 1, best_bits := [] } with ⟨_, hall⟩ | hB
  · have h1 := hall 1 (by decide)
    have h2 := hfit 1 (by decide)
    simp only at h1
    omega
  · obtain ⟨pre, post, m, hl, hr, _, hpre, hpost⟩ := hB
    refine ⟨pre, post, m, hl, by rw [hr], hpre, ?_⟩
    intro x hx
    rw [hl] at hx
    rcases List.mem_append.mp hx with hx | hx
    · exact Nat.le_of_lt (hpre x hx)
    · rcases List.mem_cons.mp hx with hx | hx
      · rw [hx]
      · exact hpost x hx

theorem candidate_coder (m : Nat) (hm : m ∈ imageCandidates) (residuals : List Int) :
    ∃ g, Golomb.new m .INTERLEAVED = .ok g ∧ g.WellFormed ∧
      candidateBits residuals m = codeStream g residuals := by
  have hb : 1 ≤ m ∧ m ≤ 64 := by
    revert m
    decide
  obtain ⟨g, hg, _, _, hwf⟩ := new_ok m .INTERLEAVED hb.1 (by omega)
  refine ⟨g, hg, hwf, ?_⟩
  unfold candidateBits
  rw [hg]

theorem candidates_order :
    ∀ i j : Fin 22, i.val ≤ j.val →
      (imageCandidates.getD j.val 0 ∈ powerCandidates →
        imageCandidates.getD i.val 0 ∈ powerCandidates ∧
          imageCandidates.getD i.val 0 ≤ imageCandidates.getD j.val 0) ∧
      (imageCandidates.getD i.val 0 ∉ powerCandidates →
        imageCandidates.getD i.val 0 ≤ imageCandidates.getD j.val 0) := by
  decide

theorem candidates_after (pre post : List Nat) (m x : Nat)
    (hl : imageCandidates = pre ++ m :: post) (hx : x ∈ imageCandidates) (hpre : x ∉ pre) :
    (x ∈ powerCandidates → m ∈ powerCandidates ∧ m ≤ x) ∧ (m ∉ powerCandidates → m ≤ x) := by
  have hlen : pre.length + (post.length + 1) = 22 := by
    have := congrArg List.length hl
    simp only [List.length_append, List.length_cons] at this
    rw [← this]
    rfl
  have hm : imageCandidates.getD pre.length 0 = m := by
    rw [hl, List.getD_append_right _ _ _ _ (Nat.le_refl _)]
    simp
  rw [hl] at hx
  rcases List.mem_append.mp hx with hx | hx
  · exact absurd hx hpre
  · obtain ⟨k, hk, hkx⟩ := List.getElem_of_mem hx
    have hj : imageCandidates.getD (pre.length + k) 0 = x := by
      rw [hl, List.getD_append_right _ _ _ _ (by omega)]
      rw [Nat.add_sub_cancel_left, List.getD_eq_getElem _ _ hk]
      exact hkx
    simp only [List.length_cons] at hk
    have h := candidates_order ⟨pre.length, by omega⟩ ⟨pre.length + k, by omega⟩
      (Nat.le_add_right _ _)
    simp only at h
    rw [hm, hj] at h
    exact h

/-- C21: for every residual list whose codes fit a std::string, the search
returns the candidate m that comes first, in the order 1, 2, 4, 8, 16, 32, 64,
3, 5, ..., 31, among those whose total INTERLEAVED code of the residuals has
the least length over all candidates; best_bits is that code, best_len its
length, and these are the parameter, the bit length and the packed payload that
the encoder writes. -/
theorem C21_m_selection (residuals : List Int)
    (hfit : ∀ m ∈ imageCandidates, (candidateBits residuals m).length < SIZE_MAX) :
    ∃ best pre post g, chooseM residuals = .ok best ∧
      imageCandidates = pre ++ best.best_m :: post ∧
      (∀ x ∈ pre, best.best_len < (candidateBits residuals x).length) ∧
      (∀ x ∈ imageCandidates, best.best_len ≤ (candidateBits residuals x).length) ∧
      Golomb.new best.best_m .INTERLEAVED = .ok g ∧
      best.best_bits = codeStream g residuals ∧ best.best_len = best.best_bits.length ∧
      ∀ predictor img, computeResiduals predictor img = residuals →
        ∃ f, encodeImage predictor img = .ok f ∧ f.m = best.best_m ∧
          f.bits_len = best.best_bits.length ∧
          f.payload = pack_bits_to_bytes best.best_bits := by
  obtain ⟨pre, post, m, hl, hr, hpre, hmin⟩ := chooseM_spec residuals hfit
  have hm : m ∈ imageCandidates := by
    rw [hl]
    simp
  obtain ⟨g, hg, _, hbits⟩ := candidate_coder m hm residuals
  refine ⟨_, pre, post, g, hr, hl, hpre, hmin, hg, hbits, rfl, ?_⟩
  intro predictor img hres
  unfold encodeImage
  simp only [hres, hr]
  refine ⟨_, rfl, rfl, ?_, rfl⟩
  simp only
  have := hfit m hm
  unfold SIZE_MAX at this
  exact Nat.mod_eq_of_lt (by omega)

set_option maxRecDepth 100000 in
/-- C21, an instance: the residuals 3, -7, 0, 12. -/
theorem C21_m_selection_witness :
    (∀ m ∈ imageCandidates, (candidateBits [3, -7, 0, 12] m).length < SIZE_MAX) ∧
      ∃ best pre post g, chooseM [3, -7, 0, 12] = .ok best ∧
        imageCandidates = pre ++ best.best_m :: post ∧
        (∀ x ∈ pre, best.best_len < (candidateBits [3, -7, 0, 12] x).length) ∧
        (∀ x ∈ imageCandidates, best.best_len ≤ (candidateBits [3, -7, 0, 12] x).length) ∧
        Golomb.new best.best_m .INTERLEAVED = .ok g ∧
        best.best_bits = codeStream g [3, -7, 0, 12] ∧
        best.best_len = best.best_bits.length ∧
        ∀ predictor img, computeResiduals predictor img = [3, -7, 0, 12] →
          ∃ f, encodeImage predictor img = .ok f ∧ f.m = best.best_m ∧
            f.bits_len = best.best_bits.length ∧
            f.payload = pack_bits_to_bytes best.best_bits :=
  ⟨by decide, C21_m_selection [3, -7, 0, 12] (by decide)⟩

/-- C22 as amended: the candidate tried first wins a tie. If a power of two of
the first loop reaches the least total length, the chosen m is the smallest
such power of two; otherwise it is the smallest of the odd candidates that
reach it. -/
theorem C22_tie_break (residuals : List Int)
    (hfit : ∀ m ∈ imageCandidates, (candidateBits residuals m).length < SIZE_MAX) :
    ∃ best, chooseM residuals = .ok best ∧ best.best_m ∈ imageCandidates ∧
      best.best_len = (candidateBits residuals best.best_m).length ∧
      (∀ x ∈ imageCandidates, best.best_len ≤ (candidateBits residuals x).length) ∧
      (∀ x ∈ powerCandidates, (candidateBits residuals x).length = best.best_len →
        best.best_m ∈ powerCandidates ∧ best.best_m ≤ x) ∧
      (best.best_m ∉ powerCandidates →
        ∀ x ∈ imageCandidates, (candidateBits residuals x).length = best.best_len →
          best.best_m ≤ x) := by
  obtain ⟨pre, post, m, hl, hr, hpre, hmin⟩ := chooseM_spec residuals hfit
  have hm : m ∈ imageCandidates := by
    rw [hl]
    simp
  have hnot : ∀ x, (candidateBits residuals x).length = (candidateBits residuals m).length →
      x ∉ pre := by
    intro x hx hmem
    have := hpre x hmem
    omega
  refine ⟨_, hr, hm, rfl, hmin, ?_, ?_⟩
  · intro x hx hlen
    have hxi : x ∈ imageCandidates := by
      unfold imageCandidates
      exact List.mem_append_left _ hx
    exact (candidates_after pre post m x hl hxi (hnot x hlen)).1 hx
  · intro hodd x hx hlen
    exact (candidates_after pre post m x hl hx (hnot x hlen)).2 hodd

set_option maxRecDepth 100000 in
/-- C22 as amended, an instance: the residuals 3, -7, 0, 12. -/
theorem C22_tie_break_witness :
    (∀ m ∈ imageCandidates, (candidateBits [3, -7, 0, 12] m).length < SIZE_MAX) ∧
      ∃ best, chooseM [3, -7, 0, 12] = .ok best ∧ best.best_m ∈ imageCandidates ∧
        best.best_len = (candidateBits [3, -7, 0, 12] best.best_m).length ∧
        (∀ x ∈ imageCandidates, best.best_len ≤ (candidateBits [3, -7, 0, 12] x).length) ∧
        (∀ x ∈ powerCandidates, (candidateBits [3, -7, 0, 12] x).length = best.best_len →
          best.best_m ∈ powerCandidates ∧ best.best_m ≤ x) ∧
        (best.best_m ∉ powerCandidates →
          ∀ x ∈ imageCandidates, (candidateBits [3, -7, 0, 12] x).length = best.best_len →
            best.best_m ≤ x) :=
  ⟨by decide, C22_tie_break [3, -7, 0, 12] (by decide)⟩

set_option maxRecDepth 100000 in
/-- C22 fails as stated: for the single residual 3 (the 1 x 1 image with pixel
3) the candidates 4, 8, 3, 5, 7 and 9 all reach the least length, 4 bits; the
search keeps m = 4, which was tried before 3, although 3 is smaller. -/
theorem C22_counterexample :
    chooseM [3] = .ok { best_len := 4, best_m := 4, best_bits := [false, true, true, false] } ∧
      computeResiduals 1 (Mat.mk 1 1 [3]) = [3] ∧
      (∀ x ∈ imageCandidates, 4 ≤ (candidateBits [3] x).length) ∧
      3 ∈ imageCandidates ∧ (candidateBits [3] 3).length = 4 ∧ (3 : Nat) < 4 := by
  refine ⟨rfl, by decide, by decide, by decide, by decide, by decide⟩

/-! ## Packing of bits into bytes -/

theorem testBit_eq_shift (b s : Nat) : (((b >>> s) &&& 1) != 0) = b.testBit s := by
  unfold Nat.testBit
  rw [Nat.and_comm]

theorem getD_set_self (l : List Nat) (i a : Nat) (h : i < l.length) :
    (l.set i a).getD i 0 = a := by
  rw [List.getD_eq_getElem?_getD, List.getElem?_set_self h]
  rfl

theorem getD_set_ne (l : List Nat) (i j a : Nat) (h : i ≠ j) :
    (l.set i a).getD j 0 = l.getD j 0 := by
  rw [List.getD_eq_getElem?_getD, List.getElem?_set_ne h, ← List.getD_eq_getElem?_getD]

theorem bitAt_set (out : List Nat) (k i : Nat) (hk : k / 8 < out.length)
    (hb : out.getD (k / 8) 0 < 256) :
    bitAt (out.set (k / 8) ((out.getD (k / 8) 0 ||| (1 <<< (7 - k % 8))) % 256)) i
      = (bitAt out i || decide (i = k)) := by
  have hmask : 1 <<< (7 - k % 8) < 2 ^ 8 := by
    rw [Nat.one_shiftLeft]
    exact Nat.pow_lt_pow_right (by decide) (by omega)
  have hor : (out.getD (k / 8) 0 ||| (1 <<< (7 - k % 8))) < 2 ^ 8 :=
    Nat.or_lt_two_pow (by omega) hmask
  have hmod : (out.getD (k / 8) 0 ||| (1 <<< (7 - k % 8))) % 256
      = out.getD (k / 8) 0 ||| (1 <<< (7 - k % 8)) := Nat.mod_eq_of_lt (by omega)
  rw [hmod]
  unfold bitAt
  by_cases hq : i / 8 = k / 8
  · rw [hq]
    have hget : (out.set (k / 8) (out.getD (k / 8) 0 ||| (1 <<< (7 - k % 8)))).getD (k / 8) 0
        = out.getD (k / 8) 0 ||| (1 <<< (7 - k % 8)) := getD_set_self _ _ _ hk
    rw [hget, Nat.testBit_or, Nat.one_shiftLeft, Nat.testBit_two_pow]
    congr 1
    have : (7 - k % 8 = 7 - i % 8) ↔ i = k := by
      constructor
      · intro h
        have h1 := Nat.div_add_mod i 8
        have h2 := Nat.div_add_mod k 8
        have h3 := Nat.mod_lt i (by decide : 0 < 8)
        have h4 := Nat.mod_lt k (by decide : 0 < 8)
        omega
      · intro h
        rw [h]
    exact decide_eq_decide.mpr this
  · have hget : (out.set (k / 8) (out.getD (k / 8) 0 ||| (1 <<< (7 - k % 8)))).getD (i / 8) 0
        = out.getD (i / 8) 0 := getD_set_ne _ _ _ _ (fun h => hq h.symm)
    rw [hget]
    have hne : ¬ (i = k) := fun h => hq (by rw [h])
    simp [hne]

theorem packFold_spec (bits : List Bool) (nbytes : Nat) (hn : bits.length ≤ 8 * nbytes) :
    ∀ k, k ≤ bits.length →
    ((List.range k).foldl
      (fun out i =>
        if bits.getD i false then
          out.set (i / 8) ((out.getD (i / 8) 0 ||| (1 <<< (7 - i % 8))) % 256)
        else out)
      (List.replicate nbytes 0)).length = nbytes ∧
    (∀ j, ((List.range k).foldl
      (fun out i =>
        if bits.getD i false then
          out.set (i / 8) ((out.getD (i / 8) 0 ||| (1 <<< (7 - i % 8))) % 256)
        else out)
      (List.replicate nbytes 0)).getD j 0 < 256) ∧
    ∀ i, bitAt ((List.range k).foldl
      (fun out i =>
        if bits.getD i false then
          out.set (i / 8) ((out.getD (i / 8) 0 ||| (1 <<< (7 - i % 8))) % 256)
        else out)
      (List.replicate nbytes 0)) i = (decide (i < k) && bits.getD i false) := by
  intro k
  induction k with
  | zero =>
    intro _
    refine ⟨by simp, ?_, ?_⟩
    · intro j
      simp only [List.range_zero, List.foldl_nil]
      rw [List.getD_eq_getElem?_getD]
      by_cases hj : j < nbytes
      · simp [List.getElem?_replicate, hj]
      · simp [List.getElem?_replicate, hj]
    · intro i
      simp only [List.range_zero, List.foldl_nil, Nat.not_lt_zero, decide_False, Bool.false_and]
      unfold bitAt
      rw [List.getD_eq_getElem?_getD]
      by_cases hj : i / 8 < nbytes
      · simp [List.getElem?_replicate, hj]
      · simp [List.getElem?_replicate, hj]
  | succ k ih =>
    intro hk
    obtain ⟨hlen, hbytes, hbits⟩ := ih (by omega)
    rw [List.range_succ, List.foldl_append]
    simp only [List.foldl_cons, List.foldl_nil]
    generalize (List.range k).foldl
      (fun out i =>
        if bits.getD i false then
          out.set (i / 8) ((out.getD (i / 8) 0 ||| (1 <<< (7 - i % 8))) % 256)
        else out)
      (List.replicate nbytes 0) = out at hlen hbytes hbits ⊢
    by_cases hb : bits.getD k false = true
    · rw [if_pos hb]
      have hk8 : k / 8 < out.length := by
        rw [hlen]
        omega
      refine ⟨by rw [List.length_set, hlen], ?_, ?_⟩
      · intro j
        by_cases hj : k / 8 = j
        · subst hj
          rw [getD_set_self _ _ _ hk8]
          exact Nat.mod_lt _ (by decide)
        · rw [getD_set_ne _ _ _ _ hj]
          exact hbytes j
      · intro i
        rw [bitAt_set out k i hk8 (hbytes _), hbits i]
        by_cases hik : i = k
        · rw [hik, hb]
          simp
        · have : (i < k + 1) ↔ (i < k) := by omega
          simp [hik, this]
    · rw [if_neg hb]
      refine ⟨hlen, hbytes, ?_⟩
      intro i
      rw [hbits i]
      by_cases hik : i = k
      · simp only [Bool.not_eq_true] at hb
        rw [hik, hb]
        simp
      · have : (i < k + 1) ↔ (i < k) := by omega
        simp [this]

theorem pack_spec (bits : List Bool) (hlen : bits.length + 7 < 2 ^ 64) :
    (pack_bits_to_bytes bits).length = (bits.length + 7) / 8 ∧
      (∀ j, (pack_bits_to_bytes bits).getD j 0 < 256) ∧
      ∀ i, bitAt (pack_bits_to_bytes bits) i = (decide (i < bits.length) && bits.getD i false) := by
  have hmod : (bits.length + 7) % 2 ^ 64 = bits.length + 7 := Nat.mod_eq_of_lt hlen
  unfold pack_bits_to_bytes
  simp only [hmod]
  exact packFold_spec bits ((bits.length + 7) / 8) (by omega) bits.length (Nat.le_refl _)

theorem unpackStringLoop_ok (bytes : List Nat) :
    ∀ (k i : Nat) (out : List Bool), i + k ≤ 8 * bytes.length →
    unpackStringLoop bytes k i out = .ok (out ++ (List.range' i k).map (bitAt bytes)) := by
  intro k
  induction k with
  | zero =>
    intro i out _
    simp [unpackStringLoop]
  | succ k ih =>
    intro i out h
    have hi : i / 8 < bytes.length := by omega
    unfold unpackStringLoop stringAt
    rw [if_pos hi]
    simp only
    rw [ih (i + 1) _ (by omega), testBit_eq_shift]
    simp [List.range'_succ, bitAt]

theorem unpackVectorLoop_ok (bytes : List Nat) :
    ∀ (k i : Nat) (out : List Bool), i + k ≤ 8 * bytes.length →
    unpackVectorLoop bytes k i out = .ok (out ++ (List.range' i k).map (bitAt bytes)) := by
  intro k
  induction k with
  | zero =>
    intro i out _
    simp [unpackVectorLoop]
  | succ k ih =>
    intro i out h
    have hi : i / 8 < bytes.length := by omega
    unfold unpackVectorLoop vectorAt
    rw [if_pos hi]
    simp only
    rw [ih (i + 1) _ (by omega), testBit_eq_shift]
    simp [List.range'_succ, bitAt]

theorem map_getD_range (bits : List Bool) :
    (List.range' 0 bits.length).map (fun i => (decide (i < bits.length) && bits.getD i false))
      = bits := by
  apply List.ext_getElem
  · simp
  · intro i h1 h2
    simp only [List.getElem_map, List.getElem_range', Nat.zero_add, Nat.one_mul]
    rw [List.getD_eq_getElem _ _ h2]
    simp [h2]

/-- C23: for every bit string bits of length n (a std::string, n + 7 < 2 ^ 64)
pack_bits_to_bytes produces exactly ceil(n / 8) bytes; bit i of the stream is
bit 7 - i mod 8 of byte i / 8 and the bits of the last byte beyond the stream
are zero; unpack_bytes_to_bits of these bytes with length n returns bits; and
packBitsToBytes / unpackBytesToBits of the audio codec produce the same bytes
and the same bits. -/
theorem C23_bit_packing (bits : List Bool) (hlen : bits.length + 7 < 2 ^ 64) :
    (pack_bits_to_bytes bits).length = (bits.length + 7) / 8 ∧
      (∀ x ∈ pack_bits_to_bytes bits, x < 256) ∧
      (∀ i, i < bits.length →
        ((pack_bits_to_bytes bits).getD (i / 8) 0).testBit (7 - i % 8) = bits.getD i false) ∧
      (∀ i, bits.length ≤ i → i < 8 * ((bits.length + 7) / 8) →
        ((pack_bits_to_bytes bits).getD (i / 8) 0).testBit (7 - i % 8) = false) ∧
      unpack_bytes_to_bits (pack_bits_to_bytes bits) bits.length = .ok bits ∧
      packBitsToBytes bits = pack_bits_to_bytes bits ∧
      unpackBytesToBits (packBitsToBytes bits) bits.length = .ok bits := by
  obtain ⟨h1, h2, h3⟩ := pack_spec bits hlen
  have hfun : (bitAt (pack_bits_to_bytes bits))
      = fun i => (decide (i < bits.length) && bits.getD i false) := funext h3
  have hsame : packBitsToBytes bits = pack_bits_to_bytes bits := rfl
  have hfit : 0 + bits.length ≤ 8 * (pack_bits_to_bytes bits).length := by
    rw [h1]
    omega
  refine ⟨h1, ?_, ?_, ?_, ?_, hsame, ?_⟩
  · intro x hx
    obtain ⟨j, hj, hjx⟩ := List.getElem_of_mem hx
    have := h2 j
    rw [List.getD_eq_getElem _ _ hj, hjx] at this
    exact this
  · intro i hi
    have := h3 i
    unfold bitAt at this
    rw [this]
    simp [hi]
  · intro i hi _
    have := h3 i
    unfold bitAt at this
    rw [this]
    have : ¬ (i < bits.length) := by omega
    simp [this]
  · unfold unpack_bytes_to_bits
    rw [unpackStringLoop_ok _ _ _ _ hfit, hfun, map_getD_range]
    rfl
  · rw [hsame]
    unfold unpackBytesToBits
    rw [unpackVectorLoop_ok _ _ _ _ hfit, hfun, map_getD_range]
    rfl

/-- C23, an instance: the ten bits 1011000111 are packed into the bytes 177 and
192. -/
theorem C23_bit_packing_witness :
    [true, false, true, true, false, false, false, true, true, true].length + 7 < 2 ^ 64 ∧
      pack_bits_to_bytes [true, false, true, true, false, false, false, true, true, true]
        = [177, 192] ∧
      unpack_bytes_to_bits
          (pack_bits_to_bytes [true, false, true, true, false, false, false, true, true, true])
          [true, false, true, true, false, false, false, true, true, true].length
        = .ok [true, false, true, true, false, false, false, true, true, true] :=
  ⟨by decide, by decide,
    (C23_bit_packing [true, false, true, true, false, false, false, true, true, true]
      (by decide)).2.2.2.2.1⟩

/-! ## Validation of the inputs -/

theorem computeResiduals_nonzero (predictor : Int) (img : Mat) (h : predictor ≠ 0) :
    computeResiduals predictor img = computeResiduals 1 img := by
  unfold computeResiduals
  have : (fun (_ : List Int) r c => img.at r c - predict predictor img.at r c)
      = fun _ r c => img.at r c - predict 1 img.at r c := by
    funext _ r c
    have e1 : predict predictor img.at r c = predict 1 img.at r c := by
      unfold predict
      rw [if_neg h, if_neg (show (1 : Int) ≠ 0 by decide)]
    rw [e1]
  rw [this]

/-- C24 as amended: image encode does not validate the predictor argument. For
a predictor other than 0 or 1 it computes the residuals of the median
predictor, exactly as for 1, codes them and writes the artifact, which differs
from the artifact of predictor 1 at most in the predictor byte. -/
theorem C24_predictor_not_validated (predictor : Int) (img : Mat)
    (h : predictor ≠ 0 ∧ predictor ≠ 1) :
    ∃ f f1, encodeImage predictor img = .ok f ∧ encodeImage 1 img = .ok f1 ∧
      computeResiduals predictor img = computeResiduals 1 img ∧
      f = { f1 with pred8 := f.pred8 } := by
  have hres := computeResiduals_nonzero predictor img h.1
  have hc := chooseM_eq (computeResiduals 1 img)
  generalize imageCandidates.foldl (pick (computeResiduals 1 img))
    { best_len := SIZE_MAX, best_m := 1, best_bits := [] } = best at hc
  have e1 : encodeImage predictor img
      = .ok { w := img.cols % 2 ^ 32, h := img.rows % 2 ^ 32, pred8 := toU8 predictor,
              m := best.best_m, bits_len := best.best_bits.length % 2 ^ 64,
              payload := pack_bits_to_bytes best.best_bits } := by
    unfold encodeImage
    simp only [hres, hc]
  have e2 : encodeImage 1 img
      = .ok { w := img.cols % 2 ^ 32, h := img.rows % 2 ^ 32, pred8 := toU8 1,
              m := best.best_m, bits_len := best.best_bits.length % 2 ^ 64,
              payload := pack_bits_to_bytes best.best_bits } := by
    unfold encodeImage
    simp only [hc]
  exact ⟨_, _, e1, e2, hres, rfl⟩

set_option maxRecDepth 100000 in
/-- C24 as amended, an instance: predictor 7 on the image with rows 5, 10 and
10, 0. -/
theorem C24_predictor_not_validated_witness :
    ((7 : Int) ≠ 0 ∧ (7 : Int) ≠ 1) ∧
      ∃ f f1, encodeImage 7 (Mat.mk 2 2 [5, 10, 10, 0]) = .ok f ∧
        encodeImage 1 (Mat.mk 2 2 [5, 10, 10, 0]) = .ok f1 ∧
        computeResiduals 7 (Mat.mk 2 2 [5, 10, 10, 0])
          = computeResiduals 1 (Mat.mk 2 2 [5, 10, 10, 0]) ∧
        f = { f1 with pred8 := f.pred8 } :=
  ⟨by decide, C24_predictor_not_validated 7 (Mat.mk 2 2 [5, 10, 10, 0]) (by decide)⟩

set_option maxRecDepth 100000 in
/-- C24 fails as stated: with the predictor argument 2 the encoder does not
fail; for the 1 x 1 image with pixel 3 it codes the residual 3 and writes a
file with predictor byte 2, m = 4 and a payload of 4 bits. -/
theorem C24_counterexample :
    encodeImage 2 (Mat.mk 1 1 [3])
      = .ok { w := 1, h := 1, pred8 := 2, m := 4, bits_len := 4, payload := [96] } := by
  rfl

set_option maxRecDepth 100000 in
/-- C28 fails on the code: the file with w = h = 1, predictor byte 0, m = 1,
bit length 16 and the single payload byte 128 announces 16 bits and holds 8.
The unpacking reads bytes[1], the position after the payload, and the decoder
does not fail: it returns the 1 x 1 image with pixel 0. With bit length 24 the
unpacking goes on to bytes[2], outside the buffer. -/
theorem C28_truncated_payload :
    8 * [128].length < 16 ∧
      unpack_bytes_to_bits [128] 16
        = .ok [true, false, false, false, false, false, false, false,
               false, false, false, false, false, false, false, false] ∧
      stringAt [128] 1 = .ok 0 ∧
      decodeFile { w := 1, h := 1, pred8 := 0, m := 1, bits_len := 16, payload := [128] }
        = .ok [0] ∧
      unpack_bytes_to_bits [128] 24 = .error { index := 2 } ∧
      decodeFile { w := 1, h := 1, pred8 := 0, m := 1, bits_len := 24, payload := [128] }
        = .error (.outOfBounds 2) := by
  refine ⟨by decide, rfl, rfl, rfl, rfl, rfl⟩

theorem wavHeaderBytes_accepted (c : Nat) (hc : c < 65536) :
    ∃ hdr, readWav (some (wavHeaderBytes c)) = some hdr ∧ hdr.channels = c := by
  refine ⟨WAVHeader.ofBytes (wavHeaderBytes c), ?_, ?_⟩
  · unfold readWav
    simp [wavHeaderBytes, WAVHeader.ofBytes, chars4, le16]
  · simp only [WAVHeader.ofBytes, le16, wavHeaderBytes]
    simp only [List.getD_cons_succ, List.getD_cons_zero]
    omega

/-- C25 as amended: readWav accepts a file if and only if it can be opened, has
the 44 bytes of the header, RIFF/WAVE magic, format_type == 1 and
bits_per_sample == 16. The channel count is not examined: for every 16-bit
channel count c there is an accepted header with channels = c. -/
theorem C25_header_validation (file : Option (List Nat)) (hdr : WAVHeader) (c : Nat)
    (hc : c < 65536) :
    (readWav file = some hdr ↔
      ∃ bytes, file = some bytes ∧ 44 ≤ bytes.length ∧ hdr = WAVHeader.ofBytes bytes ∧
        hdr.riff = [82, 73, 70, 70] ∧ hdr.wave = [87, 65, 86, 69] ∧
        hdr.format_type = 1 ∧ hdr.bits_per_sample = 16) ∧
    ∃ accepted, readWav (some (wavHeaderBytes c)) = some accepted ∧
      accepted.channels = c := by
  refine ⟨?_, wavHeaderBytes_accepted c hc⟩
  constructor
  · intro h
    unfold readWav at h
    cases file with
    | none => simp at h
    | some bytes =>
      simp only at h
      split at h
      · simp at h
      · rename_i hlen
        split at h
        · simp at h
        · rename_i hmagic
          split at h
          · simp at h
          · rename_i hfmt
            injection h with h
            subst h
            simp only [not_or, not_not] at hmagic hfmt
            exact ⟨bytes, rfl, by omega, rfl, hmagic.1, hmagic.2, hfmt.1, hfmt.2⟩
  · rintro ⟨bytes, hf, hlen, hh, h1, h2, h3, h4⟩
    subst hf
    subst hh
    unfold readWav
    simp only
    rw [if_neg (by omega), if_neg (by simp [h1, h2]), if_neg (by simp [h3, h4])]

/-- C25 as amended, an instance: the header with two channels. -/
theorem C25_header_validation_witness :
    (2 : Nat) < 65536 ∧
      ∃ accepted, readWav (some (wavHeaderBytes 2)) = some accepted ∧
        accepted.channels = 2 :=
  ⟨by decide,
    (C25_header_validation (some (wavHeaderBytes 2)) (WAVHeader.ofBytes (wavHeaderBytes 2)) 2
      (by decide)).2⟩

/-- C25 fails as stated: the header with RIFF/WAVE magic, format 1, 16 bits per
sample and three channels is accepted, and so is the one with no channel. -/
theorem C25_counterexample :
    (readWav (some (wavHeaderBytes 3))).map (fun h => h.channels) = some 3 ∧
      (readWav (some (wavHeaderBytes 0))).map (fun h => h.channels) = some 0 := by
  refine ⟨by decide, by decide⟩

/-! ## From a decoded value back to the stream -/

theorem leadingZeros_replicate (q : Nat) (t : List Bool) :
    leadingZeros (List.replicate q false ++ true :: t) = q := by
  induction q with
  | zero => rfl
  | succ q ih =>
    rw [List.replicate_succ, List.cons_append, leadingZeros, ih]

theorem unaryLoop_stream (e : DecodeError) (fuel : Nat) :
    ∀ (r : BitReader) (q0 x : Nat) (r1 : BitReader),
    Golomb.unaryLoop e fuel r q0 = .ok (x, r1) →
    ∃ q, r.rest = List.replicate q false ++ true :: r1.rest ∧
      r1 = { bits := r.bits, pos := r.pos + (q + 1) } ∧ (q0 + q < 2 ^ 64 → x = q0 + q) := by
  induction fuel with
  | zero => intro r q0 x r1 h; cases h
  | succ fuel ih =>
    intro r q0 x r1 h
    cases hr : r.rest with
    | nil =>
      simp [Golomb.unaryLoop, rest_nil_hasMore r hr] at h
    | cons b t =>
      obtain ⟨h1, h2⟩ := rest_readBit_cons r b t hr
      simp only [Golomb.unaryLoop, rest_hasMore r b t hr, h1, Bool.not_true,
        Bool.false_eq_true, if_false] at h
      cases b with
      | true =>
        simp only [if_true] at h
        injection h with h
        injection h with hx hr1
        subst hr1
        refine ⟨0, ?_, rfl, ?_⟩
        · rw [h2]
          rfl
        · intro _
          omega
      | false =>
        simp only [Bool.false_eq_true, if_false] at h
        obtain ⟨q, hq1, hq2, hq3⟩ := ih _ _ _ _ h
        refine ⟨q + 1, ?_, ?_, ?_⟩
        · rw [h2] at hq1
          rw [hq1]
          rfl
        · rw [hq2]
          simp only [BitReader.mk.injEq, true_and]
          omega
        · intro hlt
          have hmod : (q0 + 1) % 2 ^ 64 = q0 + 1 := Nat.mod_eq_of_lt (by omega)
          rw [hmod] at hq3
          have := hq3 (by omega)
          omega

theorem readBits_stream (k : Nat) (r : BitReader) (x : Nat) (r1 : BitReader)
    (hp : r.pos ≤ r.bits.length) (h : r.readBits k = .ok (x, r1)) :
    ∃ a, a.length = k ∧ r.rest = a ++ r1.rest ∧ x = accBits 0 a ∧
      r1 = { bits := r.bits, pos := r.pos + k } := by
  obtain ⟨hr1, hle, _⟩ := readBits_ok_inv k r x r1 hp h
  have hsplit : r.rest = r.rest.take k ++ r1.rest := by
    rw [hr1]
    unfold BitReader.rest
    simp only
    rw [← List.drop_drop, List.take_append_drop]
  have hlen : (r.rest.take k).length = k := by
    rw [List.length_take, rest_length]
    omega
  obtain ⟨hok, _⟩ := readBits_ok k r (r.rest.take k) r1.rest hsplit hlen
  rw [h] at hok
  injection hok with hok
  injection hok with hx _
  exact ⟨r.rest.take k, hlen, hsplit, hx, hr1⟩

theorem readBit_stream (r : BitReader) (b : Bool) (r1 : BitReader)
    (h : r.readBit = .ok (b, r1)) :
    r.rest = b :: r1.rest ∧ r1 = { bits := r.bits, pos := r.pos + 1 } := by
  cases hr : r.rest with
  | nil =>
    rw [rest_readBit_nil r hr] at h
    cases h
  | cons b1 t =>
    obtain ⟨h1, h2⟩ := rest_readBit_cons r b1 t hr
    rw [h] at h1
    injection h1 with h1
    injection h1 with hb hr1
    subst hb
    subst hr1
    exact ⟨by rw [h2], rfl⟩

theorem msbFirst_accBits (a : List Bool) :
    a.length ≤ 64 → accBits 0 a < 2 ^ a.length ∧ msbFirst (accBits 0 a) a.length = a := by
  induction a using List.reverseRecOn with
  | nil =>
    intro _
    exact ⟨by simp [accBits], rfl⟩
  | append_singleton a b ih =>
    intro hlen
    rw [List.length_append, List.length_singleton] at hlen
    obtain ⟨h1, h2⟩ := ih (by omega)
    have hpow : 2 ^ a.length ≤ 2 ^ 63 := Nat.pow_le_pow_right (by decide) (by omega)
    have hstep : accBits 0 (a ++ [b]) = 2 * accBits 0 a + (if b then 1 else 0) := by
      have e : accBits 0 (a ++ [b]) = accStep (accBits 0 a) b := by
        unfold accBits
        rw [List.foldl_append]
        rfl
      rw [e]
      exact accStep_eq _ _ (by omega)
    have hbit : (if b then 1 else 0) < 2 := by
      cases b <;> simp
    rw [List.length_append, List.length_singleton, hstep]
    constructor
    · rw [Nat.pow_succ]
      omega
    · rw [msbFirst_succ_eq]
      have hdiv : (2 * accBits 0 a + (if b then 1 else 0)) / 2 = accBits 0 a := by omega
      rw [hdiv, h2]
      congr 1
      cases b with
      | true =>
        simp only [if_true, List.cons.injEq, and_true]
        rw [Nat.testBit_zero]
        simp
        omega
      | false =>
        simp only [Bool.false_eq_true, if_false, List.cons.injEq, and_true, Nat.add_zero]
        rw [Nat.testBit_zero]
        simp

theorem toZigZag_fromZigZag (z : Nat) (hz : z < 2 ^ 64 - 1) :
    Golomb.toZigZag (Golomb.fromZigZag z) = z := by
  by_cases hpar : z % 2 = 0
  · have h1 := fromZigZag_even z (by omega) hpar
    have h2 := toZigZag_nonneg (Golomb.fromZigZag z) (by omega) (by omega)
    omega
  · have h1 := fromZigZag_odd z hz (by omega)
    have h2 := toZigZag_neg (Golomb.fromZigZag z) (by omega) (by omega)
    omega

theorem mul_add_div_mod (q m x : Nat) (hx : x < m) :
    (q * m + x) / m = q ∧ (q * m + x) % m = x := by
  have hm : 0 < m := by omega
  constructor
  · rw [Nat.mul_comm, Nat.mul_add_div hm, Nat.div_eq_of_lt hx, Nat.add_zero]
  · rw [Nat.mul_comm, Nat.mul_add_mod, Nat.mod_eq_of_lt hx]

theorem wellFormed_half (g : Golomb) (hg : g.WellFormed) (hm : g.m ≠ 1) :
    g.b ≠ 0 ∧ 2 ^ (g.b - 1) < g.m ∧ g.m ≤ 2 * 2 ^ (g.b - 1) ∧
      g.cutoff = 2 * 2 ^ (g.b - 1) - g.m ∧ 2 ^ (g.b - 1) ≤ 2 ^ 62 := by
  obtain ⟨hm1, hb63, hle, hmin, hcut⟩ := hg
  have hb0 : g.b ≠ 0 := by
    intro hb
    rw [hb] at hle
    simp only [Nat.pow_zero] at hle
    omega
  have hpow : 2 ^ g.b = 2 * 2 ^ (g.b - 1) := by
    have hb : g.b - 1 + 1 = g.b := by omega
    conv_lhs => rw [← hb, Nat.pow_succ, Nat.mul_comm]
  have hhalf : 2 ^ (g.b - 1) < g.m := by
    rcases hmin with h0 | h0
    · exact absurd h0 hb0
    · exact h0
  have hpow63 : 2 ^ (g.b - 1) ≤ 2 ^ 62 := Nat.pow_le_pow_right (by decide) (by omega)
  rw [hpow] at hle hcut
  exact ⟨hb0, hhalf, hle, hcut, hpow63⟩

theorem short_arith (m p cutoff qm y : Nat) (h1 : p < m) (hc : cutoff = 2 * p - m)
    (hy : y < cutoff) (hq : qm + m < 2 ^ 64) :
    y < m ∧ (qm + y) % 2 ^ 64 = qm + y ∧ qm + y + 1 < 2 ^ 64 := by
  omega

theorem long_arith (m p cutoff qm y t : Nat) (h1 : p < m) (h2 : m ≤ 2 * p)
    (hc : cutoff = 2 * p - m) (hp : p ≤ 2 ^ 62) (hyp : y < p) (hy : ¬ y < cutoff) (ht : t < 2)
    (hq : qm + m < 2 ^ 64) :
    2 * y < 2 ^ 64 ∧ (2 * y + t + 2 ^ 64 - cutoff) % 2 ^ 64 = 2 * y + t - cutoff ∧
      2 * y + t - cutoff < m ∧
      (qm + (2 * y + t - cutoff)) % 2 ^ 64 = qm + (2 * y + t - cutoff) ∧
      ¬ (2 * y + t - cutoff < cutoff) ∧
      (2 * y + t - cutoff + cutoff) % 2 ^ 64 = 2 * y + t ∧
      qm + (2 * y + t - cutoff) + 1 < 2 ^ 64 := by
  omega

theorem encode_short (g : Golomb) (hg : g.WellFormed) (hm : g.m ≠ 1) (q : Nat)
    (a : List Bool) (ha : a.length = g.b - 1) (hc : accBits 0 a < g.cutoff)
    (hq : q * g.m + g.m < 2 ^ 64) :
    (q * g.m + accBits 0 a) % 2 ^ 64 + 1 < 2 ^ 64 ∧
      g.encodeUnsignedToString ((q * g.m + accBits 0 a) % 2 ^ 64)
        = List.replicate q false ++ true :: a := by
  obtain ⟨_, hhalf, _, hcut, _⟩ := wellFormed_half g hg hm
  obtain ⟨hym, hnw, hlt⟩ := short_arith g.m _ g.cutoff (q * g.m) (accBits 0 a) hhalf hcut hc hq
  obtain ⟨hdiv, hmod⟩ := mul_add_div_mod q g.m _ hym
  obtain ⟨_, hmsb⟩ := msbFirst_accBits a (by
    have := hg.2.1
    omega)
  rw [hnw]
  refine ⟨hlt, ?_⟩
  rw [encodeUnsignedToString_lt g hm _ (by rw [hmod]; exact hc), hdiv, hmod, ← ha, hmsb]

theorem encode_long (g : Golomb) (hg : g.WellFormed) (hm : g.m ≠ 1) (q : Nat)
    (a : List Bool) (bit : Bool) (ha : a.length = g.b - 1) (hc : ¬ accBits 0 a < g.cutoff)
    (hq : q * g.m + g.m < 2 ^ 64) :
    (q * g.m + (accStep (accBits 0 a) bit + 2 ^ 64 - g.cutoff) % 2 ^ 64) % 2 ^ 64 + 1 < 2 ^ 64 ∧
      g.encodeUnsignedToString
          ((q * g.m + (accStep (accBits 0 a) bit + 2 ^ 64 - g.cutoff) % 2 ^ 64) % 2 ^ 64)
        = List.replicate q false ++ true :: (a ++ [bit]) := by
  obtain ⟨hb0, hhalf, hle, hcut, hp62⟩ := wellFormed_half g hg hm
  have hb63 := hg.2.1
  obtain ⟨hy, _⟩ := msbFirst_accBits a (by omega)
  rw [ha] at hy
  have hbit : (if bit then 1 else 0) < 2 := by
    cases bit <;> simp
  obtain ⟨h2y, hrv, hrm, hnw, hge, hsum, hlt⟩ :=
    long_arith g.m _ g.cutoff (q * g.m) (accBits 0 a) (if bit then 1 else 0)
      hhalf hle hcut hp62 hy hc hbit hq
  have hstep : accStep (accBits 0 a) bit = 2 * accBits 0 a + (if bit then 1 else 0) :=
    accStep_eq _ _ h2y
  have hab : accBits 0 (a ++ [bit]) = 2 * accBits 0 a + (if bit then 1 else 0) := by
    have e : accBits 0 (a ++ [bit]) = accStep (accBits 0 a) bit := by
      unfold accBits
      rw [List.foldl_append]
      rfl
    rw [e, hstep]
  obtain ⟨_, hmsb⟩ := msbFirst_accBits (a ++ [bit]) (by
    rw [List.length_append, List.length_singleton]
    omega)
  rw [hab, List.length_append, List.length_singleton, ha,
    show g.b - 1 + 1 = g.b by omega] at hmsb
  obtain ⟨hdiv, hmod⟩ := mul_add_div_mod q g.m _ hrm
  rw [hstep, hrv, hnw]
  refine ⟨hlt, ?_⟩
  rw [encodeUnsignedToString_ge g hm _ (by rw [hmod]; exact hge), hdiv, hmod, hsum, hmsb]

theorem decodeUnsigned_stream (g : Golomb) (hg : g.WellFormed) (r : BitReader) (x : Nat)
    (r1 : BitReader) (h : g.decodeUnsigned r = .ok (x, r1))
    (hq : (leadingZeros r.rest + 1) * g.m < 2 ^ 64) :
    x + 1 < 2 ^ 64 ∧ r.rest = g.encodeUnsignedToString x ++ r1.rest ∧
      r1.pos = r.pos + (g.encodeUnsignedToString x).length := by
  unfold Golomb.decodeUnsigned at h
  by_cases hm : g.m = 1
  · rw [if_pos hm] at h
    obtain ⟨q, hq1, hq2, hq3⟩ := unaryLoop_stream _ _ _ _ _ _ h
    rw [hq1, leadingZeros_replicate, hm] at hq
    have hx : x = q := by
      have := hq3 (by omega)
      omega
    subst hx
    rw [encodeUnsignedToString_m1 g hm]
    refine ⟨by omega, ?_, ?_⟩
    · rw [hq1]
      simp
    · rw [hq2]
      simp
  · rw [if_neg hm] at h
    obtain ⟨hb0, _, _, _, _⟩ := wellFormed_half g hg hm
    cases hu : Golomb.unaryLoop .unexpectedEndUnary (r.bits.length - r.pos + 1) r 0 with
    | error e1 => rw [hu] at h; cases h
    | ok p =>
      obtain ⟨q, ra⟩ := p
      rw [hu] at h
      simp only at h
      rw [if_neg hb0] at h
      obtain ⟨q1, hq1, hq2, hq3⟩ := unaryLoop_stream _ _ _ _ _ _ hu
      obtain ⟨_, _, hra, _⟩ := unaryLoop_ok_inv _ _ r 0 q ra hu
      rw [hq1, leadingZeros_replicate, Nat.succ_mul] at hq
      have hqq : q = q1 := by
        have h1 : q1 * 1 ≤ q1 * g.m := Nat.mul_le_mul_left _ hg.1
        have := hq3 (by omega)
        omega
      subst hqq
      have hrapos : ra.pos ≤ ra.bits.length := by
        rw [hq2]
        rw [hq2] at hra
        exact hra
      cases hx : ra.readBits (g.b - 1) with
      | error e1 => rw [hx] at h; cases h
      | ok p2 =>
        obtain ⟨y, rb⟩ := p2
        rw [hx] at h
        simp only at h
        obtain ⟨a, ha1, ha2, ha3, ha4⟩ := readBits_stream _ _ _ _ hrapos hx
        subst ha3
        by_cases hc : accBits 0 a < g.cutoff
        · rw [if_pos hc] at h
          injection h with h
          injection h with hx1 hr
          subst hr
          obtain ⟨hlt, henc⟩ := encode_short g hg hm q a ha1 hc hq
          rw [hx1] at hlt henc
          refine ⟨hlt, ?_, ?_⟩
          · rw [henc, hq1, ha2]
            simp
          · rw [henc, ha4, hq2]
            simp only [List.length_append, List.length_replicate, List.length_cons, ha1]
            omega
        · rw [if_neg hc] at h
          cases hn : rb.readBit with
          | error e1 => rw [hn] at h; cases h
          | ok p3 =>
            obtain ⟨bit, rc⟩ := p3
            rw [hn] at h
            simp only at h
            injection h with h
            injection h with hx1 hr
            subst hr
            obtain ⟨hb1, hb2⟩ := readBit_stream _ _ _ hn
            obtain ⟨hlt, henc⟩ := encode_long g hg hm q a bit ha1 hc hq
            have hx2 : (q * g.m + (accStep (accBits 0 a) bit + 2 ^ 64 - g.cutoff) % 2 ^ 64)
                % 2 ^ 64 = x := hx1
            rw [hx2] at hlt henc
            refine ⟨hlt, ?_, ?_⟩
            · rw [henc, hq1, ha2, hb1]
              simp
            · rw [henc, hb2, ha4, hq2]
              simp only [List.length_append, List.length_replicate, List.length_cons,
                List.length_nil, ha1]
              omega

theorem decode_stream (g : Golomb) (hg : g.WellFormed) (hmode : g.negMode = .INTERLEAVED)
    (bits : List Bool) (v : Int) (k : Nat) (h : g.decode bits = .ok (v, k))
    (hq : (leadingZeros bits + 1) * g.m < 2 ^ 64) :
    g.encode v = bits.take k := by
  unfold Golomb.decode at h
  simp only [hmode] at h
  rw [if_neg (by decide)] at h
  cases hd : g.decodeUnsigned (BitReader.new bits) with
  | error e => rw [hd] at h; cases h
  | ok p =>
    obtain ⟨z, r1⟩ := p
    rw [hd] at h
    simp only at h
    injection h with h
    injection h with hv hk
    have hrest : (BitReader.new bits).rest = bits := rfl
    obtain ⟨hz, hs, hp⟩ := decodeUnsigned_stream g hg _ _ _ hd (by rw [hrest]; exact hq)
    rw [hrest] at hs
    have hpos : (BitReader.new bits).pos = 0 := rfl
    rw [hpos, Nat.zero_add] at hp
    rw [encode_interleaved g hmode, ← hv, toZigZag_fromZigZag z (by omega), ← hk, hp]
    conv_rhs => rw [hs]
    rw [List.take_left]

/-- C29 as amended: in INTERLEAVED mode, for every m for which the coder is
constructed and every bit string on which decode succeeds with result (v, k),
if the run of q leading '0' bits satisfies (q + 1) * m < 2 ^ 64, so that the
64-bit value q * m + r does not wrap around, then encode(v) equals the first k
bits of the bit string. -/
theorem C29_canonical_codewords (m : Nat) (g : Golomb) (bits : List Bool) (v : Int) (k : Nat)
    (hg : Golomb.new m .INTERLEAVED = .ok g) (hd : g.decode bits = .ok (v, k))
    (hq : (leadingZeros bits + 1) * m < 2 ^ 64) :
    g.encode v = bits.take k := by
  obtain ⟨_, _, hgm, hmode, hwf⟩ := new_ok_wellFormed m .INTERLEAVED g hg
  rw [← hgm] at hq
  exact decode_stream g hwf hmode bits v k hd hq

/-- C29 as amended, an instance: with m = 5 the stream 0 1 110 11 decodes to 4
after 5 bits, and 01110 is the code of 4. -/
theorem C29_canonical_codewords_witness :
    (Golomb.new 5 .INTERLEAVED = .ok { m := 5, b := 3, cutoff := 3, negMode := .INTERLEAVED } ∧
      Golomb.decode { m := 5, b := 3, cutoff := 3, negMode := .INTERLEAVED }
        [false, true, true, true, false, true, true] = .ok (4, 5) ∧
      (leadingZeros [false, true, true, true, false, true, true] + 1) * 5 < 2 ^ 64) ∧
      Golomb.encode { m := 5, b := 3, cutoff := 3, negMode := .INTERLEAVED } 4
        = [false, true, true, true, false, true, true].take 5 :=
  ⟨⟨rfl, rfl, by decide⟩,
    C29_canonical_codewords 5 _ [false, true, true, true, false, true, true] 4 5 rfl rfl
      (by decide)⟩

set_option maxRecDepth 100000 in
/-- C29 fails as stated: with m = 2 ^ 63 (b = 63, cutoff = 0) the 66 bits 001
followed by 63 zeros decode to (0, 66), the value 2 * 2 ^ 63 + 0 wrapping around
to 0, while the code of 0 is 1 followed by 63 zeros, 64 bits; and the 65 bits
01 followed by 63 ones decode to (0, 65), the value 2 ^ 64 - 1 being mapped to 0
by fromZigZag. -/
theorem C29_counterexample :
    Golomb.new (2 ^ 63) .INTERLEAVED
        = .ok { m := 2 ^ 63, b := 63, cutoff := 0, negMode := .INTERLEAVED } ∧
      Golomb.decode { m := 2 ^ 63, b := 63, cutoff := 0, negMode := .INTERLEAVED }
          ([false, false, true] ++ List.replicate 63 false) = .ok (0, 66) ∧
      Golomb.encode { m := 2 ^ 63, b := 63, cutoff := 0, negMode := .INTERLEAVED } 0
        = true :: List.replicate 63 false ∧
      Golomb.encode { m := 2 ^ 63, b := 63, cutoff := 0, negMode := .INTERLEAVED } 0
        ≠ ([false, false, true] ++ List.replicate 63 false).take 66 ∧
      Golomb.decode { m := 2 ^ 63, b := 63, cutoff := 0, negMode := .INTERLEAVED }
          ([false, true] ++ List.replicate 63 true) = .ok (0, 65) := by
  refine ⟨rfl, rfl, rfl, by decide, rfl⟩

/-! ## Monotonicity of the rounding -/

theorem f64_ilog2_lt (q : ℚ) (hq : 0 < q) : q < F64.pow2 (F64.ilog2 q + 1) := by
  unfold F64.ilog2
  simp only
  split
  · rw [f64_pow2_eq_zpow]
    have hnum : 0 < q.num := Rat.num_pos.mpr hq
    have hnat : 0 < q.num.natAbs := Int.natAbs_pos.mpr (by omega)
    obtain ⟨_, ha, ha1⟩ := f64_bitLength_spec q.num.natAbs q.num.natAbs hnat (Nat.le_refl _)
    obtain ⟨hb, _, hb1⟩ := f64_bitLength_spec q.den q.den q.den_pos (Nat.le_refl _)
    generalize F64.bitLength q.num.natAbs q.num.natAbs = a at *
    generalize F64.bitLength q.den q.den = b at *
    have hqa : (q.num : ℚ) < (2 : ℚ) ^ a := by
      have h1 : ((q.num.natAbs : Nat) : ℚ) < ((2 ^ a : Nat) : ℚ) := by exact_mod_cast ha
      have h2 : ((q.num.natAbs : Nat) : ℚ) = (q.num : ℚ) := by
        have : ((q.num.natAbs : Nat) : Int) = q.num := Int.natAbs_of_nonneg (by omega)
        rw [← Int.cast_natCast, this]
      rw [h2] at h1
      exact_mod_cast h1
    have hqb : (2 : ℚ) ^ (b - 1) ≤ (q.den : ℚ) := by
      have : ((2 ^ (b - 1) : Nat) : ℚ) ≤ ((q.den : Nat) : ℚ) := by exact_mod_cast hb
      exact_mod_cast this
    have hden : (0 : ℚ) < q.den := by exact_mod_cast q.den_pos
    have hexp : ((a : Int) - (b : Int) + 1) = ((a : Int) - ((b - 1 : Nat) : Int)) := by omega
    rw [hexp, zpow_sub₀ (by norm_num), zpow_natCast, zpow_natCast]
    have hqeq : q = (q.num : ℚ) / (q.den : ℚ) := (Rat.num_div_den q).symm
    conv_lhs => rw [hqeq]
    rw [div_lt_div_iff₀ hden (by positivity)]
    calc (q.num : ℚ) * 2 ^ (b - 1) ≤ (q.num : ℚ) * (q.den : ℚ) := by
          exact mul_le_mul_of_nonneg_left hqb (by exact_mod_cast (le_of_lt hnum))
      _ < (2 : ℚ) ^ a * (q.den : ℚ) := by
          exact mul_lt_mul_of_pos_right hqa hden
  · rename_i h
    have e : (F64.bitLength q.num.natAbs q.num.natAbs : Int) - (F64.bitLength q.den q.den : Int)
        - 1 + 1
        = (F64.bitLength q.num.natAbs q.num.natAbs : Int) - (F64.bitLength q.den q.den : Int) := by
      omega
    rw [e]
    exact lt_of_not_le h

theorem f64_ilog2_mono (x y : ℚ) (hx : 0 < x) (hxy : x ≤ y) : F64.ilog2 x ≤ F64.ilog2 y := by
  have h1 := f64_ilog2_le x hx
  have h2 := f64_ilog2_lt y (lt_of_lt_of_le hx hxy)
  rw [f64_pow2_eq_zpow] at h1 h2
  have h3 : (2 : ℚ) ^ F64.ilog2 x < (2 : ℚ) ^ (F64.ilog2 y + 1) :=
    lt_of_le_of_lt (le_trans h1 hxy) h2
  have h4 := (zpow_lt_zpow_iff_right₀ (by norm_num : (1 : ℚ) < 2)).mp h3
  omega

theorem roundHalfEven_mono (x y : ℚ) (hxy : x ≤ y) :
    F64.roundHalfEven x ≤ F64.roundHalfEven y := by
  by_contra hlt
  have hlt1 : F64.roundHalfEven y + 1 ≤ F64.roundHalfEven x := by omega
  have hq : (F64.roundHalfEven y : ℚ) + 1 ≤ (F64.roundHalfEven x : ℚ) := by exact_mod_cast hlt1
  have hx := (abs_le.mp (roundHalfEven_error x)).2
  have hy := (abs_le.mp (roundHalfEven_error y)).1
  have hxy2 : x = y := by linarith
  subst hxy2
  omega

theorem roundHalfEven_le_int (x : ℚ) (n : Int) (h : x ≤ n) : F64.roundHalfEven x ≤ n := by
  have hx := (abs_le.mp (roundHalfEven_error x)).2
  have : (F64.roundHalfEven x : ℚ) < (n : ℚ) + 1 := by linarith
  have : F64.roundHalfEven x < n + 1 := by exact_mod_cast this
  omega

theorem int_le_roundHalfEven (x : ℚ) (n : Int) (h : (n : ℚ) ≤ x) : n ≤ F64.roundHalfEven x := by
  have hx := (abs_le.mp (roundHalfEven_error x)).1
  have : (n : ℚ) - 1 < (F64.roundHalfEven x : ℚ) := by linarith
  have : n - 1 < F64.roundHalfEven x := by exact_mod_cast this
  omega

theorem roundHalfEven_int (n : Int) : F64.roundHalfEven (n : ℚ) = n := by
  have h1 := roundHalfEven_le_int (n : ℚ) n (le_refl _)
  have h2 := int_le_roundHalfEven (n : ℚ) n (le_refl _)
  omega

theorem f64_round_mono (x y : ℚ) (hx : 0 ≤ x) (hxy : x ≤ y) : F64.round x ≤ F64.round y := by
  by_cases hx0 : x = 0
  · subst hx0
    have h0 : F64.round 0 = 0 := by
      unfold F64.round
      rw [if_pos rfl]
    rw [h0]
    exact f64_round_nonneg y hxy
  · have hxpos : 0 < x := lt_of_le_of_ne hx (Ne.symm hx0)
    have hypos : 0 < y := lt_of_lt_of_le hxpos hxy
    have hmono := f64_ilog2_mono x y hxpos hxy
    unfold F64.round
    rw [if_neg hx0, if_neg (ne_of_gt hypos)]
    simp only
    rw [abs_of_pos hxpos, abs_of_pos hypos]
    have hxl := f64_ilog2_le x hxpos
    have hxu := f64_ilog2_lt x hxpos
    have hyl := f64_ilog2_le y hypos
    generalize F64.ilog2 x = ex at *
    generalize F64.ilog2 y = ey at *
    by_cases hsame : max ex (-1022) = max ey (-1022)
    · rw [hsame]
      have hulp := f64_pow2_pos (max ey (-1022) - 52)
      have hdiv : x / F64.pow2 (max ey (-1022) - 52) ≤ y / F64.pow2 (max ey (-1022) - 52) :=
        (div_le_div_iff_of_pos_right hulp).mpr hxy
      have := roundHalfEven_mono _ _ hdiv
      have hq : (F64.roundHalfEven (x / F64.pow2 (max ey (-1022) - 52)) : ℚ)
          ≤ (F64.roundHalfEven (y / F64.pow2 (max ey (-1022) - 52)) : ℚ) := by
        exact_mod_cast this
      exact mul_le_mul_of_nonneg_right hq (le_of_lt hulp)
    · have hlt : max ex (-1022) < max ey (-1022) := by omega
      have hey : max ey (-1022) = ey := by omega
      rw [hey] at hlt ⊢
      generalize hux : max ex (-1022) = ux at hlt
      have huxge : ex ≤ ux := by omega
      rw [f64_pow2_eq_zpow] at hxu hyl ⊢
      rw [f64_pow2_eq_zpow]
      have hpx : (0 : ℚ) < (2 : ℚ) ^ (ux - 52) := by positivity
      have hpy : (0 : ℚ) < (2 : ℚ) ^ (ey - 52) := by positivity
      have hxb : x / (2 : ℚ) ^ (ux - 52) ≤ ((2 ^ 53 : Int) : ℚ) := by
        rw [div_le_iff₀ hpx]
        have e : (((2 ^ 53 : Int) : ℚ)) * (2 : ℚ) ^ (ux - 52) = (2 : ℚ) ^ (ux + 1) := by
          have : ux + 1 = 53 + (ux - 52) := by omega
          rw [this, zpow_add₀ (by norm_num)]
          norm_num
        rw [e]
        have : (2 : ℚ) ^ (ex + 1) ≤ (2 : ℚ) ^ (ux + 1) :=
          zpow_le_zpow_right₀ (by norm_num) (by omega)
        linarith
      have hyb : ((2 ^ 52 : Int) : ℚ) ≤ y / (2 : ℚ) ^ (ey - 52) := by
        rw [le_div_iff₀ hpy]
        have e : (((2 ^ 52 : Int) : ℚ)) * (2 : ℚ) ^ (ey - 52) = (2 : ℚ) ^ ey := by
          have : ey = 52 + (ey - 52) := by omega
          conv_rhs => rw [this, zpow_add₀ (by norm_num)]
          norm_num
        rw [e]
        exact hyl
      have h1 := roundHalfEven_le_int _ _ hxb
      have h2 := int_le_roundHalfEven _ _ hyb
      have h1q : (F64.roundHalfEven (x / (2 : ℚ) ^ (ux - 52)) : ℚ) ≤ 2 ^ 53 := by
        exact_mod_cast h1
      have h2q : (2 : ℚ) ^ 52 ≤ (F64.roundHalfEven (y / (2 : ℚ) ^ (ey - 52)) : ℚ) := by
        exact_mod_cast h2
      have ha : (F64.roundHalfEven (x / (2 : ℚ) ^ (ux - 52)) : ℚ) * (2 : ℚ) ^ (ux - 52)
          ≤ (2 : ℚ) ^ (ux + 1) := by
        have e : (2 : ℚ) ^ (ux + 1) = 2 ^ 53 * (2 : ℚ) ^ (ux - 52) := by
          have : ux + 1 = 53 + (ux - 52) := by omega
          rw [this, zpow_add₀ (by norm_num)]
          norm_num
        rw [e]
        exact mul_le_mul_of_nonneg_right h1q (le_of_lt hpx)
      have hb : (2 : ℚ) ^ ey
          ≤ (F64.roundHalfEven (y / (2 : ℚ) ^ (ey - 52)) : ℚ) * (2 : ℚ) ^ (ey - 52) := by
        have e : (2 : ℚ) ^ ey = 2 ^ 52 * (2 : ℚ) ^ (ey - 52) := by
          have : ey = 52 + (ey - 52) := by omega
          conv_lhs => rw [this, zpow_add₀ (by norm_num)]
          norm_num
        rw [e]
        exact mul_le_mul_of_nonneg_right h2q (le_of_lt hpy)
      have hc : (2 : ℚ) ^ (ux + 1) ≤ (2 : ℚ) ^ ey :=
        zpow_le_zpow_right₀ (by norm_num) (by omega)
      linarith

theorem f64_round_int (n : Int) (hn : |n| < 2 ^ 53) : F64.round (n : ℚ) = n := by
  by_cases h0 : n = 0
  · subst h0
    unfold F64.round
    simp
  · have hq0 : (n : ℚ) ≠ 0 := by exact_mod_cast h0
    have habs1 : (1 : ℚ) ≤ |(n : ℚ)| := by
      have : 1 ≤ |n| := Int.one_le_abs h0
      exact_mod_cast this
    have habs2 : |(n : ℚ)| < 2 ^ 53 := by
      exact_mod_cast hn
    have hpos : 0 < |(n : ℚ)| := by linarith
    have hl := f64_ilog2_le _ hpos
    have hu := f64_ilog2_lt _ hpos
    unfold F64.round
    rw [if_neg hq0]
    simp only
    generalize F64.ilog2 |(n : ℚ)| = e at *
    rw [f64_pow2_eq_zpow] at hl hu
    have he0 : 0 ≤ e := by
      have h1 : (2 : ℚ) ^ (0 : Int) < (2 : ℚ) ^ (e + 1) := by
        rw [zpow_zero]
        linarith
      have := (zpow_lt_zpow_iff_right₀ (by norm_num : (1 : ℚ) < 2)).mp h1
      omega
    have he52 : e ≤ 52 := by
      have h1 : (2 : ℚ) ^ e < (2 : ℚ) ^ (53 : Int) := by
        have : (2 : ℚ) ^ (53 : Int) = 2 ^ 53 := by norm_num
        rw [this]
        linarith
      have := (zpow_lt_zpow_iff_right₀ (by norm_num : (1 : ℚ) < 2)).mp h1
      omega
    have hmax : max e (-1022) = e := by omega
    rw [hmax, f64_pow2_eq_zpow]
    obtain ⟨j, hj⟩ : ∃ j : Nat, (j : Int) = 52 - e := ⟨(52 - e).toNat, by omega⟩
    have hexp : e - 52 = -(j : Int) := by omega
    rw [hexp, zpow_neg, zpow_natCast]
    have hdiv : (n : ℚ) / ((2 : ℚ) ^ j)⁻¹ = ((n * 2 ^ j : Int) : ℚ) := by
      rw [div_inv_eq_mul]
      push_cast
      rfl
    rw [hdiv, roundHalfEven_int]
    push_cast
    field_simp

theorem emaUpdate_tight (ema : ℚ) (res : Int)
    (h0 : 1 / 2 ^ 1074 ≤ ema) (hK : ema ≤ 65535) (hlo : -65535 ≤ res) (hhi : res ≤ 65535) :
    1 / 2 ^ 1074 ≤ emaUpdate ema res ∧ emaUpdate ema res ≤ 65535 := by
  have hpos : (0 : ℚ) < 1 / 2 ^ 1074 := by positivity
  have hres : F64.round (res : ℚ) = res :=
    f64_round_int res (by
      rw [abs_lt]
      constructor <;> omega)
  have habs : |(res : ℚ)| ≤ 65535 := by
    rw [abs_le]
    constructor
    · exact_mod_cast hlo
    · exact_mod_cast hhi
  have ha0 : (0 : ℚ) ≤ |(res : ℚ)| := abs_nonneg _
  have hc1 : F64.round (4458563631096791 / 4503599627370496 * (1 / 2 ^ 1074)) = 1 / 2 ^ 1074 := by
    decide!
  have hc2 : F64.round (1 / 2 ^ 1074) = 1 / 2 ^ 1074 := by
    decide!
  have hc3 : F64.round (F64.round (4458563631096791 / 4503599627370496 * 65535)
      + F64.round (5764607523034235 / 576460752303423488 * 65535)) = 65535 := by
    decide!
  unfold emaUpdate
  rw [one_sub_alpha_eq, alpha_eq, hres]
  generalize |(res : ℚ)| = a at habs ha0
  have hx1 : (0 : ℚ) ≤ 4458563631096791 / 4503599627370496 * (1 / 2 ^ 1074) := by positivity
  have hx2 : (0 : ℚ) ≤ 4458563631096791 / 4503599627370496 * ema := by
    have : (0 : ℚ) ≤ ema := by linarith
    positivity
  have hx3 : (0 : ℚ) ≤ 5764607523034235 / 576460752303423488 * a := by positivity
  have hm1 : F64.round (4458563631096791 / 4503599627370496 * (1 / 2 ^ 1074))
      ≤ F64.round (4458563631096791 / 4503599627370496 * ema) :=
    f64_round_mono _ _ hx1 (by linarith)
  have hm2 : F64.round (4458563631096791 / 4503599627370496 * ema)
      ≤ F64.round (4458563631096791 / 4503599627370496 * 65535) :=
    f64_round_mono _ _ hx2 (by linarith)
  have hm3 : F64.round (5764607523034235 / 576460752303423488 * a)
      ≤ F64.round (5764607523034235 / 576460752303423488 * 65535) :=
    f64_round_mono _ _ hx3 (by linarith)
  have hn3 := f64_round_nonneg _ hx3
  rw [hc1] at hm1
  generalize F64.round (4458563631096791 / 4503599627370496 * ema) = t1 at hm1 hm2
  generalize F64.round (5764607523034235 / 576460752303423488 * a) = t2 at hm3 hn3
  constructor
  · have := f64_round_mono (1 / 2 ^ 1074) (t1 + t2) (le_of_lt hpos) (by linarith)
    rw [hc2] at this
    exact this
  · have := f64_round_mono (t1 + t2) _ (by linarith) (add_le_add hm2 hm3)
    rw [hc3] at this
    exact this

theorem choose_m_tight (ema : ℚ) (h0 : 0 ≤ ema) (hK : ema ≤ 65535) :
    1 ≤ choose_m_from_ema ema ∧ choose_m_from_ema ema ≤ 65535 := by
  have hc : F64.round (65535 + 1 / 2) = 65535 + 1 / 2 := by
    decide!
  unfold choose_m_from_ema
  simp only
  have hx : (0 : ℚ) ≤ ema + 1 / 2 := by linarith
  have h2 := f64_round_nonneg _ hx
  have hb := f64_round_mono (ema + 1 / 2) (65535 + 1 / 2) hx (by linarith)
  rw [hc] at hb
  generalize F64.round (ema + 1 / 2) = x at h2 hb
  have hf0 : 0 ≤ ⌊x⌋ := Int.floor_nonneg.mpr h2
  have hf1 : ⌊x⌋ ≤ 65535 := by
    have h1 : (⌊x⌋ : ℚ) ≤ x := Int.floor_le x
    have h3 : (⌊x⌋ : ℚ) < 65536 := by linarith
    have : ⌊x⌋ < 65536 := by exact_mod_cast h3
    omega
  have hmax : max (1 : ℚ) ((⌊x⌋ : Int) : ℚ) = ((max 1 ⌊x⌋ : Int) : ℚ) := by
    push_cast
    rfl
  rw [hmax, Int.floor_intCast]
  unfold toU64
  omega

/-! ## Bounds of the adaptive parameter -/

theorem coder_of_bounded (ema : ℚ) (h0 : 1 / 2 ^ 1074 ≤ ema) (hK : ema ≤ 65535) :
    0 < ema ∧ (1 ≤ choose_m_from_ema ema ∧ choose_m_from_ema ema ≤ 65535) ∧
      ∃ g, Golomb.new (choose_m_from_ema ema) .INTERLEAVED = .ok g := by
  have hpos : (0 : ℚ) < 1 / 2 ^ 1074 := by positivity
  have h1 : 0 < ema := lt_of_lt_of_le hpos h0
  obtain ⟨g, hg, _⟩ := coder_of_ema ema (le_of_lt h1) (by linarith)
  exact ⟨h1, choose_m_tight ema (le_of_lt h1) hK, g, hg⟩

theorem encodeFrame_bounded (samples : List Int)
    (hs : ∀ x ∈ samples, -32768 ≤ x ∧ x ≤ 32767) (channels : Nat)
    (hch : channels = 1 ∨ channels = 2) (i : Nat) (s : EncState) (hb : s.Bounded) :
    ∃ s1 gL gR, Golomb.new (choose_m_from_ema s.emaL) .INTERLEAVED = .ok gL ∧
      Golomb.new (choose_m_from_ema s.emaR) .INTERLEAVED = .ok gR ∧
      encodeFrame samples channels i s = .ok s1 ∧ s1.Bounded ∧
      (∀ res ∈ frameResiduals samples channels i s, -65535 ≤ res ∧ res ≤ 65535) ∧
      s1.emaL = emaUpdate s.emaL ((frameResiduals samples channels i s).getD 0 0) ∧
      s1.emaR = (if channels = 2 then
          emaUpdate s.emaR ((frameResiduals samples channels i s).getD 1 0)
        else s.emaR) ∧
      s1.bits = s.bits ++ gL.encode ((frameResiduals samples channels i s).getD 0 0)
        ++ (if channels = 2 then
            gR.encode ((frameResiduals samples channels i s).getD 1 0)
          else []) := by
  obtain ⟨hL0, hLK, hR0, hRK, hp0, hp1⟩ := hb
  obtain ⟨_, _, gL, hnewL⟩ := coder_of_bounded s.emaL hL0 hLK
  obtain ⟨_, _, gR, hnewR⟩ := coder_of_bounded s.emaR hR0 hRK
  have hLs := getD_int16 samples hs (i * channels + 0)
  have hRs := getD_int16 samples hs (i * channels + 1)
  have hpred : -32768 ≤ (if s.first = true then 0 else s.prevL) ∧
      (if s.first = true then 0 else s.prevL) ≤ 32767 := by
    split <;> omega
  unfold frameResiduals
  simp only
  generalize hLdef : samples.getD (i * channels + 0) 0 = L at hLs
  generalize hRdef : samples.getD (i * channels + 1) 0 = R at hRs
  generalize hpdef : (if s.first = true then 0 else s.prevL) = predL at hpred
  obtain ⟨hresL, hrl0, hrl1⟩ := residual_wrap L predL hLs hpred
  obtain ⟨hresR, hrr0, hrr1⟩ := residual_wrap R L hRs hLs
  have hemaL := emaUpdate_tight s.emaL (L - predL) hL0 hLK hrl0 hrl1
  have hemaR := emaUpdate_tight s.emaR (R - L) hR0 hRK hrr0 hrr1
  rw [hresL]
  rcases hch with hc | hc
  · have h12 : ¬ (channels = 2) := by omega
    simp only [h12, if_false]
    refine ⟨{ bits := s.bits ++ gL.encode (L - predL), emaL := emaUpdate s.emaL (L - predL),
              emaR := s.emaR, prevL := L, first := false }, gL, gR, hnewL, hnewR, ?_, ?_, ?_,
            rfl, rfl, by simp⟩
    · unfold encodeFrame
      simp only [hLdef, hpdef, hresL, hnewL, h12, if_false]
    · exact ⟨hemaL.1, hemaL.2, hR0, hRK, hLs.1, hLs.2⟩
    · intro res hres
      simp only [List.mem_singleton] at hres
      rw [hres]
      exact ⟨hrl0, hrl1⟩
  · simp only [hc, if_true]
    rw [hc] at hRdef hLdef
    rw [hresR]
    refine ⟨{ bits := s.bits ++ gL.encode (L - predL) ++ gR.encode (R - L),
              emaL := emaUpdate s.emaL (L - predL), emaR := emaUpdate s.emaR (R - L),
              prevL := L, first := false }, gL, gR, hnewL, hnewR, ?_, ?_, ?_, rfl, rfl, rfl⟩
    · unfold encodeFrame
      simp only [hLdef, hRdef, hpdef, hresL, hresR, hnewL, hnewR, if_true]
    · exact ⟨hemaL.1, hemaL.2, hemaR.1, hemaR.2, hLs.1, hLs.2⟩
    · intro res hres
      simp only [List.mem_cons, List.mem_singleton, List.not_mem_nil, or_false] at hres
      rcases hres with hres | hres
      · rw [hres]
        exact ⟨hrl0, hrl1⟩
      · rw [hres]
        exact ⟨hrr0, hrr1⟩

theorem encodeLoop_bounded (samples : List Int)
    (hs : ∀ x ∈ samples, -32768 ≤ x ∧ x ≤ 32767) (channels : Nat)
    (hch : channels = 1 ∨ channels = 2) (n : Nat) :
    ∀ (i : Nat) (s : EncState), s.Bounded →
    ∃ s1, encodeLoop samples channels n i s = .ok s1 ∧ s1.Bounded := by
  induction n with
  | zero =>
    intro i s hb
    exact ⟨s, rfl, hb⟩
  | succ n ih =>
    intro i s hb
    obtain ⟨s1, _, _, _, _, hf, hb1, _⟩ := encodeFrame_bounded samples hs channels hch i s hb
    obtain ⟨s2, hl, hb2⟩ := ih (i + 1) s1 hb1
    refine ⟨s2, ?_, hb2⟩
    unfold encodeLoop
    rw [hf]
    exact hl

theorem init_bounded : EncState.init.Bounded := by
  unfold EncState.Bounded EncState.init
  simp only
  refine ⟨?_, by norm_num, ?_, by norm_num, by norm_num, by norm_num⟩
  · rw [div_le_one (by positivity)]
    exact one_le_pow₀ (by norm_num)
  · rw [div_le_one (by positivity)]
    exact one_le_pow₀ (by norm_num)

/-- C31: for channels 1 or 2 and every sequence of 16-bit samples, encodeSamples
returns, and before every frame i each channel's average lies in (0, 65535], the
parameter m derived from it satisfies 1 ≤ m ≤ 65535 and the constructor of the
coder succeeds for it; every residual computed in the frame lies in
[-65535, 65535], and the frame codes these residuals with these coders and
updates the averages with them. -/
theorem C31_bounded_parameter (samples : List Int) (channels : Nat)
    (hch : channels = 1 ∨ channels = 2) (hs : ∀ x ∈ samples, -32768 ≤ x ∧ x ≤ 32767)
    (i : Nat) :
    (∃ bits, encodeSamples samples channels = .ok bits) ∧
    ∃ s s1 gL gR, encodeLoop samples channels i 0 EncState.init = .ok s ∧
      (0 < s.emaL ∧ s.emaL ≤ 65535) ∧ (0 < s.emaR ∧ s.emaR ≤ 65535) ∧
      (1 ≤ choose_m_from_ema s.emaL ∧ choose_m_from_ema s.emaL ≤ 65535) ∧
      (1 ≤ choose_m_from_ema s.emaR ∧ choose_m_from_ema s.emaR ≤ 65535) ∧
      Golomb.new (choose_m_from_ema s.emaL) .INTERLEAVED = .ok gL ∧
      Golomb.new (choose_m_from_ema s.emaR) .INTERLEAVED = .ok gR ∧
      (∀ res ∈ frameResiduals samples channels i s, -65535 ≤ res ∧ res ≤ 65535) ∧
      encodeFrame samples channels i s = .ok s1 ∧
      s1.emaL = emaUpdate s.emaL ((frameResiduals samples channels i s).getD 0 0) ∧
      s1.emaR = (if channels = 2 then
          emaUpdate s.emaR ((frameResiduals samples channels i s).getD 1 0)
        else s.emaR) ∧
      s1.bits = s.bits ++ gL.encode ((frameResiduals samples channels i s).getD 0 0)
        ++ (if channels = 2 then
            gR.encode ((frameResiduals samples channels i s).getD 1 0)
          else []) := by
  constructor
  · obtain ⟨s, hl, _⟩ := encodeLoop_bounded samples hs channels hch
      (samples.length / channels) 0 EncState.init init_bounded
    unfold encodeSamples
    rw [hl]
    exact ⟨s.bits, rfl⟩
  · obtain ⟨s, hl, hb⟩ := encodeLoop_bounded samples hs channels hch i 0 EncState.init
      init_bounded
    obtain ⟨s1, gL, gR, hgL, hgR, hf, _, hres, he1, he2, hbits⟩ :=
      encodeFrame_bounded samples hs channels hch i s hb
    obtain ⟨hL0, hLK, hR0, hRK, _, _⟩ := hb
    obtain ⟨hLpos, hmL, _⟩ := coder_of_bounded s.emaL hL0 hLK
    obtain ⟨hRpos, hmR, _⟩ := coder_of_bounded s.emaR hR0 hRK
    exact ⟨s, s1, gL, gR, hl, ⟨hLpos, hLK⟩, ⟨hRpos, hRK⟩, hmL, hmR, hgL, hgR, hres, hf,
      he1, he2, hbits⟩

/-- C31, an instance: the mono samples -32768, 32767, -32768, whose second and
third residuals are 65535 and -65535; encodeSamples returns for them. -/
theorem C31_bounded_parameter_witness :
    (((1 : Nat) = 1 ∨ (1 : Nat) = 2) ∧
      (∀ x ∈ [(-32768 : Int), 32767, -32768], -32768 ≤ x ∧ x ≤ 32767)) ∧
      ∃ bits, encodeSamples [-32768, 32767, -32768] 1 = .ok bits :=
  ⟨⟨Or.inl rfl, by decide⟩,
    (C31_bounded_parameter [-32768, 32767, -32768] 1 (Or.inl rfl) (by decide) 2).1⟩
